import Mathlib

/-!
GenericAlgorithms: heap engine, suffix array engine and general algorithms

A shallow embedding of `GenericAlgos/Heap.h`, `GenericAlgos/SuffixArray.{h,cpp}` and
`GenericAlgos/GeneralAlgorithmsAndDataStructures.{h,cpp}` (partition, quicksort, searches,
selection, permutations, combinations, subsets, modular exponentiation, longest common
subsequence, approximate string matching, range partition).

Conventions of the embedding:
* `std::vector<T>` and `std::list<T>` are a `List`, a `std::string` is a `List Char`, a
  `std::set` is a `Finset`; an index of type `size_t` is a `Nat`, reduced modulo `2^64`
  where the source can wrap.
* a reference member is the content of the vector it is bound to; where the reference of an
  object can be bound to a vector of another object (a copied `Heap`), the state of the
  object holds both vectors.
* a failed `assert`, a thrown `std::out_of_range` or `std::invalid_argument`, a read outside
  a vector and an exhausted loop bound of the model are distinct `Fault`s; every operation
  that can hit one returns `Result`.
* loops are recursive functions on an explicit bound (`fuel`); the bound handed to a
  loop by its caller is part of the definition, and running out of it is reported as
  `Fault.fuel`, never silently.
-/

namespace GADS

/-- Ways in which a call can end without a value. -/
inductive Fault where
  /-- an `assert(...)` of the source does not hold -/
  | assertion
  /-- the exception `std::out_of_range` is thrown -/
  | outOfRange
  /-- an element outside a vector is read (undefined behaviour in the source) -/
  | outOfBounds
  /-- the loop bound of the model is exhausted -/
  | fuel
  /-- the exception `std::invalid_argument` is thrown -/
  | invalidArgument
  deriving DecidableEq, Repr

/-- Outcome of a call: a value or a `Fault`. -/
abbrev Result (α : Type) := Except Fault α

deriving instance DecidableEq for Except

/-- The effect of `std::swap(v[i], v[j])` on a vector. -/
def swapAt {α : Type} (l : List α) (i j : Nat) : List α :=
  match l[i]?, l[j]? with
  | some a, some b => (l.set i b).set j a
  | _, _ => l

/-! ## Heap.h -/

/-- The comparer functors the repository instantiates `HeapBase` with:
`std::less<T>` (`MinHeap`) and `std::greater<T>` (`MaxHeap`, `HeapSorter`). -/
inductive Comparer where
  | less
  | greater
  deriving DecidableEq, Repr

/-- The call operator of the comparer: true when the first value goes before the second. -/
def Comparer.compare : Comparer → Int → Int → Bool
  | .less, a, b => decide (a < b)
  | .greater, a, b => decide (b < a)

/-- State of a `HeapBase<int, Comparer>` object.  `heapData` is the vector `m_heapData`
refers to.  `sorterCount` tells which derived class the object is: `none` for `Heap`
(`size()` is the vector size, `dropLastElem()` is `pop_back`), `some n` for `HeapSorter`
with `m_nbOfElementsInHeap = n` (`size()` is `n`, `dropLastElem()` decrements `n`). -/
structure HeapBase where
  heapData : List Int
  sorterCount : Option Nat
  deriving DecidableEq, Repr

/-- Virtual `size()`: `m_heapData.size()` in `Heap`, `m_nbOfElementsInHeap` in `HeapSorter`. -/
def HeapBase.size (h : HeapBase) : Nat :=
  match h.sorterCount with
  | none => h.heapData.length
  | some n => n

/-- Virtual `dropLastElem()`: `pop_back()` in `Heap`, `m_nbOfElementsInHeap--` in
`HeapSorter` (only ever reached with a positive count, so no wrap-around). -/
def HeapBase.dropLastElem (h : HeapBase) : HeapBase :=
  match h.sorterCount with
  | none => { h with heapData := h.heapData.dropLast }
  | some n => { h with sorterCount := some (n - 1) }

/-- The logical elements of the heap: the first `size()` slots of the vector. -/
def HeapBase.logical (h : HeapBase) : List Int := h.heapData.take h.size

/-- Read `m_heapData[i]`. -/
def HeapBase.get (h : HeapBase) (i : Nat) : Int := h.heapData.getD i 0

/-- Exchange of two slots: `std::swap(m_heapData[i], m_heapData[j])`. -/
def HeapBase.swap (h : HeapBase) (i j : Nat) : HeapBase :=
  { h with heapData := swapAt h.heapData i j }

/-- Embeds `TopIdx`, the first index in the array. -/
def TopIdx : Nat := 0

/-- Embeds `getParentIdx`: asserts `itemIdx > TopIdx`, returns `(itemIdx - 1) / 2`. -/
def getParentIdx (itemIdx : Nat) : Result Nat :=
  if itemIdx > TopIdx then .ok ((itemIdx - 1) / 2) else .error .assertion

/-- Embeds `getLastIndex`: asserts `size() > 0`, returns `size() - 1`. -/
def HeapBase.getLastIndex (h : HeapBase) : Result Nat :=
  if h.size > 0 then .ok (h.size - 1) else .error .assertion

/-- Embeds `top()`: `m_heapData.front()`, the front element of the vector. -/
def HeapBase.top (h : HeapBase) : Result Int :=
  match h.heapData.head? with
  | some front => .ok front
  | none => .error .outOfBounds

/-- Embeds `getLeftChildIdx`. -/
def getLeftChildIdx (itemIdx : Nat) : Nat := itemIdx * 2 + 1

/-- Embeds `getRightChildIdx`. -/
def getRightChildIdx (itemIdx : Nat) : Nat := itemIdx * 2 + 2

/-- The `while (!orderSet && itemIdx != TopIdx)` loop of `bubbleUp`. -/
def bubbleUpLoop (c : Comparer) : Nat → HeapBase → Nat → Result HeapBase
  | 0, _, _ => .error .fuel
  | fuel + 1, h, itemIdx =>
    if itemIdx != TopIdx then do
      let parentIdx ← getParentIdx itemIdx
      if c.compare (h.get itemIdx) (h.get parentIdx) then
        bubbleUpLoop c fuel (h.swap itemIdx parentIdx) parentIdx
      else
        .ok h
    else
      .ok h

/-- Embeds `bubbleUp`: bubbles up starting from the element with the given index. -/
def bubbleUp (c : Comparer) (h : HeapBase) (itemIdx : Nat) : Result HeapBase :=
  if itemIdx < h.size then bubbleUpLoop c (itemIdx + 1) h itemIdx else .error .assertion

/-- The `while (!orderSet && topChildIdx <= getLastIndex())` loop of `bubbleDown`.
As in the source, `itemIdx` is the function parameter and is not reassigned by the
loop: the right child is always `getRightChildIdx(itemIdx)` and the comparison and the
swap always involve `m_heapData[itemIdx]`. -/
def bubbleDownLoop (c : Comparer) : Nat → HeapBase → Nat → Nat → Result HeapBase
  | 0, _, _, _ => .error .fuel
  | fuel + 1, h, itemIdx, topChildIdx => do
    let last ← h.getLastIndex
    if topChildIdx ≤ last then
      let rightChildIdx := getRightChildIdx itemIdx
      let topChildIdx :=
        if rightChildIdx ≤ last && c.compare (h.get rightChildIdx) (h.get topChildIdx)
        then rightChildIdx else topChildIdx
      if c.compare (h.get topChildIdx) (h.get itemIdx) then
        bubbleDownLoop c fuel (h.swap itemIdx topChildIdx) itemIdx (getLeftChildIdx topChildIdx)
      else
        .ok h
    else
      .ok h

/-- Embeds `bubbleDown`: bubbles down starting from the element with the given index. -/
def bubbleDown (c : Comparer) (h : HeapBase) (itemIdx : Nat) : Result HeapBase := do
  let last ← h.getLastIndex
  if itemIdx = last then .ok h
  else if itemIdx > last then .error .assertion
  else bubbleDownLoop c (h.heapData.length + 1) h itemIdx (getLeftChildIdx itemIdx)

/-- Embeds `removeItemFromHeap`: removes the item with the given index and rebalances. -/
def removeItemFromHeap (c : Comparer) (h : HeapBase) (targetIdx : Nat) : Result HeapBase := do
  let last ← h.getLastIndex
  if targetIdx < last then
    let moved : HeapBase := { h with heapData := h.heapData.set targetIdx (h.get last) }
    bubbleDown c moved.dropLastElem targetIdx
  else if targetIdx = last then
    .ok h.dropLastElem
  else
    .error .assertion

/-- Embeds `extractTop`: removes and returns the front element. -/
def extractTop (c : Comparer) (h : HeapBase) : Result (Int × HeapBase) := do
  let top := h.get TopIdx
  let h' ← removeItemFromHeap c h TopIdx
  .ok (top, h')

/-- Embeds `deleteItem`: `std::find` over the first `size()` slots, then `removeItemFromHeap`
at the position found.  Returns whether the element was found. -/
def deleteItem (c : Comparer) (h : HeapBase) (val : Int) : Result (Bool × HeapBase) :=
  let iter := h.logical.indexOf val
  let elementFound := decide (iter < h.size)
  if elementFound then do
    let h' ← removeItemFromHeap c h iter
    .ok (elementFound, h')
  else
    .ok (elementFound, h)

/-- The `for (parentIdx = ...; parentIdx > TopIdx; parentIdx--)` loop of `heapify`. -/
def heapifyLoop (c : Comparer) (h : HeapBase) : Nat → Result HeapBase
  | 0 => .ok h
  | p + 1 => do
    let h' ← bubbleDown c h (p + 1)
    heapifyLoop c h' p

/-- Embeds `heapify`: builds the heap from unordered data in the storage vector. -/
def heapify (c : Comparer) (h : HeapBase) : Result HeapBase := do
  let last ← h.getLastIndex
  let parentIdx ← getParentIdx last
  let h' ← heapifyLoop c h parentIdx
  bubbleDown c h' TopIdx

/-- State of a `Heap<int, Comparer>` object.  `m_heapDataStorage` is the private vector of
the object.  Every constructor binds the reference `m_heapData` of the base class to
`m_heapDataStorage` of the object itself: then `referenced` is `none`.  The class declares
no copy constructor, and the implicit one copies the reference as it is, so in a copy the
reference stays bound to the storage of the object copied from: then `referenced` is
`some v`, where `v` is the content of that vector. -/
structure Heap where
  m_heapDataStorage : List Int
  referenced : Option (List Int)
  deriving DecidableEq, Repr

/-- The base class subobject of a `Heap`: the vector `m_heapData` refers to. -/
def Heap.base (h : Heap) : HeapBase :=
  { heapData :=
      match h.referenced with
      | none => h.m_heapDataStorage
      | some v => v
    sorterCount := none }

/-- The `Heap` object after a member function of the base class has changed the vector
`m_heapData` refers to. -/
def Heap.setBase (h : Heap) (b : HeapBase) : Heap :=
  match h.referenced with
  | none => { h with m_heapDataStorage := b.heapData }
  | some _ => { h with referenced := some b.heapData }

/-- Embeds `Heap(int initialCapacity = 16)`: the empty heap. -/
def Heap.empty : Heap := { m_heapDataStorage := [], referenced := none }

/-- Embeds `Heap(const GenericVector<T>&)`: copies the vector and runs `heapify`. -/
def Heap.ofVector (c : Comparer) (heapData : List Int) : Result Heap := do
  let b ← heapify c { heapData := heapData, sorterCount := none }
  .ok { m_heapDataStorage := b.heapData, referenced := none }

/-- The implicit copy constructor of `Heap`: the storage is copied, the reference of the
base class stays bound to the vector the reference of `h` is bound to. -/
def Heap.copy (h : Heap) : Heap :=
  { m_heapDataStorage := h.m_heapDataStorage, referenced := some h.base.heapData }

/-- Embeds `Heap::insert`: `m_heapDataStorage.emplace_back(item)`, then
`bubbleUp(getLastIndex())`, which reads and writes the vector `m_heapData` refers to. -/
def Heap.insert (c : Comparer) (h : Heap) (item : Int) : Result Heap := do
  let h' : Heap := { h with m_heapDataStorage := h.m_heapDataStorage ++ [item] }
  let last ← h'.base.getLastIndex
  let b ← bubbleUp c h'.base last
  .ok (h'.setBase b)

/-- The inherited `extractTop` called on a `Heap` object. -/
def Heap.extractTop (c : Comparer) (h : Heap) : Result (Int × Heap) := do
  let (top, b) ← GADS.extractTop c h.base
  .ok (top, h.setBase b)

/-- The inherited `deleteItem` called on a `Heap` object. -/
def Heap.deleteItem (c : Comparer) (h : Heap) (val : Int) : Result (Bool × Heap) := do
  let (elementFound, b) ← GADS.deleteItem c h.base val
  .ok (elementFound, h.setBase b)

/-- The `while (m_nbOfElementsInHeap > 1)` loop of `HeapSorter::sort`. -/
def sortLoop : Nat → HeapBase → Result HeapBase
  | 0, _ => .error .fuel
  | fuel + 1, h =>
    if h.size > 1 then do
      let (biggest, h') ← extractTop .greater h
      sortLoop fuel { h' with heapData := h'.heapData.set h'.size biggest }
    else
      .ok h

/-- Embeds `HeapSorter::sort`. -/
def HeapSorter.sort (h : HeapBase) : Result HeapBase := do
  let h' ← heapify .greater h
  sortLoop (h'.size + 1) h'

/-- Embeds `heapsort(data)`: the contents of `data` after the call. -/
def heapsort (data : List Int) : Result (List Int) := do
  let h ← HeapSorter.sort { heapData := data, sorterCount := some data.length }
  .ok h.heapData

/-- Calling `extractTop` `n` times on a `Heap` object and collecting the returned values. -/
def extractAll (c : Comparer) : Nat → Heap → Result (List Int)
  | 0, _ => .ok []
  | n + 1, h => do
    let (top, h') ← h.extractTop c
    let rest ← extractAll c n h'
    .ok (top :: rest)

/-- The heap invariant over the logical elements: for every non-root logical index `i`,
`compare(element[i], element[(i-1)/2])` is false. -/
def heapInvariant (c : Comparer) (h : HeapBase) : Prop :=
  ∀ i, 0 < i → i < h.size → c.compare (h.get i) (h.get ((i - 1) / 2)) = false

instance (c : Comparer) (h : HeapBase) : Decidable (heapInvariant c h) :=
  decidable_of_iff (∀ i, i < h.size → 0 < i → c.compare (h.get i) (h.get ((i - 1) / 2)) = false)
    ⟨fun H i h0 hi => H i hi h0, fun H i hi h0 => H i h0 hi⟩

/-! ## GeneralAlgorithmsAndDataStructures.h: partition, quicksort, binary search -/

/-- The `for (auto it = beg; it < lastElemPos; ++it)` loop of `partitionLomuto`; the first
argument counts the iterations left.  `pivotVal` is a reference to `*lastElemPos`, so
it is read from the vector at each comparison.  Returns the vector and `insertPos`. -/
def partitionLoop {α : Type} (le : α → α → Bool) (lastElemPos : Nat) :
    Nat → Nat → Nat → List α → List α × Nat
  | 0, _, insertPos, l => (l, insertPos)
  | n + 1, it, insertPos, l =>
    match l[it]?, l[lastElemPos]? with
    | some x, some pivotVal =>
      if le x pivotVal then
        partitionLoop le lastElemPos n (it + 1) (insertPos + 1)
          (if it != insertPos then swapAt l it insertPos else l)
      else
        partitionLoop le lastElemPos n (it + 1) insertPos l
    | _, _ => (l, insertPos)

/-- Embeds `partitionLomuto(beg, end, pivotPos)` on the range `[beg, end)` of a vector, with `le`
the `operator <=` of the element type.  Returns the vector and the position of the
pivot (`end` if no partitioning could be done). -/
def partitionLomutoAt {α : Type} (le : α → α → Bool) (l : List α) (beg endPos pivotPos : Nat) :
    List α × Nat :=
  if beg < endPos then
    let insertPos := beg
    let lastElemPos := endPos - 1
    if insertPos < lastElemPos then
      let l₁ := if pivotPos != lastElemPos then swapAt l pivotPos lastElemPos else l
      let (l₂, insertPos) := partitionLoop le lastElemPos (lastElemPos - beg) beg insertPos l₁
      let l₃ := if insertPos != lastElemPos then swapAt l₂ lastElemPos insertPos else l₂
      (l₃, insertPos)
    else
      (l, insertPos)
  else
    (l, endPos)

/-- Embeds `partitionLomuto(beg, end)`: the last element is the pivot. -/
def partitionLomuto {α : Type} (le : α → α → Bool) (l : List α) (beg endPos : Nat) :
    List α × Nat :=
  if beg < endPos then partitionLomutoAt le l beg endPos (endPos - 1) else (l, endPos)

/-- Embeds `quickSortInPlace(beg, end)`; the first argument bounds the recursion depth. -/
def quickSortRange {α : Type} (le : α → α → Bool) :
    Nat → List α → Nat → Nat → Result (List α)
  | 0, _, _, _ => .error .fuel
  | fuel + 1, l, beg, endPos =>
    let (l₁, pivotPos) := partitionLomuto le l beg endPos
    if pivotPos != endPos then do
      let l₂ ← quickSortRange le fuel l₁ beg pivotPos
      quickSortRange le fuel l₂ (pivotPos + 1) endPos
    else
      .ok l₁

/-- Embeds `quickSortInPlace(vct)`: quicksort of an entire container. -/
def quickSortInPlace {α : Type} (le : α → α → Bool) (vct : List α) : Result (List α) :=
  quickSortRange le (vct.length + 1) vct 0 vct.length

/-- Width of `IndexType` (`size_t`). -/
def indexBits : Nat := 64

/-- The `while (beg < end)` loop of `binSearch`; returns the final `beg` and `end`. -/
def binSearchLoop {α β : Type} (vct : List α) (target : β)
    (isSmaller : α → β → Result Bool) : Nat → Nat → Nat → Result (Nat × Nat)
  | 0, _, _ => .error .fuel
  | fuel + 1, beg, endPos =>
    if beg < endPos then
      let middle := (beg + endPos) / 2
      match vct[middle]? with
      | none => .error .outOfBounds
      | some m => do
        if (← isSmaller m target) then
          binSearchLoop vct target isSmaller fuel (middle + 1) endPos
        else
          binSearchLoop vct target isSmaller fuel beg middle
    else
      .ok (beg, endPos)

/-- Embeds `binSearch(vct, target, beg, end, isEqual, isSmaller)`: binary search in the range
`[beg, end]`; returns `vct.size()` when the target was not located. -/
def binSearch {α β : Type} (vct : List α) (target : β) (beg endPos : Nat)
    (isEqual isSmaller : α → β → Result Bool) : Result Nat :=
  if endPos < vct.length then do
    let (beg, endPos) ← binSearchLoop vct target isSmaller (endPos - beg + 1) beg endPos
    if beg = endPos then
      match vct[beg]? with
      | none => .error .outOfBounds
      | some b => do
        if (← isEqual b target) then .ok beg else .ok vct.length
    else
      .ok vct.length
  else
    .error .assertion

/-! ## SuffixArray.h, SuffixArray.cpp

A text is the list of its character codes; the codes are what `std::copy` stores in
the first row of the rank table, and for 7-bit characters they order as `char` does. -/

/-- Helper record of `buildSuffixArray`: the ranks of the two chunks and the position. -/
structure SortEntry where
  chunk0 : Nat
  chunk1 : Nat
  pos : Nat
  deriving DecidableEq, Repr

/-- Embeds `SortEntry::isSmallerOrEqual`, which is `operator <=` on `SortEntry`. -/
def SortEntry.isSmallerOrEqual (a b : SortEntry) : Bool :=
  if a.chunk0 = b.chunk0 then decide (a.chunk1 ≤ b.chunk1) else decide (a.chunk0 < b.chunk0)

/-- Read `v[i]` of an `IndexVct`. -/
def idxAt (v : List Nat) (i : Nat) : Nat := v.getD i 0

/-- First inner loop of a round of `buildSuffixArray`: entry `i` is made of the rank at
`i`, the rank at `i + cnt` (or `0` when that is out of range) and the position `i`. -/
def setupPrefixes (lastOrder : List Nat) (N cnt : Nat) : List SortEntry :=
  (List.range N).map fun i =>
    { chunk0 := idxAt lastOrder i
      chunk1 := if i + cnt < N then idxAt lastOrder (i + cnt) else 0
      pos := i }

/-- Second inner loop of a round of `buildSuffixArray`, iterations `i, i+1, ...` over the
entries not yet visited; `prev` is `prefixes[i - 1]` (absent when `i = 0`). -/
def assignOrder : List SortEntry → Option SortEntry → Nat → List Nat → List Nat
  | [], _, _, newOrder => newOrder
  | e :: rest, prev, i, newOrder =>
    let v :=
      match prev with
      | some p =>
        if e.chunk0 = p.chunk0 ∧ e.chunk1 = p.chunk1 then idxAt newOrder p.pos else i
      | none => i
    assignOrder rest (some e) (i + 1) (newOrder.set e.pos v)

/-- The `for (cnt = 1; cnt < N; cnt <<= 1)` loop of `buildSuffixArray`.  State: the rank
table and the helper vector `prefixes`. -/
def buildLoop (N : Nat) :
    Nat → Nat → List (List Nat) → List SortEntry → Result (List (List Nat) × List SortEntry)
  | 0, _, _, _ => .error .fuel
  | fuel + 1, cnt, matrix, prefixes =>
    if cnt < N then do
      let lastOrder := matrix.getLastD []
      let sorted ← quickSortInPlace SortEntry.isSmallerOrEqual (setupPrefixes lastOrder N cnt)
      let newOrder := assignOrder sorted none 0 (List.replicate N 0)
      buildLoop N fuel (cnt * 2 % 2 ^ indexBits) (matrix ++ [newOrder]) sorted
    else
      .ok (matrix, prefixes)

/-- State of a `SuffixArray` object. -/
structure SuffixArray where
  text : List Nat
  suffixArray : List Nat
  prefixOrderMatrix : List (List Nat)
  deriving DecidableEq, Repr

/-- The constructor `SuffixArray(text)`, which runs `buildSuffixArray`. -/
def SuffixArray.build (text : List Nat) : Result SuffixArray := do
  let N := text.length
  let (matrix, prefixes) ←
    buildLoop N (N + 1) 1 [text] (List.replicate N { chunk0 := 0, chunk1 := 0, pos := 0 })
  .ok { text := text, suffixArray := prefixes.map (·.pos), prefixOrderMatrix := matrix }

/-- Embeds `indexValid`. -/
def SuffixArray.indexValid (sa : SuffixArray) (idx : Nat) : Bool :=
  decide (idx < sa.suffixArray.length)

/-- Embeds `outOfRangeVal`. -/
def SuffixArray.outOfRangeVal (sa : SuffixArray) : Nat := sa.text.length

/-- Read `m_prefixOrderMatrix[k][x]`. -/
def SuffixArray.rank (sa : SuffixArray) (k x : Nat) : Nat :=
  idxAt (sa.prefixOrderMatrix.getD k []) x

/-- The `for (k = m_prefixOrderMatrix.size() - 1; ...; k--)` loop of `lcp`. -/
def SuffixArray.lcpLoop (sa : SuffixArray) : Nat → Nat → Nat → Nat → Nat
  | 0, x, y, len =>
    if x < sa.text.length ∧ y < sa.text.length then
      if sa.rank 0 x = sa.rank 0 y then len + 1 else len
    else len
  | k + 1, x, y, len =>
    if x < sa.text.length ∧ y < sa.text.length then
      if sa.rank (k + 1) x = sa.rank (k + 1) y then
        sa.lcpLoop k (x + 2 ^ (k + 1)) (y + 2 ^ (k + 1)) (len + 2 ^ (k + 1))
      else
        sa.lcpLoop k x y len
    else len

/-- Embeds `lcp(x, y)`. -/
def SuffixArray.lcp (sa : SuffixArray) (x y : Nat) : Result Nat :=
  let N := sa.text.length
  if x ≥ N ∨ y ≥ N then .error .outOfRange
  else if x = y then .ok (N - x)
  else .ok (sa.lcpLoop (sa.prefixOrderMatrix.length - 1) x y 0)

/-- Embeds `CompareResult`. -/
inductive CompareResult where
  | Equal
  | Smaller
  | Bigger
  | Undefined
  deriving DecidableEq, Repr

/-- The character loop of `compareSubstring`: `n` iterations left, starting at `i`.
Characters are compared through their codes, which is the comparison of `char` for 7-bit
text and wherever `char` is unsigned; where `char` is signed, the source puts a character
with the high bit set below the 7-bit characters, and this definition puts it above them
(`Smaller` and `Bigger` are then exchanged, `Equal` is not affected). -/
def compareLoop (text substr : List Nat) (idx : Nat) : Nat → Nat → CompareResult
  | 0, _ => .Undefined
  | n + 1, i =>
    if idxAt text (idx + i) ≠ idxAt substr i then
      if idxAt text (idx + i) < idxAt substr i then .Smaller else .Bigger
    else
      compareLoop text substr idx n (i + 1)

/-- Embeds `compareSubstring(idx, substr)`. -/
def SuffixArray.compareSubstring (sa : SuffixArray) (idx : Nat) (substr : List Nat) :
    Result CompareResult :=
  if idx ≥ sa.outOfRangeVal then .error .outOfRange
  else if substr.length = 0 then .error .outOfRange
  else
    let len := min (sa.text.length - idx) substr.length
    let result := compareLoop sa.text substr idx len 0
    if result = .Undefined then
      if sa.text.length - idx < substr.length then .ok .Smaller else .ok .Equal
    else
      .ok result

/-- Embeds `isLexEqual`. -/
def SuffixArray.isLexEqual (sa : SuffixArray) (idx : Nat) (substr : List Nat) : Result Bool := do
  .ok (decide ((← sa.compareSubstring idx substr) = .Equal))

/-- Embeds `isLexSmaller`. -/
def SuffixArray.isLexSmaller (sa : SuffixArray) (idx : Nat) (substr : List Nat) : Result Bool := do
  .ok (decide ((← sa.compareSubstring idx substr) = .Smaller))

/-- Embeds `searchSubstring(substr)`; `m_suffixArray.size() - 1` is computed in `IndexType`. -/
def SuffixArray.searchSubstring (sa : SuffixArray) (substr : List Nat) : Result Nat :=
  if substr.length = 0 then .error .outOfRange
  else
    binSearch sa.suffixArray substr 0
      ((sa.suffixArray.length + 2 ^ indexBits - 1) % 2 ^ indexBits)
      sa.isLexEqual sa.isLexSmaller

/-- Embeds `minLexRotation()`. -/
def SuffixArray.minLexRotation (sa : SuffixArray) : Result (List Nat) :=
  match sa.suffixArray[0]? with
  | none => .error .outOfBounds
  | some minLexSuffixIdx =>
    if minLexSuffixIdx > sa.text.length then .error .outOfRange
    else
      let rotation := sa.text.drop minLexSuffixIdx
      if minLexSuffixIdx > 0 then .ok (rotation ++ sa.text.take minLexSuffixIdx) else .ok rotation

/-- Embeds `getNthSuffix(n)`; `n - 1` is computed in `IndexType` and `at` checks the range. -/
def SuffixArray.getNthSuffix (sa : SuffixArray) (n : Nat) : Result (List Nat) :=
  match sa.suffixArray[(n + 2 ^ indexBits - 1) % 2 ^ indexBits]? with
  | none => .error .outOfRange
  | some p => if p > sa.text.length then .error .outOfRange else .ok (sa.text.drop p)

/-! ## GeneralAlgorithmsAndDataStructures: selection, bounds, permutations, combinations -/

/-- Read `v[i]` of a `DataVct`. -/
def intAt (v : List Int) (i : Nat) : Int := v.getD i 0

/-- Embeds `binSearch(vct, target)` on a vector of `int`: binary search in the full
container with `std::equal_to` and `std::less`; `vct.size() - 1` is computed in
`IndexType`. -/
def binSearchVct (vct : List Int) (target : Int) : Result Nat :=
  binSearch vct target 0 ((vct.length + 2 ^ indexBits - 1) % 2 ^ indexBits)
    (fun a b => .ok (decide (a = b))) (fun a b => .ok (decide (a < b)))

/-- The `while (beg < end)` loop of `upperBound`; `middle - 1` is computed in
`IndexType`.  Returns the final `beg`. -/
def upperBoundLoop (vct : List Int) (target : Int) : Nat → Nat → Nat → Result Nat
  | 0, _, _ => .error .fuel
  | fuel + 1, beg, endPos =>
    if beg < endPos then
      let middle := (beg + endPos) / 2
      match vct[middle]? with
      | none => .error .outOfBounds
      | some m =>
        if m < target then
          upperBoundLoop vct target fuel middle endPos
        else
          upperBoundLoop vct target fuel beg ((middle + 2 ^ indexBits - 1) % 2 ^ indexBits)
    else
      .ok beg

/-- Embeds `upperBound(vct, target, beg, end)`: upper bound search in the range
`[beg, end]`. -/
def upperBound (vct : List Int) (target : Int) (beg endPos : Nat) : Result Nat :=
  if endPos < vct.length then
    if beg > endPos then .ok vct.length
    else if target ≤ intAt vct beg then .ok vct.length
    else if target ≥ intAt vct endPos then .ok endPos
    else upperBoundLoop vct target (endPos - beg + 1) beg endPos
  else
    .error .assertion

/-- Embeds `upperBound(vct, target)`: upper bound search in the full container. -/
def upperBoundVct (vct : List Int) (target : Int) : Result Nat :=
  upperBound vct target 0 ((vct.length + 2 ^ indexBits - 1) % 2 ^ indexBits)

/-- The `while (foundPos != targetPos)` loop of `findNthSmallestElem`.  State: the vector,
`beg`, `end` and `foundPos`; returns the vector and the final `foundPos`. -/
def findNthLoop (targetPos : Nat) : Nat → List Int → Nat → Nat → Nat → Result (List Int × Nat)
  | 0, _, _, _, _ => .error .fuel
  | fuel + 1, l, beg, endPos, foundPos =>
    if foundPos ≠ targetPos then
      if beg < endPos then
        let (l₁, foundPos₁) := partitionLomuto (fun a b : Int => decide (a ≤ b)) l beg endPos
        if foundPos₁ > targetPos then
          findNthLoop targetPos fuel l₁ beg foundPos₁ foundPos₁
        else if foundPos₁ < targetPos then
          findNthLoop targetPos fuel l₁ (foundPos₁ + 1) endPos foundPos₁
        else
          findNthLoop targetPos fuel l₁ beg endPos foundPos₁
      else
        .error .assertion
    else
      .ok (l, foundPos)

/-- Embeds `findNthSmallestElem(beg, end, n)` on the range `[beg, end)` of a vector: the
value of the n-th smallest element, counting from 1. -/
def findNthSmallestElem (l : List Int) (beg endPos : Nat) (n : Int) : Result Int :=
  if n ≤ 0 ∨ (endPos : Int) - (beg : Int) < n then .error .outOfRange
  else do
    let targetPos := beg + (n - 1).toNat
    let (l', foundPos) ← findNthLoop targetPos (endPos - beg + 1) l beg endPos endPos
    match l'[foundPos]? with
    | some v => .ok v
    | none => .error .outOfBounds

/-- The loop of `reverseArray`: `n` iterations left, starting at `i`; the index
`endIdx - i + startIdx` is computed in `IndexType`. -/
def reverseLoop (startIdx endIdx : Nat) : Nat → Nat → List Int → List Int
  | 0, _, array => array
  | n + 1, i, array =>
    reverseLoop startIdx endIdx n (i + 1)
      (swapAt array i ((endIdx + 2 ^ indexBits - i + startIdx) % 2 ^ indexBits))

/-- Embeds `reverseArray(array, startIdx, endIdx)`: reverses the range
`[startIdx, endIdx]`. -/
def reverseArray (array : List Int) (startIdx endIdx : Nat) : List Int :=
  let halfRangeCount := (startIdx + endIdx + 1) % 2 ^ indexBits / 2
  reverseLoop startIdx endIdx (halfRangeCount - startIdx) startIdx array

/-- The first loop of `nextLexicographicPermutation`, from `lastPair` downwards: the last
index whose pair is not in `compare` order, or `none` when the loop returns false. -/
def findLastPair (compare : Int → Int → Bool) (permutation : List Int) : Nat → Option Nat
  | 0 => if compare (intAt permutation 0) (intAt permutation 1) then none else some 0
  | lastPair + 1 =>
    if compare (intAt permutation (lastPair + 1)) (intAt permutation (lastPair + 2)) then
      findLastPair compare permutation lastPair
    else
      some (lastPair + 1)

/-- The second loop of `nextLexicographicPermutation`, from `smallestBiggerValueIdx`
downwards, with its `assert(smallestBiggerValueIdx > lastPair)`. -/
def findSwapIdx (compare : Int → Int → Bool) (permutation : List Int) (lastPair : Nat) :
    Nat → Result Nat
  | 0 =>
    if compare (intAt permutation lastPair) (intAt permutation 0) then .error .outOfBounds
    else .ok 0
  | k + 1 =>
    if compare (intAt permutation lastPair) (intAt permutation (k + 1)) then
      if k > lastPair then findSwapIdx compare permutation lastPair k else .error .assertion
    else
      .ok (k + 1)

/-- Embeds `nextLexicographicPermutation(permutation, compare)`: the flag returned and the
vector afterwards. -/
def nextLexicographicPermutation (permutation : List Int) (compare : Int → Int → Bool) :
    Result (Bool × List Int) :=
  if permutation.length < 2 then .ok (false, permutation)
  else
    let BiggestIndex := permutation.length - 1
    match findLastPair compare permutation (BiggestIndex - 1) with
    | none => .ok (false, permutation)
    | some lastPair => do
      let smallestBiggerValueIdx ← findSwapIdx compare permutation lastPair BiggestIndex
      let swapped := swapAt permutation lastPair smallestBiggerValueIdx
      .ok (true, reverseArray swapped (lastPair + 1) BiggestIndex)

/-- Embeds `nextIncreasingLexicographicPermutation`: the comparer is `std::greater_equal`. -/
def nextIncreasingLexicographicPermutation (permutation : List Int) : Result (Bool × List Int) :=
  nextLexicographicPermutation permutation (fun a b => decide (a ≥ b))

/-- Embeds `nextDecreasingLexicographicPermutation`: the comparer is `std::less_equal`. -/
def nextDecreasingLexicographicPermutation (permutation : List Int) : Result (Bool × List Int) :=
  nextLexicographicPermutation permutation (fun a b => decide (a ≤ b))

/-- The first loop of `nextLexicographicRCombination`, from `i` downwards: the last index
whose entry is not `maxVal - r + i`, or `none` when the loop returns false. -/
def findIncrementIdx (maxVal r : Nat) (rCombination : List Nat) : Nat → Option Nat
  | 0 => if idxAt rCombination 0 = maxVal - r + 0 then none else some 0
  | i + 1 =>
    if idxAt rCombination (i + 1) = maxVal - r + (i + 1) then
      findIncrementIdx maxVal r rCombination i
    else
      some (i + 1)

/-- The second loop of `nextLexicographicRCombination`: `n` iterations left, starting at
`j`; entry `j` becomes `rCombination[i] + j - i`, computed in `IndexType`. -/
def fillLoop (i : Nat) : Nat → Nat → List Nat → List Nat
  | 0, _, rCombination => rCombination
  | n + 1, j, rCombination =>
    fillLoop i n (j + 1)
      (rCombination.set j ((idxAt rCombination i + j + 2 ^ indexBits - i) % 2 ^ indexBits))

/-- Embeds `nextLexicographicRCombination(maxVal, rCombination)`: the flag returned and the
vector afterwards. -/
def nextLexicographicRCombination (maxVal : Nat) (rCombination : List Nat) : Bool × List Nat :=
  if rCombination.isEmpty then (false, rCombination)
  else
    let r := rCombination.length - 1
    if maxVal ≤ r then (false, rCombination)
    else
      match findIncrementIdx maxVal r rCombination r with
      | none => (false, rCombination)
      | some i =>
        let incremented := rCombination.set i ((idxAt rCombination i + 1) % 2 ^ indexBits)
        (true, fillLoop i (r - i) (i + 1) incremented)

/-! ## Call sequences and the notions the claims are stated with -/

/-- One call on the public interface of a `Heap` object. -/
inductive HeapOp where
  | insert (item : Int)
  | extractTop
  | deleteItem (val : Int)
  deriving DecidableEq, Repr

/-- The `Heap` object after one call (the value `extractTop` or `deleteItem` returns is
dropped). -/
def runOp (c : Comparer) (h : Heap) : HeapOp → Result Heap
  | .insert item => h.insert c item
  | .extractTop => do
    let (_, h') ← h.extractTop c
    .ok h'
  | .deleteItem val => do
    let (_, h') ← h.deleteItem c val
    .ok h'

/-- The `Heap` object after a sequence of calls, made in order. -/
def runOps (c : Comparer) (h : Heap) : List HeapOp → Result Heap
  | [] => .ok h
  | op :: ops => do
    let h' ← runOp c h op
    runOps c h' ops

/-- A vector is non-decreasing: `data[i] <= data[i+1]` for every adjacent pair. -/
def nonDecreasing (data : List Int) : Prop :=
  ∀ i, i + 1 < data.length → data.getD i 0 ≤ data.getD (i + 1) 0

instance (data : List Int) : Decidable (nonDecreasing data) :=
  decidable_of_iff (∀ i, i < data.length → i + 1 < data.length →
      data.getD i 0 ≤ data.getD (i + 1) 0)
    ⟨fun H i hi => H i (by omega) hi, fun H i _ hi => H i hi⟩

/-- The character codes of a string literal, as `std::string` stores them (7-bit text). -/
def codes (s : String) : List Nat := s.toList.map Char.toNat

/-- The suffix `text[p:]`. -/
def suffixFrom (text : List Nat) (p : Nat) : List Nat := text.drop p

/-- The rotation `text[p:] + text[:p]`. -/
def rotation (text : List Nat) (p : Nat) : List Nat := text.drop p ++ text.take p

/-- Relation between two states of a heap object: `h'` is `h` with its logical elements
rearranged; the kind of object, the vector length and the slots past `size()` are kept. -/
def HeapBase.rearranged (h h' : HeapBase) : Prop :=
  h'.sorterCount = h.sorterCount ∧
  h'.heapData.length = h.heapData.length ∧
  (h'.heapData.take h.size).Perm (h.heapData.take h.size) ∧
  h'.heapData.drop h.size = h.heapData.drop h.size

/-- The heap invariant with one exception, as it holds inside `bubbleUp`: every non-root
logical index other than `k` is in order with its parent, and the children of `k` are in
order with the parent of `k`. -/
def heapInvariantExcept (c : Comparer) (h : HeapBase) (k : Nat) : Prop :=
  (∀ i, 0 < i → i < h.size → i ≠ k → c.compare (h.get i) (h.get ((i - 1) / 2)) = false) ∧
  (∀ i, 0 < i → i < h.size → (i - 1) / 2 = k → 0 < k →
    c.compare (h.get i) (h.get ((k - 1) / 2)) = false)

/-- The range `[beg, end)` of a vector. -/
def slice {α : Type} (l : List α) (beg endPos : Nat) : List α :=
  (l.drop beg).take (endPos - beg)

/-- An index vector is strictly increasing: `c[i] < c[i+1]` for every adjacent pair. -/
def strictlyIncreasing (c : List Nat) : Prop :=
  ∀ i, i + 1 < c.length → idxAt c i < idxAt c (i + 1)

instance (c : List Nat) : Decidable (strictlyIncreasing c) :=
  decidable_of_iff (∀ i, i < c.length → i + 1 < c.length → idxAt c i < idxAt c (i + 1))
    ⟨fun H i hi => H i (by omega) hi, fun H i _ hi => H i hi⟩

/-- A vector is non-increasing: `data[i] >= data[i+1]` for every adjacent pair. -/
def nonIncreasing (data : List Int) : Prop :=
  ∀ i, i + 1 < data.length → data.getD i 0 ≥ data.getD (i + 1) 0

instance (data : List Int) : Decidable (nonIncreasing data) :=
  decidable_of_iff (∀ i, i < data.length → i + 1 < data.length →
      data.getD i 0 ≥ data.getD (i + 1) 0)
    ⟨fun H i hi => H i (by omega) hi, fun H i _ hi => H i hi⟩

/-! ## GeneralAlgorithmsAndDataStructures.cpp: modular exponentiation, generators -/

/-- Width of `int` and `unsigned int`. -/
def intBits : Nat := 32

/-- Width of `unsigned long long`. -/
def longBits : Nat := 64

/-- The `for` loop of `modularExp`, iterations `i, i+1, ...`; the state is `x` and `power`,
both `unsigned long long`. -/
def modularExpLoop (exp mod : Nat) : Nat → Nat → Nat → Nat → Nat
  | 0, _, x, _ => x
  | n + 1, i, x, power =>
    let leastSignificantBit := 1 &&& (exp >>> i)
    let x := if leastSignificantBit ≠ 0 then x * power % 2 ^ longBits % mod else x
    modularExpLoop exp mod n (i + 1) x (power * power % 2 ^ longBits % mod)

/-- Embeds `modularExp(base, exp, mod)`.  In `base % mod` the `int` operand is converted to
`unsigned int`, that is reduced modulo `2^32`. -/
def modularExp (base : Int) (exp mod : Nat) : Result Nat :=
  if mod = 0 then .error .invalidArgument
  else
    let power := (base % 2 ^ intBits).toNat % mod
    .ok (modularExpLoop exp mod intBits 0 1 power)

/-- The loop `for (auto& s : seq) s.push_front(inputSet[startingIndex])` of
`generateRCombinationsRecursive`; the element is read only when `seq` has an entry. -/
def pushFrontAll (inputSet : List Int) (startingIndex : Nat) (seq : List (List Int)) :
    Result (List (List Int)) :=
  if seq.isEmpty then .ok seq
  else
    match inputSet[startingIndex]? with
    | none => .error .outOfBounds
    | some v => .ok (seq.map (v :: ·))

/-- Embeds `generateRCombinationsRecursive(inputSet, startingIndex, r)`: the sequences with
`inputSet[startingIndex]` in front, followed by those without it.  The first argument bounds
the recursion depth. -/
def generateRCombinationsRecursive (inputSet : List Int) :
    Nat → Nat → Nat → Result (List (List Int))
  | 0, _, _ => .error .fuel
  | fuel + 1, startingIndex, r =>
    if r ≤ inputSet.length then
      if r = 0 then .ok [[]]
      else do
        let seq ← generateRCombinationsRecursive inputSet fuel
          ((startingIndex + 1) % 2 ^ indexBits) (r - 1)
        let seq ← pushFrontAll inputSet startingIndex seq
        if (inputSet.length + 2 ^ indexBits - startingIndex) % 2 ^ indexBits > r then do
          let seq2 ← generateRCombinationsRecursive inputSet fuel
            ((startingIndex + 1) % 2 ^ indexBits) r
          .ok (seq ++ seq2)
        else
          .ok seq
    else
      .error .assertion

/-- Embeds `generateRCombinations(inputSet, r)`. -/
def generateRCombinations (inputSet : List Int) (r : Nat) : Result (List (List Int)) :=
  if r > inputSet.length then .ok []
  else generateRCombinationsRecursive inputSet (inputSet.length + 1) 0 r

/-- State of a `SubsetGenerator` object: the referenced vector and the mask. -/
structure SubsetGenerator where
  m_totalSet : List Int
  m_subsetMask : List Bool
  deriving DecidableEq, Repr

/-- The constructor `SubsetGenerator(totalSet)`: the mask has `totalSet.size()` entries,
all false. -/
def SubsetGenerator.new (totalSet : List Int) : SubsetGenerator :=
  { m_totalSet := totalSet, m_subsetMask := List.replicate totalSet.length false }

/-- Embeds `SubsetGenerator::nextSubsetMask`, on the part of the mask from the iterator on:
every bit is flipped up to and including the first one that becomes set. -/
def nextSubsetMask : List Bool → List Bool
  | [] => []
  | b :: rest =>
    let flipped := !b
    if flipped then flipped :: rest else flipped :: nextSubsetMask rest

/-- The `for` loop of `nextSubset`, iterations `i, i+1, ...`: the elements at the set bits
are appended to `result`. -/
def collectLoop (totalSet : List Int) (mask : List Bool) :
    Nat → Nat → List Int → Result (List Int)
  | 0, _, result => .ok result
  | n + 1, i, result =>
    if mask.getD i false then
      match totalSet[i]? with
      | none => .error .outOfBounds
      | some v => collectLoop totalSet mask n (i + 1) (result ++ [v])
    else
      collectLoop totalSet mask n (i + 1) result

/-- Embeds `SubsetGenerator::nextSubset`: returns the subset and the new state. -/
def SubsetGenerator.nextSubset (g : SubsetGenerator) : Result (List Int × SubsetGenerator) :=
  let mask := nextSubsetMask g.m_subsetMask
  let resultSize := mask.count true
  do
    let result ← collectLoop g.m_totalSet mask mask.length 0 []
    if result.length = resultSize then
      .ok (result, { g with m_subsetMask := mask })
    else
      .error .assertion

/-- The subsets returned by `k` successive calls of `nextSubset`, and the final state. -/
def SubsetGenerator.nextSubsets :
    Nat → SubsetGenerator → Result (List (List Int) × SubsetGenerator)
  | 0, g => .ok ([], g)
  | k + 1, g => do
    let (sub, g) ← g.nextSubset
    let (subs, g) ← SubsetGenerator.nextSubsets k g
    .ok (sub :: subs, g)

/-- The positions of the set bits of a mask, in increasing order. -/
def maskPositions (mask : List Bool) : List Nat :=
  (List.range mask.length).filter fun i => mask.getD i false

/-- The mask of a `SubsetGenerator` over `n` elements after `k` calls. -/
def maskAfter (n : Nat) : Nat → List Bool
  | 0 => List.replicate n false
  | k + 1 => nextSubsetMask (maskAfter n k)

/-- The number a mask stands for, least significant bit first. -/
def maskValue : List Bool → Nat
  | [] => 0
  | b :: rest => (if b then 1 else 0) + 2 * maskValue rest

/-! ## GeneralAlgorithmsAndDataStructures.cpp: range partition -/

/-- The constant `std::numeric_limits<ValueType>::max()`. -/
def valueMax : Int := 2 ^ 31 - 1

/-- Read `t[i][j]` of a table of `ValueType`. -/
def cellAt (t : List (List Int)) (i j : Nat) : Int := intAt (t.getD i []) j

/-- Read `t[i][j]` of a table of `IndexType`. -/
def idxCellAt (t : List (List Nat)) (i j : Nat) : Nat := idxAt (t.getD i []) j

/-- The assignment `t[i][j] = v`. -/
def setCell {α : Type} (t : List (List α)) (i j : Nat) (v : α) : List (List α) :=
  t.set i ((t.getD i []).set j v)

/-- The loop of `partitionRange` that fills `prefixSum`, iterations `i, i+1, ...`. -/
def prefixSumLoop (data : List Int) : Nat → Nat → List Int → List Int
  | 0, _, prefixSum => prefixSum
  | n + 1, i, prefixSum =>
    prefixSumLoop data n (i + 1) (prefixSum.set i (intAt prefixSum (i - 1) + intAt data i))

/-- The two loops of `partitionRange` that set the initial values of `partitionCost`: every
cell is assigned once. -/
def initialCost (data prefixSum : List Int) (dataCount rangeCount : Nat) : List (List Int) :=
  (List.range dataCount).map fun i =>
    (List.range rangeCount).map fun j =>
      if i = 0 then intAt data 0
      else if j = 0 then intAt prefixSum i
      else valueMax

/-- The innermost loop of `partitionRange` (over `k`), iterations `k, k+1, ...`; the state
is `partitionCost` and `rangeEnd`. -/
def lastRangeLoop (prefixSum : List Int) (i j : Nat) :
    Nat → Nat → List (List Int) × List (List Nat) → List (List Int) × List (List Nat)
  | 0, _, st => st
  | n + 1, k, (partitionCost, rangeEnd) =>
    let cost := max (cellAt partitionCost k (j - 1)) (intAt prefixSum i - intAt prefixSum k)
    if cost < cellAt partitionCost i j then
      lastRangeLoop prefixSum i j n (k + 1) (setCell partitionCost i j cost, setCell rangeEnd i j k)
    else
      lastRangeLoop prefixSum i j n (k + 1) (partitionCost, rangeEnd)

/-- The middle loop of `partitionRange` (over `j`), iterations `j, j+1, ...`. -/
def rangesLoop (prefixSum : List Int) (i : Nat) :
    Nat → Nat → List (List Int) × List (List Nat) → List (List Int) × List (List Nat)
  | 0, _, st => st
  | n + 1, j, st => rangesLoop prefixSum i n (j + 1) (lastRangeLoop prefixSum i j i 0 st)

/-- The outer loop of `partitionRange` (over `i`), iterations `i, i+1, ...`. -/
def elementsLoop (prefixSum : List Int) (rangeCount : Nat) :
    Nat → Nat → List (List Int) × List (List Nat) → List (List Int) × List (List Nat)
  | 0, _, st => st
  | n + 1, i, st =>
    elementsLoop prefixSum rangeCount n (i + 1) (rangesLoop prefixSum i (rangeCount - 1) 1 st)

/-- The last loop of `partitionRange`, which collects the dividers from `rangeEnd`; the
first argument bounds the number of iterations. -/
def dividersLoop (rangeEnd : List (List Nat)) : Nat → Nat → Nat → List Nat → Result (List Nat)
  | 0, _, _, _ => .error .fuel
  | fuel + 1, k, n, result =>
    if k > 0 ∧ n > 0 then
      match (rangeEnd.getD n [])[k]? with
      | none => .error .outOfBounds
      | some previousRangeEnd =>
        dividersLoop rangeEnd fuel ((k + 2 ^ indexBits - 1) % 2 ^ indexBits) previousRangeEnd
          (previousRangeEnd :: result)
    else
      .ok result

/-- Embeds `partitionRange(data, maxDividers)`. -/
def partitionRange (data : List Int) (maxDividers : Nat) : Result (List Nat) :=
  let dataCount := data.length
  let rangeCount := (maxDividers + 1) % 2 ^ indexBits
  if dataCount = 0 then .ok []
  else
    let rangeEnd := List.replicate dataCount (List.replicate rangeCount 0)
    let prefixSum := prefixSumLoop data (dataCount - 1) 1
      ((List.replicate dataCount 0).set 0 (intAt data 0))
    let partitionCost := initialCost data prefixSum dataCount rangeCount
    let (_, rangeEnd) := elementsLoop prefixSum rangeCount (dataCount - 1) 1
      (partitionCost, rangeEnd)
    dividersLoop rangeEnd (dataCount + 1) ((rangeCount + 2 ^ indexBits - 1) % 2 ^ indexBits)
      (dataCount - 1) []

/-! ## GeneralAlgorithmsAndDataStructures.cpp: longest common subsequence -/

/-- Read `s[i]` of a `std::string`. -/
def charAt (s : List Char) (i : Nat) : Char := s.getD i (Char.ofNat 0)

/-- The inner loop of `longestCommonSubsequence` (over `j`), iterations `j, j+1, ...`. -/
def lcsRowLoop (s1 s2 : List Char) (i : Nat) : Nat → Nat → List (List Nat) → List (List Nat)
  | 0, _, t => t
  | n + 1, j, t =>
    let v :=
      if charAt s1 (i - 1) = charAt s2 (j - 1) then
        (idxCellAt t (i - 1) (j - 1) + 1) % 2 ^ indexBits
      else
        max (idxCellAt t i (j - 1)) (idxCellAt t (i - 1) j)
    lcsRowLoop s1 s2 i n (j + 1) (setCell t i j v)

/-- The main loop of `longestCommonSubsequence` (over `i`), iterations `i, i+1, ...`. -/
def lcsTableLoop (s1 s2 : List Char) (s2Length : Nat) :
    Nat → Nat → List (List Nat) → List (List Nat)
  | 0, _, t => t
  | n + 1, i, t => lcsTableLoop s1 s2 s2Length n (i + 1) (lcsRowLoop s1 s2 i (s2Length - 1) 1 t)

/-- Embeds `backtrackAllLongestSubsequences(t, s1, s2, i, j, matchingCharsFound)`; the
`std::set` of strings is a `Finset`.  The first argument bounds the recursion depth. -/
def backtrackAllLongestSubsequences (t : List (List Nat)) (s1 s2 : List Char) :
    Nat → Nat → Nat → Bool → Result (Finset (List Char))
  | 0, _, _, _ => .error .fuel
  | fuel + 1, i, j, matchingCharsFound =>
    if i = 0 ∨ j = 0 then
      .ok (if matchingCharsFound then {[]} else ∅)
    else if charAt s1 (i - 1) = charAt s2 (j - 1) then do
      let prefixes ← backtrackAllLongestSubsequences t s1 s2 fuel (i - 1) (j - 1) true
      .ok (prefixes.image fun p => p ++ [charAt s1 (i - 1)])
    else do
      let result ←
        if idxCellAt t i (j - 1) ≥ idxCellAt t (i - 1) j then
          backtrackAllLongestSubsequences t s1 s2 fuel i (j - 1) matchingCharsFound
        else
          .ok ∅
      if idxCellAt t (i - 1) j ≥ idxCellAt t i (j - 1) then do
        let prefixes ← backtrackAllLongestSubsequences t s1 s2 fuel (i - 1) j matchingCharsFound
        .ok (result ∪ prefixes)
      else
        .ok result

/-- Embeds `longestCommonSubsequence(s1, s2, sequences)`.  The pointer `sequences` is `none`
for `nullptr` and otherwise holds the content of the container; the result is the returned
length and the content of the container after the call. -/
def longestCommonSubsequence (s1 s2 : List Char) (sequences : Option (Finset (List Char))) :
    Result (Nat × Option (Finset (List Char))) :=
  if s1.length = 0 ∨ s2.length = 0 then .ok (0, sequences)
  else
    let s1Length := (s1.length + 1) % 2 ^ indexBits
    let s2Length := (s2.length + 1) % 2 ^ indexBits
    let t := lcsTableLoop s1 s2 s2Length (s1Length - 1) 1
      (List.replicate s1Length (List.replicate s2Length 0))
    let longestCommonSubsequenceLength := idxCellAt t (s1Length - 1) (s2Length - 1)
    match sequences with
    | some _ =>
      if longestCommonSubsequenceLength > 0 then do
        let found ← backtrackAllLongestSubsequences t s1 s2 (s1Length + s2Length)
          (s1Length - 1) (s2Length - 1) false
        .ok (longestCommonSubsequenceLength, some found)
      else
        .ok (longestCommonSubsequenceLength, sequences)
    | none => .ok (longestCommonSubsequenceLength, none)

/-- The number `m` is the greatest length of a common subsequence of `l₁` and `l₂`. -/
def IsLcsLength (l₁ l₂ : List Char) (m : Nat) : Prop :=
  (∃ w : List Char, w.Sublist l₁ ∧ w.Sublist l₂ ∧ w.length = m) ∧
  ∀ w : List Char, w.Sublist l₁ → w.Sublist l₂ → w.length ≤ m

/-- Invariant of the loops of `longestCommonSubsequence` before the cell `(i, j)` is
written: the table has its shape, and every cell of row `0`, of column `0`, of a row before
`i` or of row `i` before column `j` holds the length of a longest common subsequence of
the two prefixes. -/
def LcsInv (s1 s2 : List Char) (t : List (List Nat)) (i j : Nat) : Prop :=
  t.length = s1.length + 1 ∧
  (∀ a, a ≤ s1.length → (t.getD a []).length = s2.length + 1) ∧
  ∀ a b, a ≤ s1.length → b ≤ s2.length → (a = 0 ∨ b = 0 ∨ a < i ∨ (a = i ∧ b < j)) →
    IsLcsLength (s1.take a) (s2.take b) (idxCellAt t a b)

/-! ## GeneralAlgorithmsAndDataStructures.cpp: approximate string matching -/

/-- The interface `MatchConfig`: the virtual functions an implementation supplies. -/
structure MatchConfig where
  createTable : Nat → Nat → List (List Nat)
  matchCost : Char → Char → Int
  insertCost : Char → Int
  deleteCost : Char → Int
  getResult : List (List Nat) → Result Nat

/-- Embeds `MatchConfigGenericImpl::createTable`: row `0` counts up from `0`, every other
row starts with its index and is filled with the largest `IndexType`. -/
def MatchConfigGenericImpl.createTable (tableD1 tableD2 : Nat) : List (List Nat) :=
  (List.range tableD1).map fun i =>
    if i = 0 then List.range tableD2
    else (List.replicate tableD2 (2 ^ indexBits - 1)).set 0 i

/-- Embeds `MatchConfigGenericImpl::matchCost`. -/
def MatchConfigGenericImpl.matchCost (c1 c2 : Char) : Int :=
  if c1 = c2 then 0 else 1

/-- Embeds `MatchConfigGenericImpl::getResult`, which is `t.back().back()`. -/
def MatchConfigGenericImpl.getResult (t : List (List Nat)) : Result Nat :=
  match t.getLast? with
  | none => .error .outOfBounds
  | some row =>
    match row.getLast? with
    | none => .error .outOfBounds
    | some v => .ok v

/-- The class `MatchConfigGenericImpl`. -/
def MatchConfigGenericImpl : MatchConfig :=
  { createTable := MatchConfigGenericImpl.createTable
    matchCost := MatchConfigGenericImpl.matchCost
    insertCost := fun _ => 1
    deleteCost := fun _ => 1
    getResult := MatchConfigGenericImpl.getResult }

/-- The sum of an `IndexType` and a `ValueType`, computed in `IndexType`. -/
def addCost (t : Nat) (cost : Int) : Nat := (((t : Int) + cost) % 2 ^ indexBits).toNat

/-- The loop of `approximativeStringMatching` over `operCost`: a cost smaller than the
cell replaces it. -/
def chooseCost (operCost : List Nat) (cell : Nat) : Nat :=
  operCost.foldl (fun cur c => if c < cur then c else cur) cell

/-- The inner loop of `approximativeStringMatching` (over `j`), iterations `j, j+1, ...`. -/
def matchRowLoop (cfg : MatchConfig) (s1 s2 : List Char) (i : Nat) :
    Nat → Nat → List (List Nat) → List (List Nat)
  | 0, _, t => t
  | n + 1, j, t =>
    let operCost :=
      [addCost (idxCellAt t (i - 1) (j - 1)) (cfg.matchCost (charAt s1 (i - 1)) (charAt s2 (j - 1))),
       addCost (idxCellAt t i (j - 1)) (cfg.insertCost (charAt s1 (i - 1))),
       addCost (idxCellAt t (i - 1) j) (cfg.deleteCost (charAt s1 (i - 1)))]
    matchRowLoop cfg s1 s2 i n (j + 1) (setCell t i j (chooseCost operCost (idxCellAt t i j)))

/-- The main loop of `approximativeStringMatching` (over `i`), iterations `i, i+1, ...`. -/
def matchTableLoop (cfg : MatchConfig) (s1 s2 : List Char) (s2Length : Nat) :
    Nat → Nat → List (List Nat) → List (List Nat)
  | 0, _, t => t
  | n + 1, i, t =>
    matchTableLoop cfg s1 s2 s2Length n (i + 1) (matchRowLoop cfg s1 s2 i (s2Length - 1) 1 t)

/-- Embeds `approximativeStringMatching(s1, s2, matchConfig)`; the body does not use the
fourth parameter `sequences`. -/
def approximativeStringMatching (s1 s2 : List Char) (matchConfig : MatchConfig) : Result Nat :=
  let s1Length := (s1.length + 1) % 2 ^ indexBits
  let s2Length := (s2.length + 1) % 2 ^ indexBits
  let t := matchConfig.createTable s1Length s2Length
  matchConfig.getResult (matchTableLoop matchConfig s1 s2 s2Length (s1Length - 1) 1 t)

/-- An edit script read from left to right: `EditScript s u n` holds when `u` is obtained
from `s` by keeping characters and by `n` substitutions, deletions and insertions of single
characters. -/
inductive EditScript : List Char → List Char → Nat → Prop
  | done : EditScript [] [] 0
  | keep (x : Char) {s u : List Char} {n : Nat} :
      EditScript s u n → EditScript (x :: s) (x :: u) n
  | substitute (x y : Char) {s u : List Char} {n : Nat} :
      EditScript s u n → EditScript (x :: s) (y :: u) (n + 1)
  | delete (x : Char) {s u : List Char} {n : Nat} :
      EditScript s u n → EditScript (x :: s) u (n + 1)
  | insert (y : Char) {s u : List Char} {n : Nat} :
      EditScript s u n → EditScript s (y :: u) (n + 1)

/-- The number `d` is the least cost of an edit script from `s` to `u`. -/
def IsEditDistance (s u : List Char) (d : Nat) : Prop :=
  EditScript s u d ∧ ∀ n, EditScript s u n → d ≤ n

/-- One edit of a string: a substitution, an insertion or a deletion of a single
character at any position. -/
inductive EditStep : List Char → List Char → Prop
  | substitute (a b : List Char) (x y : Char) : EditStep (a ++ x :: b) (a ++ y :: b)
  | insert (a b : List Char) (y : Char) : EditStep (a ++ b) (a ++ y :: b)
  | delete (a b : List Char) (x : Char) : EditStep (a ++ x :: b) (a ++ b)

/-- The string `u` is reached from `s` by `n` successive single edits. -/
inductive EditChain : List Char → List Char → Nat → Prop
  | refl (s : List Char) : EditChain s s 0
  | step {s u v : List Char} {n : Nat} : EditStep s u → EditChain u v n → EditChain s v (n + 1)

/-- Invariant of the loops of `approximativeStringMatching` with `MatchConfigGenericImpl`
before the cell `(i, j)` is written: the table has its shape; every cell of row `0`, of
column `0`, of a row before `i` or of row `i` before column `j` holds the least cost of an
edit script between the two prefixes (read backwards); every other cell still holds the
largest `IndexType`. -/
def MatchInv (s1 s2 : List Char) (t : List (List Nat)) (i j : Nat) : Prop :=
  t.length = s1.length + 1 ∧
  (∀ a, a ≤ s1.length → (t.getD a []).length = s2.length + 1) ∧
  ∀ a b, a ≤ s1.length → b ≤ s2.length →
    ((a = 0 ∨ b = 0 ∨ a < i ∨ (a = i ∧ b < j)) →
      IsEditDistance (s1.take a).reverse (s2.take b).reverse (idxCellAt t a b)) ∧
    (¬ (a = 0 ∨ b = 0 ∨ a < i ∨ (a = i ∧ b < j)) → idxCellAt t a b = 2 ^ indexBits - 1)

/-! ## Lemmas on vectors -/

theorem swapAt_of_lt {α : Type} (l : List α) (i j : Nat) (hi : i < l.length) (hj : j < l.length) :
    swapAt l i j = (l.set i l[j]).set j l[i] := by
  simp [swapAt, List.getElem?_eq_getElem hi, List.getElem?_eq_getElem hj]

theorem swapAt_of_ge_left {α : Type} (l : List α) (i j : Nat) (hi : l.length ≤ i) :
    swapAt l i j = l := by
  simp [swapAt, List.getElem?_eq_none hi]

theorem swapAt_of_ge_right {α : Type} (l : List α) (i j : Nat) (hj : l.length ≤ j) :
    swapAt l i j = l := by
  unfold swapAt
  rw [List.getElem?_eq_none hj]
  cases l[i]? <;> rfl

@[simp] theorem length_swapAt {α : Type} (l : List α) (i j : Nat) :
    (swapAt l i j).length = l.length := by
  unfold swapAt
  split <;> simp

theorem getElem?_swapAt {α : Type} (l : List α) (i j k : Nat)
    (hi : i < l.length) (hj : j < l.length) :
    (swapAt l i j)[k]? = if k = j then l[i]? else if k = i then l[j]? else l[k]? := by
  rw [swapAt_of_lt l i j hi hj]
  simp only [List.getElem?_set, List.length_set]
  by_cases hkj : k = j
  · subst hkj; simp [hj, List.getElem?_eq_getElem hi]
  · by_cases hki : k = i
    · subst hki; simp [hkj, Ne.symm hkj, hi, List.getElem?_eq_getElem hj]
    · simp [hkj, hki, Ne.symm hkj, Ne.symm hki]

theorem swapAt_self {α : Type} (l : List α) (i : Nat) : swapAt l i i = l := by
  by_cases hi : i < l.length
  · apply List.ext_getElem?
    intro k
    rw [getElem?_swapAt l i i k hi hi]
    by_cases hk : k = i <;> simp [hk]
  · exact swapAt_of_ge_left l i i (Nat.le_of_not_lt hi)

theorem swapAt_perm {α : Type} (l : List α) (i j : Nat) : (swapAt l i j).Perm l := by
  classical
  by_cases hi : i < l.length
  swap
  · rw [swapAt_of_ge_left l i j (Nat.le_of_not_lt hi)]
  by_cases hj : j < l.length
  swap
  · rw [swapAt_of_ge_right l i j (Nat.le_of_not_lt hj)]
  by_cases hij : i = j
  · subst hij; rw [swapAt_self]
  rw [swapAt_of_lt l i j hi hj, List.perm_iff_count]
  intro c
  have hj' : j < (l.set i l[j]).length := by simpa using hj
  rw [List.count_set _ _ _ _ hj', List.count_set _ _ _ _ hi]
  have h1 : (l.set i l[j])[j] = l[j] := by
    rw [List.getElem_set]; simp [hij]
  rw [h1]
  have h2 := List.boole_getElem_le_countP (fun x => x == c) l i hi
  have h3 : List.count c l = List.countP (fun x => x == c) l := rfl
  simp only at h2
  rw [h3]
  by_cases ha : (l[i] == c) = true <;> by_cases hb : (l[j] == c) = true <;>
    simp only [ha, hb, if_true, if_false] at h2 ⊢ <;> omega

theorem take_swapAt {α : Type} (l : List α) (i j n : Nat) (hi : i < n) (hj : j < n) :
    (swapAt l i j).take n = swapAt (l.take n) i j := by
  by_cases hil : i < l.length
  swap
  · rw [swapAt_of_ge_left l i j (Nat.le_of_not_lt hil), swapAt_of_ge_left]
    simp; omega
  by_cases hjl : j < l.length
  swap
  · rw [swapAt_of_ge_right l i j (Nat.le_of_not_lt hjl), swapAt_of_ge_right]
    simp; omega
  apply List.ext_getElem?
  intro k
  have hi' : i < (l.take n).length := by simp; omega
  have hj' : j < (l.take n).length := by simp; omega
  rw [getElem?_swapAt _ i j k hi' hj', List.getElem?_take]
  by_cases hk : k < n
  · simp only [hk, if_true]
    rw [getElem?_swapAt l i j k hil hjl]
    simp [List.getElem?_take, hi, hj, hk]
  · have h1 : k ≠ j := by omega
    have h2 : k ≠ i := by omega
    simp [hk, h1, h2, List.getElem?_take]

theorem drop_swapAt {α : Type} (l : List α) (i j n : Nat) (hi : i < n) (hj : j < n) :
    (swapAt l i j).drop n = l.drop n := by
  by_cases hil : i < l.length
  swap
  · rw [swapAt_of_ge_left l i j (Nat.le_of_not_lt hil)]
  by_cases hjl : j < l.length
  swap
  · rw [swapAt_of_ge_right l i j (Nat.le_of_not_lt hjl)]
  apply List.ext_getElem?
  intro k
  rw [List.getElem?_drop, List.getElem?_drop, getElem?_swapAt l i j _ hil hjl]
  have h1 : n + k ≠ j := by omega
  have h2 : n + k ≠ i := by omega
  simp [h1, h2]

/-! ## Lemmas on the heap engine -/

theorem Comparer.compare_irrefl (c : Comparer) (a : Int) : c.compare a a = false := by
  cases c <;> simp [Comparer.compare]

theorem Comparer.compare_trans (c : Comparer) {a b d : Int}
    (h₁ : c.compare a b = true) (h₂ : c.compare b d = true) : c.compare a d = true := by
  cases c <;> simp [Comparer.compare] at * <;> omega

theorem Comparer.compare_asymm (c : Comparer) {a b : Int}
    (h₁ : c.compare a b = true) : c.compare b a = false := by
  cases c <;> simp [Comparer.compare] at * <;> omega

theorem countP_lt_of_mem {α : Type} (p q : α → Bool) (l : List α)
    (hpq : ∀ x, p x = true → q x = true) (y : α) (hy : y ∈ l)
    (hq : q y = true) (hp : p y = false) : l.countP p < l.countP q := by
  induction l with
  | nil => simp at hy
  | cons x xs ih =>
    have hmono : xs.countP p ≤ xs.countP q := List.countP_mono_left fun z _ hz => hpq z hz
    rcases List.mem_cons.1 hy with rfl | hmem
    · simp [List.countP_cons, hq, hp]; omega
    · have := ih hmem
      simp only [List.countP_cons]
      by_cases hpx : p x = true
      · simp [hpx, hpq x hpx]; omega
      · by_cases hqx : q x = true <;> simp [hpx, hqx] <;> omega

theorem HeapBase.getLastIndex_of_pos (h : HeapBase) (hpos : 0 < h.size) :
    h.getLastIndex = .ok (h.size - 1) := by
  simp [HeapBase.getLastIndex, hpos]

theorem HeapBase.get_swap_left (h : HeapBase) (i j : Nat)
    (hi : i < h.heapData.length) (hj : j < h.heapData.length) :
    (h.swap i j).get i = h.get j := by
  simp only [HeapBase.get, HeapBase.swap, List.getD_eq_getElem?_getD]
  rw [getElem?_swapAt _ i j i hi hj]
  by_cases hij : i = j
  · subst hij; simp
  · simp [hij]

theorem HeapBase.get_mem (h : HeapBase) (i : Nat) (hi : i < h.heapData.length) :
    h.get i ∈ h.heapData := by
  simp only [HeapBase.get, List.getD_eq_getElem?_getD, List.getElem?_eq_getElem hi, Option.getD_some]
  exact List.getElem_mem hi

@[simp] theorem HeapBase.size_swap (h : HeapBase) (i j : Nat) : (h.swap i j).size = h.size := by
  unfold HeapBase.size HeapBase.swap
  cases h.sorterCount <;> simp

@[simp] theorem HeapBase.length_swap (h : HeapBase) (i j : Nat) :
    (h.swap i j).heapData.length = h.heapData.length := by
  simp [HeapBase.swap]

@[simp] theorem HeapBase.sorterCount_swap (h : HeapBase) (i j : Nat) :
    (h.swap i j).sorterCount = h.sorterCount := rfl

/-- What the loop of `bubbleDown` does to a well-formed heap object: it returns, and the
result is the same object with its logical elements rearranged. -/
theorem bubbleDownLoop_spec (c : Comparer) (fuel : Nat) (h : HeapBase) (itemIdx tc : Nat)
    (hvalid : h.size ≤ h.heapData.length) (hitem : itemIdx < h.size)
    (hfuel : h.heapData.countP (fun x => c.compare x (h.get itemIdx)) < fuel) :
    ∃ h', bubbleDownLoop c fuel h itemIdx tc = .ok h' ∧
      h'.sorterCount = h.sorterCount ∧
      h'.heapData.length = h.heapData.length ∧
      (h'.heapData.take h.size).Perm (h.heapData.take h.size) ∧
      h'.heapData.drop h.size = h.heapData.drop h.size := by
  induction fuel generalizing h tc with
  | zero => omega
  | succ fuel ih =>
    have hpos : 0 < h.size := by omega
    unfold bubbleDownLoop
    rw [h.getLastIndex_of_pos hpos]
    simp only [bind, Except.bind]
    by_cases htc : tc ≤ h.size - 1
    swap
    · rw [if_neg htc]; exact ⟨h, rfl, rfl, rfl, List.Perm.refl _, rfl⟩
    rw [if_pos htc]
    generalize htc' : (if (decide (getRightChildIdx itemIdx ≤ h.size - 1) &&
        c.compare (h.get (getRightChildIdx itemIdx)) (h.get tc)) = true
        then getRightChildIdx itemIdx else tc) = tc'
    have htc'le : tc' ≤ h.size - 1 := by
      rw [← htc']
      split
      · rename_i hr
        simp only [Bool.and_eq_true, decide_eq_true_eq] at hr
        exact hr.1
      · exact htc
    by_cases hcmp : c.compare (h.get tc') (h.get itemIdx) = true
    swap
    · rw [if_neg hcmp]; exact ⟨h, rfl, rfl, rfl, List.Perm.refl _, rfl⟩
    rw [if_pos hcmp]
    have hi : itemIdx < h.heapData.length := by omega
    have hj : tc' < h.heapData.length := by omega
    have hget : (h.swap itemIdx tc').get itemIdx = h.get tc' := h.get_swap_left _ _ hi hj
    have hmeasure : (h.swap itemIdx tc').heapData.countP
        (fun x => c.compare x ((h.swap itemIdx tc').get itemIdx)) < fuel := by
      rw [hget]
      have hperm : (h.swap itemIdx tc').heapData.Perm h.heapData := swapAt_perm _ _ _
      rw [hperm.countP_eq]
      have hlt := countP_lt_of_mem (fun x => c.compare x (h.get tc'))
        (fun x => c.compare x (h.get itemIdx)) h.heapData
        (fun x hx => c.compare_trans hx hcmp) (h.get tc') (h.get_mem tc' hj) hcmp
        (c.compare_irrefl _)
      omega
    obtain ⟨h', hrun, hsc, hlen, hperm, hdrop⟩ :=
      ih (h.swap itemIdx tc') (getLeftChildIdx tc')
        (by rw [HeapBase.size_swap, HeapBase.length_swap]; exact hvalid)
        (by rw [HeapBase.size_swap]; exact hitem) hmeasure
    refine ⟨h', hrun, ?_, ?_, ?_, ?_⟩
    · rw [hsc, HeapBase.sorterCount_swap]
    · rw [hlen, HeapBase.length_swap]
    · rw [HeapBase.size_swap] at hperm
      refine hperm.trans ?_
      show ((swapAt h.heapData itemIdx tc').take h.size).Perm _
      rw [take_swapAt _ _ _ _ hitem (by omega)]
      exact swapAt_perm _ _ _
    · rw [HeapBase.size_swap] at hdrop
      rw [hdrop]
      show (swapAt h.heapData itemIdx tc').drop h.size = _
      exact drop_swapAt _ _ _ _ hitem (by omega)

theorem HeapBase.size_eq_of (h h' : HeapBase) (hsc : h'.sorterCount = h.sorterCount)
    (hlen : h'.heapData.length = h.heapData.length) : h'.size = h.size := by
  unfold HeapBase.size
  rw [hsc, hlen]

/-- Calling `bubbleDown` on a well-formed heap object returns, keeps the logical size and
rearranges the logical elements only. -/
theorem bubbleDown_spec (c : Comparer) (h : HeapBase) (itemIdx : Nat)
    (hvalid : h.size ≤ h.heapData.length) (hitem : itemIdx < h.size) :
    ∃ h', bubbleDown c h itemIdx = .ok h' ∧
      h'.sorterCount = h.sorterCount ∧
      h'.heapData.length = h.heapData.length ∧
      (h'.heapData.take h.size).Perm (h.heapData.take h.size) ∧
      h'.heapData.drop h.size = h.heapData.drop h.size := by
  have hpos : 0 < h.size := by omega
  unfold bubbleDown
  rw [h.getLastIndex_of_pos hpos]
  simp only [bind, Except.bind]
  by_cases h1 : itemIdx = h.size - 1
  · rw [if_pos h1]; exact ⟨h, rfl, rfl, rfl, List.Perm.refl _, rfl⟩
  rw [if_neg h1, if_neg (by omega)]
  apply bubbleDownLoop_spec c _ h itemIdx _ hvalid hitem
  have := List.countP_le_length (fun x => c.compare x (h.get itemIdx)) (l := h.heapData)
  omega

theorem HeapBase.size_dropLastElem (h : HeapBase) : h.dropLastElem.size = h.size - 1 := by
  unfold HeapBase.dropLastElem HeapBase.size
  cases h.sorterCount <;> simp

theorem HeapBase.length_dropLastElem_ge (h : HeapBase) (hvalid : h.size ≤ h.heapData.length) :
    h.dropLastElem.size ≤ h.dropLastElem.heapData.length := by
  rw [h.size_dropLastElem]
  unfold HeapBase.dropLastElem
  unfold HeapBase.size at hvalid ⊢
  cases hsc : h.sorterCount <;> simp [hsc] at hvalid ⊢
  omega

theorem HeapBase.logical_dropLastElem (h : HeapBase) (hvalid : h.size ≤ h.heapData.length) :
    h.dropLastElem.logical = h.logical.dropLast := by
  unfold HeapBase.logical
  rw [h.size_dropLastElem, List.dropLast_eq_take, List.length_take, Nat.min_eq_left hvalid,
    List.take_take, Nat.min_eq_left (Nat.sub_le _ _)]
  unfold HeapBase.dropLastElem HeapBase.size
  cases hsc : h.sorterCount
  · simp [List.dropLast_eq_take]
  · simp

theorem set_dropLast_perm_eraseIdx (l : List Int) (idx : Nat) (z : Int)
    (hidx : idx + 1 < l.length) (hz : l.getD (l.length - 1) 0 = z) :
    ((l.set idx z).dropLast).Perm (l.eraseIdx idx) := by
  have hne : l ≠ [] := by intro h; simp [h] at hidx
  have hlast : l.getLast hne = z := by
    rw [← hz, List.getLast_eq_getElem, List.getD_eq_getElem]
  have hl : l = l.dropLast ++ [z] := by
    rw [← hlast]; exact (List.dropLast_append_getLast hne).symm
  generalize l.dropLast = xs at hl
  subst hl
  have hx : idx < xs.length := by simpa using hidx
  rw [List.set_append_left _ _ hx, List.dropLast_concat, List.eraseIdx_append_of_lt_length hx]
  rw [List.set_eq_take_append_cons_drop, if_pos hx, List.eraseIdx_eq_take_drop_succ]
  refine List.Perm.trans List.perm_middle ?_
  exact (List.perm_append_singleton z _).symm


theorem HeapBase.length_logical (h : HeapBase) (hvalid : h.size ≤ h.heapData.length) :
    h.logical.length = h.size := by
  simp [HeapBase.logical, hvalid]

theorem HeapBase.get_eq_logical (h : HeapBase) (i : Nat) (hi : i < h.size) :
    h.get i = h.logical.getD i 0 := by
  simp [HeapBase.get, HeapBase.logical, List.getElem?_take, hi]

/-- Calling `removeItemFromHeap` at a logical index of a well-formed heap object returns, and the
logical elements of the result are those of the argument without the one at `targetIdx`. -/
theorem removeItemFromHeap_spec (c : Comparer) (h : HeapBase) (targetIdx : Nat)
    (hvalid : h.size ≤ h.heapData.length) (hidx : targetIdx < h.size) :
    ∃ h', removeItemFromHeap c h targetIdx = .ok h' ∧
      h'.size + 1 = h.size ∧
      h'.size ≤ h'.heapData.length ∧
      h'.logical.Perm (h.logical.eraseIdx targetIdx) := by
  have hpos : 0 < h.size := by omega
  unfold removeItemFromHeap
  rw [h.getLastIndex_of_pos hpos]
  simp only [bind, Except.bind]
  by_cases h1 : targetIdx < h.size - 1
  · rw [if_pos h1]
    generalize hm : ({ h with heapData := h.heapData.set targetIdx (h.get (h.size - 1)) } : HeapBase)
      = moved
    have hmsc : moved.sorterCount = h.sorterCount := by rw [← hm]
    have hmlen : moved.heapData.length = h.heapData.length := by rw [← hm]; simp
    have hmsize : moved.size = h.size := HeapBase.size_eq_of h moved hmsc hmlen
    have hmvalid : moved.size ≤ moved.heapData.length := by rw [hmsize, hmlen]; exact hvalid
    have hmlog : moved.logical = h.logical.set targetIdx (h.get (h.size - 1)) := by
      unfold HeapBase.logical
      rw [hmsize, ← hm]
      exact List.set_take
    have hdvalid := moved.length_dropLastElem_ge hmvalid
    have hdsize : moved.dropLastElem.size = h.size - 1 := by
      rw [moved.size_dropLastElem, hmsize]
    obtain ⟨h', hrun, hsc, hlen, hperm, -⟩ :=
      bubbleDown_spec c moved.dropLastElem targetIdx hdvalid (by rw [hdsize]; exact h1)
    have hsize : h'.size = moved.dropLastElem.size := HeapBase.size_eq_of _ _ hsc hlen
    refine ⟨h', hrun, ?_, ?_, ?_⟩
    · rw [hsize, hdsize]; omega
    · rw [hsize, hlen]; exact hdvalid
    · have hlog : h'.logical.Perm moved.dropLastElem.logical := by
        unfold HeapBase.logical
        rw [hsize]
        exact hperm
      refine hlog.trans ?_
      rw [moved.logical_dropLastElem hmvalid, hmlog]
      apply set_dropLast_perm_eraseIdx
      · rw [h.length_logical hvalid]; omega
      · rw [h.length_logical hvalid, h.get_eq_logical _ (by omega)]
  · rw [if_neg h1]
    have h2 : targetIdx = h.size - 1 := by omega
    rw [if_pos h2]
    refine ⟨h.dropLastElem, rfl, ?_, h.length_dropLastElem_ge hvalid, ?_⟩
    · rw [h.size_dropLastElem]; omega
    · rw [h.logical_dropLastElem hvalid, h2]
      rw [List.dropLast_eq_eraseIdx (i := h.size - 1) (by rw [h.length_logical hvalid]; omega)]

/-! ## Lemmas on quicksort, binary search and the suffix array engine -/

theorem partitionLoop_length {α : Type} (le : α → α → Bool) (lastElemPos : Nat)
    (n it insertPos : Nat) (l : List α) :
    (partitionLoop le lastElemPos n it insertPos l).1.length = l.length := by
  induction n generalizing it insertPos l with
  | zero => rfl
  | succ n ih =>
    unfold partitionLoop
    split
    · split
      · rw [ih]; split <;> simp
      · rw [ih]
    · rfl

theorem partitionLomutoAt_length {α : Type} (le : α → α → Bool) (l : List α)
    (beg endPos pivotPos : Nat) :
    (partitionLomutoAt le l beg endPos pivotPos).1.length = l.length := by
  unfold partitionLomutoAt
  split
  · simp only []
    split
    · generalize hl₁ : (if (pivotPos != endPos - 1) = true then swapAt l pivotPos (endPos - 1)
        else l) = l₁
      have h₁ : l₁.length = l.length := by rw [← hl₁]; split <;> simp
      have h₂ := partitionLoop_length le (endPos - 1) (endPos - 1 - beg) beg beg l₁
      split <;> simp [h₂, h₁]
    · rfl
  · rfl

theorem partitionLomuto_length {α : Type} (le : α → α → Bool) (l : List α) (beg endPos : Nat) :
    (partitionLomuto le l beg endPos).1.length = l.length := by
  unfold partitionLomuto
  split
  · exact partitionLomutoAt_length le l beg endPos _
  · rfl

theorem quickSortRange_length {α : Type} (le : α → α → Bool) (fuel : Nat) (l : List α)
    (beg endPos : Nat) (l' : List α) (h : quickSortRange le fuel l beg endPos = .ok l') :
    l'.length = l.length := by
  induction fuel generalizing l beg endPos l' with
  | zero => simp [quickSortRange] at h
  | succ fuel ih =>
    unfold quickSortRange at h
    simp only [] at h
    have hp := partitionLomuto_length le l beg endPos
    split at h
    · cases h2 : quickSortRange le fuel (partitionLomuto le l beg endPos).1 beg
          (partitionLomuto le l beg endPos).2 with
      | error e => simp [h2, bind, Except.bind] at h
      | ok l₂ =>
        simp only [h2, bind, Except.bind] at h
        rw [ih _ _ _ _ h, ih _ _ _ _ h2, hp]
    · cases h
      exact hp

theorem quickSortInPlace_length {α : Type} (le : α → α → Bool) (l l' : List α)
    (h : quickSortInPlace le l = .ok l') : l'.length = l.length :=
  quickSortRange_length le _ l _ _ l' h


theorem length_setupPrefixes (lastOrder : List Nat) (N cnt : Nat) :
    (setupPrefixes lastOrder N cnt).length = N := by
  simp [setupPrefixes]

theorem buildLoop_prefixes_length (N fuel cnt : Nat) (matrix : List (List Nat))
    (prefixes : List SortEntry) (res : List (List Nat) × List SortEntry)
    (hlen : prefixes.length = N) (h : buildLoop N fuel cnt matrix prefixes = .ok res) :
    res.2.length = N := by
  induction fuel generalizing cnt matrix prefixes with
  | zero => simp [buildLoop] at h
  | succ fuel ih =>
    unfold buildLoop at h
    split at h
    · simp only [bind, Except.bind] at h
      split at h
      · cases h
      · rename_i sorted hq
        refine ih _ _ _ ?_ h
        rw [quickSortInPlace_length _ _ _ hq, length_setupPrefixes]
    · cases h
      exact hlen

/-- The constructor keeps the text and produces a suffix array of the text's length. -/
theorem SuffixArray.build_shape (text : List Nat) (sa : SuffixArray)
    (h : SuffixArray.build text = .ok sa) :
    sa.text = text ∧ sa.suffixArray.length = text.length := by
  unfold SuffixArray.build at h
  simp only [] at h
  cases hb : buildLoop text.length (text.length + 1) 1 [text]
      (List.replicate text.length { chunk0 := 0, chunk1 := 0, pos := 0 }) with
  | error e => simp [hb, bind, Except.bind] at h
  | ok res =>
    simp only [hb, bind, Except.bind] at h
    cases h
    refine ⟨rfl, ?_⟩
    simp only [List.length_map]
    exact buildLoop_prefixes_length _ _ _ _ _ res (by simp) hb

/-- A hit of `binSearch` is an element the equality test accepts. -/
theorem binSearch_hit {α β : Type} (vct : List α) (target : β) (beg endPos : Nat)
    (isEqual isSmaller : α → β → Result Bool) (r : Nat)
    (h : binSearch vct target beg endPos isEqual isSmaller = .ok r) (hr : r < vct.length) :
    ∃ b, vct[r]? = some b ∧ isEqual b target = .ok true := by
  unfold binSearch at h
  split at h
  swap
  · cases h
  cases hl : binSearchLoop vct target isSmaller (endPos - beg + 1) beg endPos with
  | error e => simp [hl, bind, Except.bind] at h
  | ok be =>
    obtain ⟨b', e'⟩ := be
    simp only [hl, bind, Except.bind] at h
    split at h
    swap
    · cases h; omega
    split at h
    · cases h
    · rename_i b hb
      cases he : isEqual b target with
      | error e => simp [he] at h
      | ok v =>
        simp only [he] at h
        cases v
        · simp at h; cases h; omega
        · simp at h; cases h
          exact ⟨b, hb, he⟩

theorem compareLoop_undefined (text substr : List Nat) (idx n i : Nat)
    (h : compareLoop text substr idx n i = .Undefined) :
    ∀ k, k < n → idxAt text (idx + (i + k)) = idxAt substr (i + k) := by
  induction n generalizing i with
  | zero => intro k hk; omega
  | succ n ih =>
    unfold compareLoop at h
    split at h
    · split at h <;> cases h
    · rename_i heq
      have heq' : idxAt text (idx + i) = idxAt substr i := by simpa using heq
      intro k hk
      cases k with
      | zero => simpa using heq'
      | succ k =>
        have := ih (i + 1) h k (by omega)
        rw [show i + (k + 1) = i + 1 + k by omega]
        exact this

/-- Function `isLexEqual` accepts a position exactly when the pattern is read in the text there. -/
theorem SuffixArray.isLexEqual_true (sa : SuffixArray) (idx : Nat) (substr : List Nat)
    (h : sa.isLexEqual idx substr = .ok true) :
    idx < sa.text.length ∧ (sa.text.drop idx).take substr.length = substr := by
  unfold SuffixArray.isLexEqual at h
  cases hc : sa.compareSubstring idx substr with
  | error e => simp [hc, bind, Except.bind] at h
  | ok res =>
    simp only [hc, bind, Except.bind] at h
    have hres : res = .Equal := by simpa using h
    subst hres
    unfold SuffixArray.compareSubstring SuffixArray.outOfRangeVal at hc
    split at hc
    · cases hc
    split at hc
    · cases hc
    rename_i hidx hne
    simp only [] at hc
    split at hc
    swap
    · rename_i hu
      injection hc with hc
      exfalso
      revert hc
      generalize min (sa.text.length - idx) substr.length = n
      intro hc
      -- the loop never answers `Equal`
      have : ∀ n i, compareLoop sa.text substr idx n i ≠ .Equal := by
        intro n
        induction n with
        | zero => intro i; simp [compareLoop]
        | succ n ih =>
          intro i
          unfold compareLoop
          split
          · split <;> simp
          · exact ih _
      exact this _ _ hc
    rename_i hu
    split at hc
    · cases hc
    rename_i hlen
    have hlen' : substr.length ≤ sa.text.length - idx := by omega
    rw [Nat.min_eq_right hlen'] at hu
    have hall := compareLoop_undefined _ _ _ _ _ hu
    refine ⟨by omega, ?_⟩
    apply List.ext_getElem?
    intro k
    rw [List.getElem?_take]
    by_cases hk : k < substr.length
    · rw [if_pos hk, List.getElem?_drop]
      have := hall k hk
      simp only [idxAt, Nat.zero_add, List.getD_eq_getElem?_getD] at this
      rw [List.getElem?_eq_getElem (by omega : idx + k < sa.text.length)] at this ⊢
      rw [List.getElem?_eq_getElem hk] at this ⊢
      simpa using this
    · rw [if_neg hk, List.getElem?_eq_none (by omega)]


theorem SuffixArray.lcpLoop_comm (sa : SuffixArray) (k x y len : Nat) :
    sa.lcpLoop k x y len = sa.lcpLoop k y x len := by
  induction k generalizing x y len with
  | zero =>
    unfold SuffixArray.lcpLoop
    by_cases hxy : x < sa.text.length ∧ y < sa.text.length
    · rw [if_pos hxy, if_pos hxy.symm]
      by_cases hr : sa.rank 0 x = sa.rank 0 y
      · rw [if_pos hr, if_pos hr.symm]
      · rw [if_neg hr, if_neg (Ne.symm hr)]
    · rw [if_neg hxy, if_neg (fun h => hxy h.symm)]
  | succ k ih =>
    unfold SuffixArray.lcpLoop
    by_cases hxy : x < sa.text.length ∧ y < sa.text.length
    · rw [if_pos hxy, if_pos hxy.symm]
      by_cases hr : sa.rank (k + 1) x = sa.rank (k + 1) y
      · rw [if_pos hr, if_pos hr.symm]; exact ih _ _ _
      · rw [if_neg hr, if_neg (Ne.symm hr)]; exact ih _ _ _
    · rw [if_neg hxy, if_neg (fun h => hxy h.symm)]

theorem HeapBase.rearranged_refl (h : HeapBase) : h.rearranged h :=
  ⟨rfl, rfl, List.Perm.refl _, rfl⟩

theorem HeapBase.rearranged.size_eq {h h' : HeapBase} (hr : h.rearranged h') :
    h'.size = h.size :=
  HeapBase.size_eq_of h h' hr.1 hr.2.1

theorem HeapBase.rearranged.trans {h₁ h₂ h₃ : HeapBase} (h₁₂ : h₁.rearranged h₂)
    (h₂₃ : h₂.rearranged h₃) : h₁.rearranged h₃ := by
  have hs := h₁₂.size_eq
  obtain ⟨a₁, b₁, c₁, d₁⟩ := h₁₂
  obtain ⟨a₂, b₂, c₂, d₂⟩ := h₂₃
  rw [hs] at c₂ d₂
  exact ⟨a₂.trans a₁, b₂.trans b₁, c₂.trans c₁, d₂.trans d₁⟩

theorem HeapBase.rearranged.perm {h h' : HeapBase} (hr : h.rearranged h') :
    h'.heapData.Perm h.heapData := by
  obtain ⟨-, -, hp, hd⟩ := hr
  have h1 : h'.heapData = h'.heapData.take h.size ++ h.heapData.drop h.size := by
    rw [← hd, List.take_append_drop]
  have h2 : h.heapData = h.heapData.take h.size ++ h.heapData.drop h.size :=
    (List.take_append_drop _ _).symm
  rw [h1]
  conv_rhs => rw [h2]
  exact hp.append_right _

theorem bubbleDown_rearranged (c : Comparer) (h : HeapBase) (itemIdx : Nat)
    (hvalid : h.size ≤ h.heapData.length) (hitem : itemIdx < h.size) :
    ∃ h', bubbleDown c h itemIdx = .ok h' ∧ h.rearranged h' :=
  bubbleDown_spec c h itemIdx hvalid hitem

theorem heapifyLoop_rearranged (c : Comparer) (h : HeapBase) (p : Nat)
    (hvalid : h.size ≤ h.heapData.length) (hp : p < h.size) :
    ∃ h', heapifyLoop c h p = .ok h' ∧ h.rearranged h' := by
  induction p generalizing h with
  | zero => exact ⟨h, rfl, h.rearranged_refl⟩
  | succ p ih =>
    obtain ⟨h₁, hrun₁, hr₁⟩ := bubbleDown_rearranged c h (p + 1) hvalid hp
    have hs := hr₁.size_eq
    obtain ⟨h₂, hrun₂, hr₂⟩ := ih h₁ (by rw [hs, hr₁.2.1]; exact hvalid) (by rw [hs]; omega)
    refine ⟨h₂, ?_, hr₁.trans hr₂⟩
    unfold heapifyLoop
    rw [hrun₁]
    exact hrun₂

/-- On a well-formed heap object with at least two logical elements `heapify` returns and
only rearranges the logical elements. -/
theorem heapify_rearranged (c : Comparer) (h : HeapBase)
    (hvalid : h.size ≤ h.heapData.length) (h2 : 2 ≤ h.size) :
    ∃ h', heapify c h = .ok h' ∧ h.rearranged h' := by
  obtain ⟨h₁, hrun₁, hr₁⟩ :=
    heapifyLoop_rearranged c h ((h.size - 1 - 1) / 2) hvalid (by omega)
  have hs := hr₁.size_eq
  obtain ⟨h₂, hrun₂, hr₂⟩ :=
    bubbleDown_rearranged c h₁ TopIdx (by rw [hs, hr₁.2.1]; exact hvalid)
      (by rw [hs]; unfold TopIdx; omega)
  refine ⟨h₂, ?_, hr₁.trans hr₂⟩
  unfold heapify
  rw [h.getLastIndex_of_pos (by omega)]
  have hpar : getParentIdx (h.size - 1) = .ok ((h.size - 1 - 1) / 2) := by
    unfold getParentIdx TopIdx
    rw [if_pos (by omega)]
  simp only [bind, Except.bind, hpar, hrun₁]
  exact hrun₂

/-- Removal of the root in a `HeapSorter` with `n >= 2` elements in the heap: the count
becomes `n - 1`, the first `n - 1` slots are a rearrangement of the old ones with the root
replaced by the old last element, and the slots from `n - 1` on are untouched. -/
theorem removeItemFromHeap_sorter (c : Comparer) (h : HeapBase) (n : Nat)
    (hsc : h.sorterCount = some n) (hn : 2 ≤ n) (hlen : n ≤ h.heapData.length) :
    ∃ h', removeItemFromHeap c h TopIdx = .ok h' ∧
      h'.sorterCount = some (n - 1) ∧
      h'.heapData.length = h.heapData.length ∧
      (h'.heapData.take (n - 1)).Perm ((h.heapData.take (n - 1)).set 0 (h.get (n - 1))) ∧
      h'.heapData.drop (n - 1) = h.heapData.drop (n - 1) := by
  have hsize : h.size = n := by unfold HeapBase.size; rw [hsc]
  unfold removeItemFromHeap
  rw [h.getLastIndex_of_pos (by omega), hsize]
  simp only [bind, Except.bind]
  rw [if_pos (by unfold TopIdx; omega)]
  generalize hm : HeapBase.dropLastElem
    { h with heapData := h.heapData.set TopIdx (h.get (n - 1)) } = d
  have hd : d = ⟨h.heapData.set 0 (h.get (n - 1)), some (n - 1)⟩ := by
    rw [← hm]
    unfold HeapBase.dropLastElem
    simp only [hsc, TopIdx]
  have hdsize : d.size = n - 1 := by rw [hd]; rfl
  have hddata : d.heapData = h.heapData.set 0 (h.get (n - 1)) := by rw [hd]
  obtain ⟨h', hrun, hsc', hlen', hperm, hdrop⟩ :=
    bubbleDown_spec c d TopIdx (by rw [hdsize, hddata, List.length_set]; omega)
      (by rw [hdsize]; unfold TopIdx; omega)
  rw [hdsize, hddata] at hperm hdrop
  refine ⟨h', hrun, ?_, ?_, ?_, ?_⟩
  · rw [hsc', hd]
  · rw [hlen', hddata, List.length_set]
  · rw [List.set_take] at hperm; exact hperm
  · rw [hdrop, List.drop_set_of_lt _ _ (by omega)]

theorem sort_step_perm (l l' : List Int) (n : Nat) (hn : 2 ≤ n) (hlen : n ≤ l.length)
    (hlen' : l'.length = l.length)
    (htake : (l'.take (n - 1)).Perm ((l.take (n - 1)).set 0 (l.getD (n - 1) 0)))
    (hdrop : l'.drop (n - 1) = l.drop (n - 1)) :
    (l'.set (n - 1) (l.getD 0 0)).Perm l := by
  obtain ⟨m, rfl⟩ : ∃ m, n = m + 2 := ⟨n - 2, by omega⟩
  simp only [Nat.add_sub_cancel, show m + 2 - 1 = m + 1 by omega] at *
  have hdropn : l'.drop (m + 1 + 1) = l.drop (m + 1 + 1) := by
    rw [← List.drop_drop 1 (m + 1) l', hdrop, List.drop_drop]
  rw [List.set_eq_take_append_cons_drop, if_pos (by omega), hdropn]
  cases l with
  | nil => simp at hlen
  | cons t rest =>
    have hz : (t :: rest).getD (m + 1) 0 = rest.getD m 0 := rfl
    rw [hz] at htake
    simp only [List.take_succ_cons, List.set_cons_zero, List.getD_cons_zero,
      List.drop_succ_cons] at htake ⊢
    refine (htake.append_right _).trans ?_
    have hm : m < rest.length := by simp at hlen; omega
    have hrest : rest = rest.take m ++ rest.getD m 0 :: rest.drop (m + 1) := by
      rw [List.getD_eq_getElem _ _ hm]
      simp
    conv_rhs => rw [hrest]
    simp only [List.cons_append]
    refine (List.Perm.cons _ List.perm_middle).trans ?_
    refine (List.Perm.swap _ _ _).trans ?_
    exact List.Perm.cons _ List.perm_middle.symm

theorem sortLoop_perm (fuel : Nat) (h : HeapBase) (n : Nat)
    (hsc : h.sorterCount = some n) (hn : 1 ≤ n) (hlen : n ≤ h.heapData.length)
    (hfuel : n ≤ fuel) :
    ∃ h', sortLoop fuel h = .ok h' ∧ h'.heapData.Perm h.heapData := by
  induction fuel generalizing h n with
  | zero => omega
  | succ fuel ih =>
    have hsize : h.size = n := by unfold HeapBase.size; rw [hsc]
    unfold sortLoop
    rw [hsize]
    by_cases h1 : n > 1
    swap
    · rw [if_neg h1]; exact ⟨h, rfl, List.Perm.refl _⟩
    rw [if_pos h1]
    obtain ⟨h₁, hrun, hsc₁, hlen₁, htake, hdrop⟩ :=
      removeItemFromHeap_sorter .greater h n hsc (by omega) hlen
    have hsize₁ : h₁.size = n - 1 := by unfold HeapBase.size; rw [hsc₁]
    have hstep := sort_step_perm h.heapData h₁.heapData n (by omega) hlen hlen₁ htake hdrop
    obtain ⟨h₂, hrun₂, hperm₂⟩ :=
      ih { h₁ with heapData := h₁.heapData.set h₁.size (h.get TopIdx) } (n - 1) hsc₁ (by omega)
        (by simp only [List.length_set]; omega) (by omega)
    refine ⟨h₂, ?_, hperm₂.trans ?_⟩
    · unfold extractTop
      simp only [hrun, bind, Except.bind]
      exact hrun₂
    · rw [hsize₁]
      exact hstep

theorem Comparer.compare_false_trans (c : Comparer) {a b d : Int}
    (h₁ : c.compare a b = false) (h₂ : c.compare b d = false) : c.compare a d = false := by
  cases c <;> simp [Comparer.compare] at * <;> omega

theorem Comparer.compare_false_of_true (c : Comparer) {a b d : Int}
    (h₁ : c.compare a b = false) (h₂ : c.compare d b = true) : c.compare a d = false := by
  cases c <;> simp [Comparer.compare] at * <;> omega

theorem HeapBase.get_swap (h : HeapBase) (i j m : Nat)
    (hi : i < h.heapData.length) (hj : j < h.heapData.length) :
    (h.swap i j).get m = if m = j then h.get i else if m = i then h.get j else h.get m := by
  simp only [HeapBase.get, HeapBase.swap, List.getD_eq_getElem?_getD]
  rw [getElem?_swapAt _ i j m hi hj]
  split
  · rfl
  · split <;> rfl

theorem HeapBase.rearranged_swap (h : HeapBase) (i j : Nat) (hi : i < h.size)
    (hj : j < h.size) : h.rearranged (h.swap i j) := by
  refine ⟨rfl, h.length_swap i j, ?_, ?_⟩
  · show ((swapAt h.heapData i j).take h.size).Perm _
    rw [take_swapAt _ _ _ _ hi hj]
    exact swapAt_perm _ _ _
  · exact drop_swapAt _ _ _ _ hi hj

/-- The loop of `bubbleUp`, started at `k` on a well-formed heap object whose only possible
disorder is between `k` and its parent, returns a rearrangement that satisfies the heap
invariant. -/
theorem bubbleUpLoop_spec (c : Comparer) (fuel : Nat) (h : HeapBase) (k : Nat)
    (hvalid : h.size ≤ h.heapData.length) (hk : k < h.size) (hfuel : k < fuel)
    (hinv : heapInvariantExcept c h k) :
    ∃ h', bubbleUpLoop c fuel h k = .ok h' ∧ h.rearranged h' ∧ heapInvariant c h' := by
  induction fuel generalizing h k with
  | zero => omega
  | succ fuel ih =>
    unfold bubbleUpLoop
    by_cases hk0 : k = 0
    · subst hk0
      refine ⟨h, by simp [TopIdx], h.rearranged_refl, ?_⟩
      intro i hi0 hi
      exact hinv.1 i hi0 hi (by omega)
    have hne : (k != TopIdx) = true := by simpa [TopIdx] using hk0
    rw [if_pos hne]
    have hpar : getParentIdx k = .ok ((k - 1) / 2) := by
      unfold getParentIdx TopIdx
      rw [if_pos (by omega)]
    simp only [hpar, bind, Except.bind]
    by_cases hcmp : c.compare (h.get k) (h.get ((k - 1) / 2)) = true
    swap
    · rw [if_neg hcmp]
      refine ⟨h, rfl, h.rearranged_refl, ?_⟩
      intro i hi0 hi
      by_cases hik : i = k
      · subst hik; simpa using hcmp
      · exact hinv.1 i hi0 hi hik
    rw [if_pos hcmp]
    have hp : (k - 1) / 2 < k := by omega
    generalize hpdef : (k - 1) / 2 = p at *
    have hkl : k < h.heapData.length := by omega
    have hpl : p < h.heapData.length := by omega
    have hr := h.rearranged_swap k p hk (by omega)
    have hs := hr.size_eq
    have hget : ∀ m, (h.swap k p).get m
        = if m = p then h.get k else if m = k then h.get p else h.get m :=
      fun m => h.get_swap k p m hkl hpl
    have hinv' : heapInvariantExcept c (h.swap k p) p := by
      constructor
      · intro i hi0 hi hip
        rw [hs] at hi
        rw [hget i, hget ((i - 1) / 2), if_neg hip]
        by_cases hik : i = k
        · subst hik
          rw [if_pos rfl, hpdef, if_pos rfl]
          exact c.compare_asymm hcmp
        · rw [if_neg hik]
          by_cases hq : (i - 1) / 2 = p
          · rw [if_pos hq]
            have := hinv.1 i hi0 hi hik
            rw [hq] at this
            exact c.compare_false_of_true this hcmp
          · rw [if_neg hq]
            by_cases hqk : (i - 1) / 2 = k
            · rw [if_pos hqk]
              have := hinv.2 i hi0 hi hqk (by omega)
              rw [hpdef] at this
              exact this
            · rw [if_neg hqk]
              exact hinv.1 i hi0 hi hik
      · intro i hi0 hi hq hp0
        rw [hs] at hi
        have hpp1 : (p - 1) / 2 ≠ p := by omega
        have hpp2 : (p - 1) / 2 ≠ k := by omega
        have hA : c.compare (h.get p) (h.get ((p - 1) / 2)) = false :=
          hinv.1 p hp0 (by omega) (by omega)
        rw [hget i, hget ((p - 1) / 2), if_neg hpp1, if_neg hpp2, if_neg (by omega : i ≠ p)]
        by_cases hik : i = k
        · rw [if_pos hik]; exact hA
        · rw [if_neg hik]
          have := hinv.1 i hi0 hi hik
          rw [hq] at this
          exact c.compare_false_trans this hA
    obtain ⟨h', hrun, hr', hheap⟩ :=
      ih (h.swap k p) p (by rw [hs, h.length_swap]; exact hvalid) (by rw [hs]; omega)
        (by omega) hinv'
    exact ⟨h', hrun, hr.trans hr', hheap⟩

theorem partitionLoop_perm {α : Type} (le : α → α → Bool) (lastElemPos : Nat)
    (n it insertPos : Nat) (l : List α) :
    (partitionLoop le lastElemPos n it insertPos l).1.Perm l := by
  induction n generalizing it insertPos l with
  | zero => exact List.Perm.refl _
  | succ n ih =>
    unfold partitionLoop
    split
    · split
      · refine (ih _ _ _).trans ?_
        split
        · exact swapAt_perm _ _ _
        · exact List.Perm.refl _
      · exact ih _ _ _
    · exact List.Perm.refl _

theorem partitionLoop_insertPos {α : Type} (le : α → α → Bool) (lastElemPos : Nat)
    (n it insertPos : Nat) (l : List α) :
    insertPos ≤ (partitionLoop le lastElemPos n it insertPos l).2 ∧
    (partitionLoop le lastElemPos n it insertPos l).2 ≤ insertPos + n := by
  induction n generalizing it insertPos l with
  | zero => exact ⟨Nat.le_refl _, Nat.le_refl _⟩
  | succ n ih =>
    unfold partitionLoop
    split
    · split
      · have := ih (it + 1) (insertPos + 1)
          (if (it != insertPos) = true then swapAt l it insertPos else l)
        omega
      · have := ih (it + 1) insertPos l
        omega
    · simp

theorem partitionLomutoAt_perm {α : Type} (le : α → α → Bool) (l : List α)
    (beg endPos pivotPos : Nat) :
    (partitionLomutoAt le l beg endPos pivotPos).1.Perm l := by
  unfold partitionLomutoAt
  split
  · simp only []
    split
    · generalize hl₁ : (if (pivotPos != endPos - 1) = true then swapAt l pivotPos (endPos - 1)
        else l) = l₁
      have h₁ : l₁.Perm l := by
        rw [← hl₁]; split
        · exact swapAt_perm _ _ _
        · exact List.Perm.refl _
      have h₂ := partitionLoop_perm le (endPos - 1) (endPos - 1 - beg) beg beg l₁
      split
      · exact (swapAt_perm _ _ _).trans (h₂.trans h₁)
      · exact h₂.trans h₁
    · exact List.Perm.refl _
  · exact List.Perm.refl _

theorem partitionLomutoAt_pos {α : Type} (le : α → α → Bool) (l : List α)
    (beg endPos pivotPos : Nat) (h : beg < endPos) :
    beg ≤ (partitionLomutoAt le l beg endPos pivotPos).2 ∧
    (partitionLomutoAt le l beg endPos pivotPos).2 < endPos := by
  unfold partitionLomutoAt
  rw [if_pos h]
  simp only []
  split
  · generalize (if (pivotPos != endPos - 1) = true then swapAt l pivotPos (endPos - 1)
      else l) = l₁
    have h₂ := partitionLoop_insertPos le (endPos - 1) (endPos - 1 - beg) beg beg l₁
    simp only []
    omega
  · simp only []
    omega

theorem partitionLomuto_perm {α : Type} (le : α → α → Bool) (l : List α) (beg endPos : Nat) :
    (partitionLomuto le l beg endPos).1.Perm l := by
  unfold partitionLomuto
  split
  · exact partitionLomutoAt_perm le l beg endPos _
  · exact List.Perm.refl _

theorem partitionLomuto_pos {α : Type} (le : α → α → Bool) (l : List α) (beg endPos : Nat) :
    (beg < endPos → beg ≤ (partitionLomuto le l beg endPos).2 ∧
      (partitionLomuto le l beg endPos).2 < endPos) ∧
    (¬ beg < endPos → (partitionLomuto le l beg endPos).2 = endPos) := by
  unfold partitionLomuto
  constructor
  · intro h
    rw [if_pos h]
    exact partitionLomutoAt_pos le l beg endPos _ h
  · intro h
    rw [if_neg h]

/-- With a bound above the length of the range, `quickSortInPlace(beg, end)` returns, and
the vector it leaves is a permutation of the one it was given. -/
theorem quickSortRange_spec {α : Type} (le : α → α → Bool) (fuel : Nat) (l : List α)
    (beg endPos : Nat) (hfuel : endPos - beg < fuel) :
    ∃ l', quickSortRange le fuel l beg endPos = .ok l' ∧ l'.Perm l := by
  induction fuel generalizing l beg endPos with
  | zero => omega
  | succ fuel ih =>
    unfold quickSortRange
    have hperm := partitionLomuto_perm le l beg endPos
    have hpos := partitionLomuto_pos le l beg endPos
    generalize partitionLomuto le l beg endPos = res at hperm hpos
    obtain ⟨l₁, pivotPos⟩ := res
    simp only [] at hperm hpos ⊢
    by_cases hlt : beg < endPos
    · obtain ⟨hge, hlt'⟩ := hpos.1 hlt
      have hne : (pivotPos != endPos) = true := by simpa using Nat.ne_of_lt hlt'
      rw [if_pos hne]
      obtain ⟨l₂, hrun₂, hperm₂⟩ := ih l₁ beg pivotPos (by omega)
      obtain ⟨l₃, hrun₃, hperm₃⟩ := ih l₂ (pivotPos + 1) endPos (by omega)
      refine ⟨l₃, ?_, hperm₃.trans (hperm₂.trans hperm)⟩
      simp only [hrun₂, bind, Except.bind]
      exact hrun₃
    · have heq := hpos.2 hlt
      have hne : ¬ (pivotPos != endPos) = true := by simp [heq]
      rw [if_neg hne]
      exact ⟨l₁, rfl, hperm⟩

theorem quickSortInPlace_spec {α : Type} (le : α → α → Bool) (l : List α) :
    ∃ l', quickSortInPlace le l = .ok l' ∧ l'.Perm l :=
  quickSortRange_spec le _ l 0 l.length (by omega)

theorem map_pos_setupPrefixes (lastOrder : List Nat) (N cnt : Nat) :
    (setupPrefixes lastOrder N cnt).map (·.pos) = List.range N := by
  simp [setupPrefixes, List.map_map, Function.comp_def]

/-- The doubling loop of `buildSuffixArray` returns for every text length that fits a
string, and the helper vector it leaves lists every position exactly once. -/
theorem buildLoop_spec (N fuel cnt : Nat) (matrix : List (List Nat))
    (prefixes : List SortEntry) (hN : N ≤ 2 ^ (indexBits - 1)) (hcnt : 1 ≤ cnt)
    (hpos : 1 ≤ fuel) (hfuel : N + 1 ≤ cnt + fuel)
    (hinit : N ≤ cnt → (prefixes.map (·.pos)).Perm (List.range N)) :
    ∃ res, buildLoop N fuel cnt matrix prefixes = .ok res ∧
      (res.2.map (·.pos)).Perm (List.range N) := by
  induction fuel generalizing cnt matrix prefixes with
  | zero => omega
  | succ fuel ih =>
    unfold buildLoop
    by_cases hlt : cnt < N
    · rw [if_pos hlt]
      obtain ⟨sorted, hrun, hperm⟩ := quickSortInPlace_spec SortEntry.isSmallerOrEqual
        (setupPrefixes (matrix.getLastD []) N cnt)
      simp only [hrun, bind, Except.bind]
      have hmod : cnt * 2 % 2 ^ indexBits = cnt * 2 := by
        apply Nat.mod_eq_of_lt
        have : (2 : Nat) ^ indexBits = 2 ^ (indexBits - 1) * 2 := by decide
        omega
      rw [hmod]
      apply ih
      · omega
      · omega
      · omega
      · intro _
        rw [← map_pos_setupPrefixes (matrix.getLastD []) N cnt]
        exact hperm.map _
    · rw [if_neg hlt]
      exact ⟨_, rfl, hinit (by omega)⟩

/-- The constructor returns for every text length that fits a string; the object keeps the
text and its suffix array lists every position exactly once. -/
theorem SuffixArray.build_spec (text : List Nat) (hN : text.length ≤ 2 ^ (indexBits - 1)) :
    ∃ sa, SuffixArray.build text = .ok sa ∧ sa.text = text ∧
      sa.suffixArray.Perm (List.range text.length) := by
  obtain ⟨res, hrun, hperm⟩ := buildLoop_spec text.length (text.length + 1) 1 [text]
    (List.replicate text.length { chunk0 := 0, chunk1 := 0, pos := 0 }) hN (Nat.le_refl _)
    (by omega) (by omega) (by
      intro h1
      have h01 : text.length = 0 ∨ text.length = 1 := by omega
      rcases h01 with h0 | h1'
      · rw [h0]; exact List.Perm.refl []
      · rw [h1']; exact List.Perm.refl [0])
  refine ⟨⟨text, res.2.map (·.pos), res.1⟩, ?_, rfl, hperm⟩
  unfold SuffixArray.build
  simp only [hrun, bind, Except.bind]

theorem perm_range_getElem?_lt {l : List Nat} {N i p : Nat} (hperm : l.Perm (List.range N))
    (hp : l[i]? = some p) : p < N := by
  have hmem : p ∈ l := List.getElem?_mem hp
  exact List.mem_range.1 (hperm.mem_iff.1 hmem)

theorem nonDecreasing_le {data : List Int} (hs : nonDecreasing data) {i j : Nat}
    (hij : i ≤ j) (hj : j < data.length) : data.getD i 0 ≤ data.getD j 0 := by
  induction j with
  | zero =>
    have : i = 0 := by omega
    subst this
    exact Int.le_refl _
  | succ j ih =>
    by_cases h : i = j + 1
    · subst h; exact Int.le_refl _
    · exact Int.le_trans (ih (by omega) (by omega)) (hs j hj)

theorem index_pred_mod {n : Nat} (h1 : 1 ≤ n) (h2 : n ≤ 2 ^ indexBits) :
    (n + 2 ^ indexBits - 1) % 2 ^ indexBits = n - 1 := by
  rw [show n + 2 ^ indexBits - 1 = (n - 1) + 2 ^ indexBits by omega, Nat.add_mod_right]
  exact Nat.mod_eq_of_lt (by omega)

/-- The loop of `binSearch` on a non-decreasing vector of `int`, with `std::less`: it
returns with `beg = end`, every element before that index is smaller than the target, and
the element there is not smaller than the target unless `end` never moved. -/
theorem binSearchLoop_sorted (vct : List Int) (target : Int) (hs : nonDecreasing vct)
    (E : Nat) (fuel beg endPos : Nat) (hfuel : endPos - beg < fuel)
    (hbe : beg ≤ endPos) (hE : endPos ≤ E) (hlen : E < vct.length)
    (hP : ∀ i, i < beg → vct.getD i 0 < target)
    (hJ : endPos = E ∨ target ≤ vct.getD endPos 0) :
    ∃ b, binSearchLoop vct target (fun a t => .ok (decide (a < t))) fuel beg endPos
        = .ok (b, b) ∧ b ≤ E ∧
      (∀ i, i < b → vct.getD i 0 < target) ∧ (b = E ∨ target ≤ vct.getD b 0) := by
  induction fuel generalizing beg endPos with
  | zero => omega
  | succ fuel ih =>
    unfold binSearchLoop
    by_cases hlt : beg < endPos
    swap
    · rw [if_neg hlt]
      have : beg = endPos := by omega
      subst this
      exact ⟨beg, rfl, hE, hP, hJ⟩
    rw [if_pos hlt]
    have hmid : (beg + endPos) / 2 < vct.length := by omega
    simp only [List.getElem?_eq_getElem hmid, bind, Except.bind]
    have hgetD : vct.getD ((beg + endPos) / 2) 0 = vct[(beg + endPos) / 2] :=
      List.getD_eq_getElem _ _ hmid
    by_cases hsm : vct[(beg + endPos) / 2] < target
    · rw [if_pos (by simpa using hsm)]
      apply ih
      · omega
      · omega
      · exact hE
      · intro i hi
        have := nonDecreasing_le hs (show i ≤ (beg + endPos) / 2 by omega) hmid
        rw [hgetD] at this
        omega
      · exact hJ
    · rw [if_neg (by simpa using hsm)]
      apply ih
      · omega
      · omega
      · omega
      · exact hP
      · right; rw [hgetD]; omega

/-- When the loop of `upperBound` returns on a non-decreasing vector, the element at the
index returned is smaller than the target and every later element is not. -/
theorem upperBoundLoop_sorted (vct : List Int) (target : Int) (hs : nonDecreasing vct)
    (hsize : vct.length ≤ 2 ^ indexBits)
    (fuel beg endPos r : Nat) (hbe : beg ≤ endPos) (hlen : endPos < vct.length)
    (hP : vct.getD beg 0 < target)
    (hJ : ∀ i, endPos < i → i < vct.length → target ≤ vct.getD i 0)
    (hrun : upperBoundLoop vct target fuel beg endPos = .ok r) :
    r < vct.length ∧ vct.getD r 0 < target ∧
      ∀ i, r < i → i < vct.length → target ≤ vct.getD i 0 := by
  induction fuel generalizing beg endPos with
  | zero => simp [upperBoundLoop] at hrun
  | succ fuel ih =>
    unfold upperBoundLoop at hrun
    by_cases hlt : beg < endPos
    swap
    · rw [if_neg hlt] at hrun
      have hr : beg = r := Except.ok.inj hrun
      have hbe' : beg = endPos := by omega
      rw [← hr]
      rw [← hbe'] at hlen hJ
      exact ⟨hlen, hP, hJ⟩
    rw [if_pos hlt] at hrun
    have hmid : (beg + endPos) / 2 < vct.length := by omega
    simp only [List.getElem?_eq_getElem hmid] at hrun
    have hgetD : vct.getD ((beg + endPos) / 2) 0 = vct[(beg + endPos) / 2] :=
      List.getD_eq_getElem _ _ hmid
    by_cases hsm : vct[(beg + endPos) / 2] < target
    · rw [if_pos hsm] at hrun
      exact ih _ _ (by omega) hlen (by rw [hgetD]; exact hsm) hJ hrun
    · rw [if_neg hsm] at hrun
      have hsm' : ¬ vct.getD ((beg + endPos) / 2) 0 < target := by rw [hgetD]; exact hsm
      have hne : (beg + endPos) / 2 ≠ beg := by
        intro h
        rw [h] at hsm'
        exact hsm' hP
      rw [index_pred_mod (by omega) (by omega)] at hrun
      refine ih _ _ (by omega) (by omega) hP ?_ hrun
      intro i hi hil
      have := nonDecreasing_le hs (show (beg + endPos) / 2 ≤ i by omega) hil
      rw [hgetD] at this
      omega


/-- A call of `upperBound` that does not return: on `{1,3}` with target 2 the loop keeps
`beg = 0` and `end = 1` for ever, so every bound of the model is exhausted. -/
theorem upperBoundLoop_1_3_stuck (fuel : Nat) :
    upperBoundLoop [1, 3] 2 fuel 0 1 = .error .fuel := by
  induction fuel with
  | zero => rfl
  | succ fuel ih =>
    unfold upperBoundLoop
    simpa using ih

theorem getElem?_swapAt_of_ne {α : Type} (l : List α) (i j k : Nat)
    (hki : k ≠ i) (hkj : k ≠ j) : (swapAt l i j)[k]? = l[k]? := by
  by_cases hi : i < l.length
  swap
  · rw [swapAt_of_ge_left l i j (Nat.le_of_not_lt hi)]
  by_cases hj : j < l.length
  swap
  · rw [swapAt_of_ge_right l i j (Nat.le_of_not_lt hj)]
  rw [getElem?_swapAt l i j k hi hj, if_neg hkj, if_neg hki]

theorem getElem?_swapAt_left {α : Type} (l : List α) (i j : Nat)
    (hi : i < l.length) (hj : j < l.length) : (swapAt l i j)[i]? = l[j]? := by
  rw [getElem?_swapAt l i j i hi hj]
  by_cases hij : i = j
  · subst hij; simp
  · simp [hij]

theorem getElem?_swapAt_right {α : Type} (l : List α) (i j : Nat)
    (hi : i < l.length) (hj : j < l.length) : (swapAt l i j)[j]? = l[i]? := by
  rw [getElem?_swapAt l i j j hi hj, if_pos rfl]

/-- The scanning loop of `partitionLomuto`: with the pivot value at `lastElemPos`, the
slots from `beg` up to the returned `insertPos` hold values `<=` the pivot, those from there
up to `lastElemPos` hold values not `<=` the pivot, and slots outside
`[beg, lastElemPos)` are untouched. -/
theorem partitionLoop_spec {α : Type} (le : α → α → Bool) (lastElemPos : Nat) (pv : α)
    (beg n it insertPos : Nat) (l : List α)
    (hlast : lastElemPos < l.length) (hpv : l[lastElemPos]? = some pv)
    (hip : beg ≤ insertPos) (hipit : insertPos ≤ it) (hit : it + n = lastElemPos)
    (hA : ∀ k x, beg ≤ k → k < insertPos → l[k]? = some x → le x pv = true)
    (hB : ∀ k x, insertPos ≤ k → k < it → l[k]? = some x → le x pv = false) :
    beg ≤ (partitionLoop le lastElemPos n it insertPos l).2 ∧
    (partitionLoop le lastElemPos n it insertPos l).2 ≤ lastElemPos ∧
    (∀ k x, beg ≤ k → k < (partitionLoop le lastElemPos n it insertPos l).2 →
      (partitionLoop le lastElemPos n it insertPos l).1[k]? = some x → le x pv = true) ∧
    (∀ k x, (partitionLoop le lastElemPos n it insertPos l).2 ≤ k → k < lastElemPos →
      (partitionLoop le lastElemPos n it insertPos l).1[k]? = some x → le x pv = false) ∧
    (∀ k, k < beg ∨ lastElemPos ≤ k →
      (partitionLoop le lastElemPos n it insertPos l).1[k]? = l[k]?) := by
  induction n generalizing it insertPos l with
  | zero =>
    have : it = lastElemPos := by omega
    subst this
    exact ⟨hip, hipit, hA, hB, fun _ _ => rfl⟩
  | succ n ih =>
    have hitl : it < l.length := by omega
    have hipl : insertPos < l.length := by omega
    unfold partitionLoop
    rw [List.getElem?_eq_getElem hitl, hpv]
    simp only []
    by_cases hle : le l[it] pv = true
    · rw [if_pos hle]
      have hl₁ : (if (it != insertPos) = true then swapAt l it insertPos else l)
          = swapAt l it insertPos := by
        split
        · rfl
        · rename_i hne
          have : it = insertPos := by simpa using hne
          rw [this, swapAt_self]
      rw [hl₁]
      have hres := ih (it + 1) (insertPos + 1) (swapAt l it insertPos)
        (by rw [length_swapAt]; exact hlast)
        (by rw [getElem?_swapAt_of_ne _ _ _ _ (by omega) (by omega)]; exact hpv)
        (by omega) (by omega) (by omega)
        (by
          intro k x hk1 hk2 hx
          by_cases hki : k = insertPos
          · subst hki
            rw [getElem?_swapAt_right _ _ _ hitl hipl, List.getElem?_eq_getElem hitl] at hx
            cases hx
            exact hle
          · rw [getElem?_swapAt_of_ne _ _ _ _ (by omega) hki] at hx
            exact hA k x hk1 (by omega) hx)
        (by
          intro k x hk1 hk2 hx
          by_cases hki : k = it
          · subst hki
            rw [getElem?_swapAt_left _ _ _ hitl hipl] at hx
            exact hB insertPos x (Nat.le_refl _) (by omega) hx
          · rw [getElem?_swapAt_of_ne _ _ _ _ hki (by omega)] at hx
            exact hB k x (by omega) (by omega) hx)
      obtain ⟨h1, h2, h3, h4, h5⟩ := hres
      refine ⟨by omega, h2, fun k x hk1 hk2 hx => h3 k x hk1 hk2 hx, h4, ?_⟩
      intro k hk
      rw [h5 k hk, getElem?_swapAt_of_ne _ _ _ _ (by omega) (by omega)]
    · rw [if_neg hle]
      have hres := ih (it + 1) insertPos l hlast hpv hip (by omega) (by omega) hA
        (by
          intro k x hk1 hk2 hx
          by_cases hki : k = it
          · subst hki
            rw [List.getElem?_eq_getElem hitl] at hx
            cases hx
            simpa using hle
          · exact hB k x hk1 (by omega) hx)
      exact hres

/-- Postcondition of `partitionLomuto(beg, end, pivotPos)` on a non-empty range with the
pivot inside it, for any element type and its `operator <=`. -/
theorem partitionLomutoAt_spec {α : Type} (le : α → α → Bool) (l : List α)
    (beg endPos pivotPos : Nat) (pv : α) (hbe : beg < endPos) (hend : endPos ≤ l.length)
    (hpb : beg ≤ pivotPos) (hpe : pivotPos < endPos) (hpv : l[pivotPos]? = some pv) :
    beg ≤ (partitionLomutoAt le l beg endPos pivotPos).2 ∧
    (partitionLomutoAt le l beg endPos pivotPos).2 < endPos ∧
    (partitionLomutoAt le l beg endPos pivotPos).1[(partitionLomutoAt le l beg endPos pivotPos).2]?
      = some pv ∧
    (∀ k x, beg ≤ k → k < (partitionLomutoAt le l beg endPos pivotPos).2 →
      (partitionLomutoAt le l beg endPos pivotPos).1[k]? = some x → le x pv = true) ∧
    (∀ k x, (partitionLomutoAt le l beg endPos pivotPos).2 < k → k < endPos →
      (partitionLomutoAt le l beg endPos pivotPos).1[k]? = some x → le x pv = false) ∧
    (∀ k, k < beg ∨ endPos ≤ k →
      (partitionLomutoAt le l beg endPos pivotPos).1[k]? = l[k]?) := by
  unfold partitionLomutoAt
  rw [if_pos hbe]
  simp only []
  by_cases hlt : beg < endPos - 1
  swap
  · rw [if_neg hlt]
    have hp : pivotPos = beg := by omega
    subst hp
    exact ⟨Nat.le_refl _, hbe, hpv, fun k x h1 h2 => by omega, fun k x h1 h2 => by omega,
      fun _ _ => rfl⟩
  rw [if_pos hlt]
  have hpl : pivotPos < l.length := by omega
  have hll : endPos - 1 < l.length := by omega
  have hl₁ : (if (pivotPos != endPos - 1) = true then swapAt l pivotPos (endPos - 1) else l)
      = swapAt l pivotPos (endPos - 1) := by
    split
    · rfl
    · rename_i hne
      have : pivotPos = endPos - 1 := by simpa using hne
      rw [this, swapAt_self]
  rw [hl₁]
  have hpv₁ : (swapAt l pivotPos (endPos - 1))[endPos - 1]? = some pv := by
    rw [getElem?_swapAt_right _ _ _ hpl hll]; exact hpv
  obtain ⟨h1, h2, h3, h4, h5⟩ := partitionLoop_spec le (endPos - 1) pv beg (endPos - 1 - beg)
    beg beg (swapAt l pivotPos (endPos - 1)) (by rw [length_swapAt]; exact hll) hpv₁
    (Nat.le_refl _) (Nat.le_refl _) (by omega) (fun k x hk1 hk2 => by omega)
    (fun k x hk1 hk2 => by omega)
  have hlen := partitionLoop_length le (endPos - 1) (endPos - 1 - beg) beg beg
    (swapAt l pivotPos (endPos - 1))
  generalize partitionLoop le (endPos - 1) (endPos - 1 - beg) beg beg
    (swapAt l pivotPos (endPos - 1)) = res at h1 h2 h3 h4 h5 hlen
  obtain ⟨l₂, ip⟩ := res
  simp only [length_swapAt] at h1 h2 h3 h4 h5 hlen ⊢
  have hl₃ : (if (ip != endPos - 1) = true then swapAt l₂ (endPos - 1) ip else l₂)
      = swapAt l₂ (endPos - 1) ip := by
    split
    · rfl
    · rename_i hne
      have : ip = endPos - 1 := by simpa using hne
      rw [this, swapAt_self]
  rw [hl₃]
  have hll₂ : endPos - 1 < l₂.length := by omega
  have hipl₂ : ip < l₂.length := by omega
  have hpv₂ : l₂[endPos - 1]? = some pv := by
    rw [h5 (endPos - 1) (Or.inr (Nat.le_refl _))]; exact hpv₁
  refine ⟨h1, by omega, ?_, ?_, ?_, ?_⟩
  · rw [getElem?_swapAt_right _ _ _ hll₂ hipl₂]; exact hpv₂
  · intro k x hk1 hk2 hx
    rw [getElem?_swapAt_of_ne _ _ _ _ (by omega) (by omega)] at hx
    exact h3 k x hk1 hk2 hx
  · intro k x hk1 hk2 hx
    by_cases hkl : k = endPos - 1
    · subst hkl
      rw [getElem?_swapAt_left _ _ _ hll₂ hipl₂] at hx
      exact h4 ip x (Nat.le_refl _) (by omega) hx
    · rw [getElem?_swapAt_of_ne _ _ _ _ hkl (by omega)] at hx
      exact h4 k x (by omega) (by omega) hx
  · intro k hk
    rw [getElem?_swapAt_of_ne _ _ _ _ (by omega) (by omega), h5 k (by omega),
      getElem?_swapAt_of_ne _ _ _ _ (by omega) (by omega)]

theorem getElem?_slice {α : Type} (l : List α) (beg endPos k : Nat) :
    (slice l beg endPos)[k]? = if k < endPos - beg then l[beg + k]? else none := by
  unfold slice
  rw [List.getElem?_take]
  split
  · rw [List.getElem?_drop]
  · rfl

theorem length_slice {α : Type} (l : List α) (beg endPos : Nat) (h : endPos ≤ l.length) :
    (slice l beg endPos).length = endPos - beg := by
  unfold slice
  rw [List.length_take, List.length_drop]
  omega

theorem mem_slice {α : Type} (l : List α) (beg endPos : Nat) (x : α) :
    x ∈ slice l beg endPos ↔ ∃ k, beg ≤ k ∧ k < endPos ∧ l[k]? = some x := by
  rw [List.mem_iff_getElem?]
  constructor
  · rintro ⟨n, hn⟩
    rw [getElem?_slice] at hn
    split at hn
    · exact ⟨beg + n, by omega, by omega, hn⟩
    · cases hn
  · rintro ⟨k, hk1, hk2, hx⟩
    refine ⟨k - beg, ?_⟩
    rw [getElem?_slice, if_pos (by omega), show beg + (k - beg) = k by omega]
    exact hx

theorem slice_congr {α : Type} (l l' : List α) (beg endPos : Nat)
    (h : ∀ k, beg ≤ k → k < endPos → l'[k]? = l[k]?) :
    slice l' beg endPos = slice l beg endPos := by
  apply List.ext_getElem?
  intro k
  rw [getElem?_slice, getElem?_slice]
  split
  · exact h _ (by omega) (by omega)
  · rfl

theorem slice_append {α : Type} (l : List α) (beg mid endPos : Nat)
    (h1 : beg ≤ mid) (h2 : mid ≤ endPos) :
    slice l beg endPos = slice l beg mid ++ slice l mid endPos := by
  unfold slice
  rw [show endPos - beg = (mid - beg) + (endPos - mid) by omega, List.take_add,
    List.drop_drop, show beg + (mid - beg) = mid by omega]

theorem slice_cons {α : Type} (l : List α) (p endPos : Nat) (x : α)
    (hx : l[p]? = some x) (hp : p < endPos) :
    slice l p endPos = x :: slice l (p + 1) endPos := by
  apply List.ext_getElem?
  intro k
  rw [getElem?_slice]
  cases k with
  | zero =>
    rw [if_pos (by omega)]
    simpa using hx
  | succ k =>
    rw [List.getElem?_cons_succ, getElem?_slice]
    by_cases hk : k + 1 < endPos - p
    · rw [if_pos hk, if_pos (by omega), show p + (k + 1) = p + 1 + k by omega]
    · rw [if_neg hk, if_neg (by omega)]

theorem slice_zero_length {α : Type} (l : List α) : slice l 0 l.length = l := by
  simp [slice]

theorem eq_take_slice_drop {α : Type} (l : List α) (beg endPos : Nat) (h : beg ≤ endPos) :
    l = l.take beg ++ (slice l beg endPos ++ l.drop endPos) := by
  have h1 : slice l beg endPos ++ l.drop endPos = l.drop beg := by
    unfold slice
    have : l.drop endPos = (l.drop beg).drop (endPos - beg) := by
      rw [List.drop_drop, show beg + (endPos - beg) = endPos by omega]
    rw [this, List.take_append_drop]
  rw [h1, List.take_append_drop]

/-- A permutation of a vector that leaves every slot outside `[beg, end)` as it was
permutes the range `[beg, end)`. -/
theorem slice_perm_of_frame {α : Type} (l l' : List α) (beg endPos : Nat)
    (hbe : beg ≤ endPos) (hperm : l'.Perm l)
    (hframe : ∀ k, k < beg ∨ endPos ≤ k → l'[k]? = l[k]?) :
    (slice l' beg endPos).Perm (slice l beg endPos) := by
  have htake : l'.take beg = l.take beg := by
    apply List.ext_getElem?
    intro k
    rw [List.getElem?_take, List.getElem?_take]
    split
    · exact hframe k (Or.inl (by assumption))
    · rfl
  have hdrop : l'.drop endPos = l.drop endPos := by
    apply List.ext_getElem?
    intro k
    rw [List.getElem?_drop, List.getElem?_drop]
    exact hframe _ (Or.inr (by omega))
  have e1 := eq_take_slice_drop l beg endPos hbe
  have e2 := eq_take_slice_drop l' beg endPos hbe
  rw [htake, hdrop] at e2
  have hp : (l.take beg ++ (slice l' beg endPos ++ l.drop endPos)).Perm
      (l.take beg ++ (slice l beg endPos ++ l.drop endPos)) := by
    rw [← e1, ← e2]; exact hperm
  exact (List.perm_append_right_iff _).1 ((List.perm_append_left_iff _).1 hp)

theorem intAt_of_getElem? {l : List Int} {k : Nat} {x : Int} (h : l[k]? = some x) :
    intAt l k = x := by
  simp [intAt, h]

theorem getElem?_eq_some_intAt {l : List Int} {k : Nat} (h : k < l.length) :
    l[k]? = some (intAt l k) := by
  simp [intAt, List.getElem?_eq_getElem h]

theorem nonDecreasing_of_sorted {l : List Int} (h : List.Sorted (· ≤ ·) l) : nonDecreasing l := by
  intro i hi
  have h' := List.pairwise_iff_getElem.1 h i (i + 1) (by omega) hi (by omega)
  rw [List.getD_eq_getElem _ _ (by omega : i < l.length), List.getD_eq_getElem _ _ hi]
  exact h'

theorem partitionLomuto_eq_at {α : Type} (le : α → α → Bool) (l : List α) (beg endPos : Nat)
    (h : beg < endPos) :
    partitionLomuto le l beg endPos = partitionLomutoAt le l beg endPos (endPos - 1) := by
  unfold partitionLomuto
  rw [if_pos h]

theorem partitionLomuto_of_not_lt {α : Type} (le : α → α → Bool) (l : List α)
    (beg endPos : Nat) (h : ¬ beg < endPos) :
    partitionLomuto le l beg endPos = (l, endPos) := by
  unfold partitionLomuto
  rw [if_neg h]

/-- On a vector of `int`, `quickSortInPlace(beg, end)` returns when the bound of the model
exceeds the length of the range; the result is a permutation of the vector that differs
from it only inside `[beg, end)`, and the range is sorted. -/
theorem quickSortRange_sorted (fuel : Nat) (l : List Int) (beg endPos : Nat)
    (hfuel : endPos - beg < fuel) (hend : endPos ≤ l.length) :
    ∃ l', quickSortRange (fun a b => decide (a ≤ b)) fuel l beg endPos = .ok l' ∧
      l'.Perm l ∧ (∀ k, k < beg ∨ endPos ≤ k → l'[k]? = l[k]?) ∧
      List.Sorted (· ≤ ·) (slice l' beg endPos) := by
  induction fuel generalizing l beg endPos with
  | zero => omega
  | succ fuel ih =>
    unfold quickSortRange
    by_cases hlt : beg < endPos
    swap
    · rw [partitionLomuto_of_not_lt _ _ _ _ hlt]
      simp only [bne_self_eq_false, Bool.false_eq_true, if_false]
      refine ⟨l, rfl, List.Perm.refl _, fun _ _ => rfl, ?_⟩
      have : slice l beg endPos = [] := by
        unfold slice
        rw [show endPos - beg = 0 by omega, List.take_zero]
      rw [this]
      exact List.sorted_nil
    rw [partitionLomuto_eq_at _ _ _ _ hlt]
    have hpv : l[endPos - 1]? = some (intAt l (endPos - 1)) :=
      getElem?_eq_some_intAt (by omega)
    obtain ⟨h1, h2, h3, h4, h5, h6⟩ := partitionLomutoAt_spec (fun a b => decide (a ≤ b)) l
      beg endPos (endPos - 1) (intAt l (endPos - 1)) hlt hend (by omega) (by omega) hpv
    have hperm := partitionLomutoAt_perm (fun a b : Int => decide (a ≤ b)) l beg endPos
      (endPos - 1)
    generalize partitionLomutoAt (fun a b : Int => decide (a ≤ b)) l beg endPos (endPos - 1)
      = res at h1 h2 h3 h4 h5 h6 hperm
    obtain ⟨l₁, p⟩ := res
    generalize intAt l (endPos - 1) = pv at h3 h4 h5
    simp only [] at h1 h2 h3 h4 h5 h6 hperm ⊢
    have hne : (p != endPos) = true := by simpa using Nat.ne_of_lt h2
    rw [if_pos hne]
    have hlen₁ : l₁.length = l.length := hperm.length_eq
    obtain ⟨l₂, hrun₂, hperm₂, hframe₂, hsorted₂⟩ := ih l₁ beg p (by omega) (by omega)
    have hlen₂ : l₂.length = l.length := by rw [hperm₂.length_eq, hlen₁]
    obtain ⟨l₃, hrun₃, hperm₃, hframe₃, hsorted₃⟩ := ih l₂ (p + 1) endPos (by omega) (by omega)
    refine ⟨l₃, ?_, hperm₃.trans (hperm₂.trans hperm), ?_, ?_⟩
    · simp only [hrun₂, bind, Except.bind]
      exact hrun₃
    · intro k hk
      rw [hframe₃ k (by omega), hframe₂ k (by omega), h6 k hk]
    · have hp₃ : l₃[p]? = some pv := by
        rw [hframe₃ p (Or.inl (by omega)), hframe₂ p (Or.inr (Nat.le_refl _))]
        exact h3
      have hleft : slice l₃ beg p = slice l₂ beg p :=
        slice_congr l₂ l₃ beg p fun k _ hk => hframe₃ k (Or.inl (by omega))
      have hleftmem : ∀ x ∈ slice l₃ beg p, x ≤ pv := by
        intro x hx
        rw [hleft] at hx
        have hx₁ : x ∈ slice l₁ beg p :=
          (slice_perm_of_frame l₁ l₂ beg p h1 hperm₂ hframe₂).mem_iff.1 hx
        obtain ⟨k, hk1, hk2, hk⟩ := (mem_slice l₁ beg p x).1 hx₁
        simpa using h4 k x hk1 hk2 hk
      have hrightmem : ∀ y ∈ slice l₃ (p + 1) endPos, pv ≤ y := by
        intro y hy
        have hy₂ : y ∈ slice l₂ (p + 1) endPos :=
          (slice_perm_of_frame l₂ l₃ (p + 1) endPos (by omega) hperm₃ hframe₃).mem_iff.1 hy
        rw [slice_congr l₁ l₂ (p + 1) endPos fun k hk _ => hframe₂ k (Or.inr (by omega))] at hy₂
        obtain ⟨k, hk1, hk2, hk⟩ := (mem_slice l₁ (p + 1) endPos y).1 hy₂
        have := h5 k y (by omega) hk2 hk
        have : ¬ y ≤ pv := by simpa using this
        omega
      rw [slice_append l₃ beg p endPos h1 (by omega), slice_cons l₃ p endPos pv hp₃ h2]
      unfold List.Sorted
      rw [List.pairwise_append, List.pairwise_cons]
      rw [hleft]
      refine ⟨hsorted₂, ⟨hrightmem, hsorted₃⟩, ?_⟩
      intro a ha b hb
      rw [← hleft] at ha
      have ha' := hleftmem a ha
      rcases List.mem_cons.1 hb with rfl | hb'
      · exact ha'
      · exact Int.le_trans ha' (hrightmem b hb')

/-- After a permutation that touches only `[beg, end)`, every value found in the range was
in the range before. -/
theorem intAt_transfer (l l₁ : List Int) (beg endPos : Nat) (hend : endPos ≤ l.length)
    (hperm : l₁.Perm l) (hframe : ∀ k, k < beg ∨ endPos ≤ k → l₁[k]? = l[k]?)
    (i : Nat) (hi1 : beg ≤ i) (hi2 : i < endPos) :
    ∃ j, beg ≤ j ∧ j < endPos ∧ intAt l₁ i = intAt l j := by
  have hlen : l₁.length = l.length := hperm.length_eq
  have hmem : intAt l₁ i ∈ slice l₁ beg endPos :=
    (mem_slice l₁ beg endPos _).2 ⟨i, hi1, hi2, getElem?_eq_some_intAt (by omega)⟩
  have hmem' := (slice_perm_of_frame l l₁ beg endPos (by omega) hperm hframe).mem_iff.1 hmem
  obtain ⟨j, hj1, hj2, hj⟩ := (mem_slice l beg endPos _).1 hmem'
  exact ⟨j, hj1, hj2, (intAt_of_getElem? hj).symm⟩

theorem intAt_frame (l l₁ : List Int) (k : Nat) (h : l₁[k]? = l[k]?) :
    intAt l₁ k = intAt l k := by
  simp [intAt, h]

/-- The loop of `findNthSmallestElem` on a range `[B, E)` with target position `t`: while
the target lies in `[beg, end)`, everything of the range before `beg` is `<=` everything
from `beg` on, and everything before `end` is `<=` everything from `end` on, the loop
returns with `foundPos = t`, the range permuted, nothing before `t` greater and nothing
after `t` smaller than the element at `t`. -/
theorem findNthLoop_spec (B E t : Nat) (S₀ : List Int) (fuel : Nat) (l : List Int)
    (beg endPos foundPos : Nat) (hfound : foundPos ≠ t) (hfuel : endPos - beg < fuel)
    (hB : B ≤ beg) (hbt : beg ≤ t) (hte : t < endPos) (hE : endPos ≤ E) (hlen : E ≤ l.length)
    (hperm : (slice l B E).Perm S₀)
    (h3 : ∀ i j, B ≤ i → i < beg → beg ≤ j → j < E → intAt l i ≤ intAt l j)
    (h4 : ∀ i j, B ≤ i → i < endPos → endPos ≤ j → j < E → intAt l i ≤ intAt l j) :
    ∃ l', findNthLoop t fuel l beg endPos foundPos = .ok (l', t) ∧ E ≤ l'.length ∧
      (slice l' B E).Perm S₀ ∧
      (∀ i, B ≤ i → i < t → intAt l' i ≤ intAt l' t) ∧
      (∀ j, t < j → j < E → intAt l' t ≤ intAt l' j) := by
  induction fuel generalizing l beg endPos foundPos with
  | zero => omega
  | succ fuel ih =>
    unfold findNthLoop
    rw [if_pos hfound, if_pos (by omega)]
    have hlt : beg < endPos := by omega
    rw [partitionLomuto_eq_at _ _ _ _ hlt]
    have hpv : l[endPos - 1]? = some (intAt l (endPos - 1)) :=
      getElem?_eq_some_intAt (by omega)
    obtain ⟨p1, p2, p3, p4, p5, p6⟩ := partitionLomutoAt_spec (fun a b => decide (a ≤ b)) l
      beg endPos (endPos - 1) (intAt l (endPos - 1)) hlt (by omega) (by omega) (by omega) hpv
    have hperm₁ := partitionLomutoAt_perm (fun a b : Int => decide (a ≤ b)) l beg endPos
      (endPos - 1)
    generalize partitionLomutoAt (fun a b : Int => decide (a ≤ b)) l beg endPos (endPos - 1)
      = res at p1 p2 p3 p4 p5 p6 hperm₁
    obtain ⟨l₁, p⟩ := res
    generalize intAt l (endPos - 1) = pv at p3 p4 p5
    simp only [] at p1 p2 p3 p4 p5 p6 hperm₁ ⊢
    have hlen₁ : l₁.length = l.length := hperm₁.length_eq
    have hpvAt : intAt l₁ p = pv := intAt_of_getElem? p3
    have k3 : ∀ i, beg ≤ i → i < p → intAt l₁ i ≤ pv := by
      intro i hi1 hi2
      simpa using p4 i _ hi1 hi2 (getElem?_eq_some_intAt (by omega))
    have k4 : ∀ j, p < j → j < endPos → pv < intAt l₁ j := by
      intro j hj1 hj2
      have := p5 j _ hj1 hj2 (getElem?_eq_some_intAt (by omega))
      have : ¬ intAt l₁ j ≤ pv := by simpa using this
      omega
    have hsame : ∀ k, k < beg ∨ endPos ≤ k → intAt l₁ k = intAt l k :=
      fun k hk => intAt_frame l l₁ k (p6 k hk)
    have htr := intAt_transfer l l₁ beg endPos (by omega) hperm₁ p6
    have hperm' : (slice l₁ B E).Perm S₀ :=
      (slice_perm_of_frame l l₁ B E (by omega) hperm₁ (fun k hk => p6 k (by omega))).trans hperm
    have k1 : ∀ i j, B ≤ i → i < beg → beg ≤ j → j < E → intAt l₁ i ≤ intAt l₁ j := by
      intro i j hi1 hi2 hj1 hj2
      rw [hsame i (Or.inl hi2)]
      by_cases hje : j < endPos
      · obtain ⟨j', hj'1, hj'2, hj'⟩ := htr j hj1 hje
        rw [hj']
        exact h3 i j' hi1 hi2 hj'1 (by omega)
      · rw [hsame j (Or.inr (by omega))]
        exact h3 i j hi1 hi2 hj1 hj2
    have k2 : ∀ i j, B ≤ i → i < endPos → endPos ≤ j → j < E → intAt l₁ i ≤ intAt l₁ j := by
      intro i j hi1 hi2 hj1 hj2
      rw [hsame j (Or.inr hj1)]
      by_cases hib : i < beg
      · rw [hsame i (Or.inl hib)]
        exact h4 i j hi1 hi2 hj1 hj2
      · obtain ⟨i', hi'1, hi'2, hi'⟩ := htr i (by omega) hi2
        rw [hi']
        exact h4 i' j (by omega) hi'2 hj1 hj2
    by_cases hgt : p > t
    · rw [if_pos hgt]
      apply ih l₁ beg p p (by omega) (by omega) hB hbt hgt (by omega) (by omega) hperm' k1
      intro i j hi1 hi2 hj1 hj2
      by_cases hib : i < beg
      · exact k1 i j hi1 hib (by omega) hj2
      · by_cases hje : j < endPos
        · have hi := k3 i (by omega) hi2
          by_cases hjp : j = p
          · rw [hjp, hpvAt]; exact hi
          · have := k4 j (by omega) hje
            omega
        · exact k2 i j hi1 (by omega) (by omega) hj2
    · rw [if_neg hgt]
      by_cases hlt' : p < t
      · rw [if_pos hlt']
        apply ih l₁ (p + 1) endPos p (by omega) (by omega) (by omega) (by omega) hte hE
          (by omega) hperm' _ k2
        intro i j hi1 hi2 hj1 hj2
        by_cases hib : i < beg
        · exact k1 i j hi1 hib (by omega) hj2
        · have hi : intAt l₁ i ≤ pv := by
            by_cases hip : i = p
            · rw [hip, hpvAt]
            · exact k3 i (by omega) (by omega)
          by_cases hje : j < endPos
          · have := k4 j (by omega) hje
            omega
          · exact k2 i j hi1 (by omega) (by omega) hj2
      · rw [if_neg hlt']
        have hpt : p = t := by omega
        subst hpt
        obtain ⟨f, hf⟩ : ∃ f, fuel = f + 1 := ⟨fuel - 1, by omega⟩
        subst hf
        refine ⟨l₁, ?_, by omega, hperm', ?_, ?_⟩
        · unfold findNthLoop
          rw [if_neg (by simp)]
        · intro i hi1 hi2
          rw [hpvAt]
          by_cases hib : i < beg
          · have := k1 i p hi1 hib (by omega) (by omega)
            rw [hpvAt] at this
            exact this
          · exact k3 i (by omega) hi2
        · intro j hj1 hj2
          rw [hpvAt]
          by_cases hje : j < endPos
          · have := k4 j hj1 hje
            omega
          · have := k2 p j (by omega) p2 (by omega) hj2
            rw [hpvAt] at this
            exact this

/-- In a list that is a permutation of `S₀`, an element that has nothing greater before it
and nothing smaller after it is the element of the sorted `S₀` at the same index. -/
theorem intAt_insertionSort_of_split (S S₀ : List Int) (t : Nat) (ht : t < S.length)
    (hperm : S.Perm S₀)
    (hleft : ∀ i, i < t → intAt S i ≤ intAt S t)
    (hright : ∀ j, t < j → j < S.length → intAt S t ≤ intAt S j) :
    intAt (S₀.insertionSort (· ≤ ·)) t = intAt S t := by
  have hsplit : S = slice S 0 t ++ intAt S t :: slice S (t + 1) S.length := by
    rw [← slice_cons S t S.length (intAt S t) (getElem?_eq_some_intAt ht) ht,
      ← slice_append S 0 t S.length (Nat.zero_le _) (by omega), slice_zero_length]
  have hA : ∀ x ∈ slice S 0 t, x ≤ intAt S t := by
    intro x hx
    obtain ⟨k, -, hk2, hk⟩ := (mem_slice S 0 t x).1 hx
    rw [← intAt_of_getElem? hk]
    exact hleft k hk2
  have hBm : ∀ y ∈ slice S (t + 1) S.length, intAt S t ≤ y := by
    intro y hy
    obtain ⟨k, hk1, hk2, hk⟩ := (mem_slice S (t + 1) S.length y).1 hy
    rw [← intAt_of_getElem? hk]
    exact hright k (by omega) hk2
  generalize hAdef : slice S 0 t = A at hsplit hA
  generalize hBdef : slice S (t + 1) S.length = Bl at hsplit hBm
  generalize intAt S t = pv at hsplit hA hBm ⊢
  have hAlen : A.length = t := by
    rw [← hAdef, length_slice S 0 t (by omega)]
    omega
  have hsorted : List.Sorted (· ≤ ·)
      (A.insertionSort (· ≤ ·) ++ pv :: Bl.insertionSort (· ≤ ·)) := by
    unfold List.Sorted
    rw [List.pairwise_append, List.pairwise_cons]
    refine ⟨List.sorted_insertionSort _ _, ⟨?_, List.sorted_insertionSort _ _⟩, ?_⟩
    · intro y hy
      exact hBm y ((List.perm_insertionSort _ _).mem_iff.1 hy)
    · intro a ha b hb
      have ha' := hA a ((List.perm_insertionSort _ _).mem_iff.1 ha)
      rcases List.mem_cons.1 hb with rfl | hb'
      · exact ha'
      · exact Int.le_trans ha' (hBm b ((List.perm_insertionSort _ _).mem_iff.1 hb'))
  have hp : (S₀.insertionSort (· ≤ ·)).Perm
      (A.insertionSort (· ≤ ·) ++ pv :: Bl.insertionSort (· ≤ ·)) := by
    refine (List.perm_insertionSort _ _).trans (hperm.symm.trans ?_)
    rw [hsplit]
    exact ((List.perm_insertionSort _ A).symm).append
      (((List.perm_insertionSort _ Bl).symm).cons pv)
  have heq := List.eq_of_perm_of_sorted hp (List.sorted_insertionSort _ _) hsorted
  rw [heq]
  unfold intAt
  rw [List.getD_eq_getElem?_getD,
    List.getElem?_append_right (by rw [List.length_insertionSort]; omega),
    List.length_insertionSort, hAlen]
  simp

theorem intAt_slice (l : List Int) (beg endPos k : Nat) (hk : k < endPos - beg) :
    intAt (slice l beg endPos) k = intAt l (beg + k) := by
  unfold intAt
  rw [List.getD_eq_getElem?_getD, List.getD_eq_getElem?_getD, getElem?_slice, if_pos hk]

theorem lex_cons_iff {α : Type} [LinearOrder α] (x y : α) (a b : List α) :
    x :: a < y :: b ↔ x < y ∨ (x = y ∧ a < b) := by
  constructor
  · intro h
    cases h with
    | cons h' => exact Or.inr ⟨rfl, h'⟩
    | rel h' => exact Or.inl h'
  · rintro (h | ⟨rfl, h⟩)
    · exact List.Lex.rel h
    · exact List.Lex.cons h

/-- Lexicographic order on vectors of equal length: the first differing slot decides. -/
theorem lex_lt_iff_exists {α : Type} [LinearOrder α] (d : α) (a b : List α)
    (h : a.length = b.length) :
    a < b ↔ ∃ k, k < a.length ∧ (∀ i, i < k → a.getD i d = b.getD i d) ∧
      a.getD k d < b.getD k d := by
  induction a generalizing b with
  | nil =>
    cases b with
    | nil =>
      constructor
      · intro h'; exact absurd h' (lt_irrefl _)
      · rintro ⟨k, hk, -⟩; simp at hk
    | cons y b => simp at h
  | cons x a ih =>
    cases b with
    | nil => simp at h
    | cons y b =>
      have hlen : a.length = b.length := by simpa using h
      rw [lex_cons_iff, ih b hlen]
      constructor
      · rintro (hxy | ⟨rfl, k, hk, hpre, hlt⟩)
        · exact ⟨0, by simp, fun i hi => by omega, by simpa using hxy⟩
        · refine ⟨k + 1, by simpa using hk, ?_, by simpa using hlt⟩
          intro i hi
          cases i with
          | zero => simp
          | succ i => simpa using hpre i (by omega)
      · rintro ⟨k, hk, hpre, hlt⟩
        cases k with
        | zero => left; simpa using hlt
        | succ k =>
          right
          refine ⟨by simpa using hpre 0 (by omega), k, by simpa using hk, ?_, by simpa using hlt⟩
          intro i hi
          simpa using hpre (i + 1) (by omega)

theorem strictlyIncreasing_add_le {c : List Nat} (h : strictlyIncreasing c) {i j : Nat}
    (hij : i ≤ j) (hj : j < c.length) : idxAt c i + (j - i) ≤ idxAt c j := by
  induction j with
  | zero =>
    have : i = 0 := by omega
    subst this
    simp
  | succ j ih =>
    by_cases hi : i = j + 1
    · subst hi; simp
    · have h1 := ih (by omega) (by omega)
      have h2 := h j hj
      omega

theorem idxAt_mem {c : List Nat} {i : Nat} (hi : i < c.length) : idxAt c i ∈ c := by
  unfold idxAt
  rw [List.getD_eq_getElem _ _ hi]
  exact List.getElem_mem hi

theorem idxAt_set (c : List Nat) (i k v : Nat) (hi : i < c.length) :
    idxAt (c.set i v) k = if k = i then v else idxAt c k := by
  unfold idxAt
  rw [List.getD_eq_getElem?_getD, List.getD_eq_getElem?_getD, List.getElem?_set]
  by_cases hk : k = i
  · subst hk; simp [hi]
  · rw [if_neg (Ne.symm hk), if_neg hk]

theorem findIncrementIdx_none (maxVal r : Nat) (c : List Nat) (i : Nat)
    (h : findIncrementIdx maxVal r c i = none) :
    ∀ k, k ≤ i → idxAt c k = maxVal - r + k := by
  induction i with
  | zero =>
    intro k hk
    have : k = 0 := by omega
    subst this
    unfold findIncrementIdx at h
    split at h
    · assumption
    · cases h
  | succ i ih =>
    unfold findIncrementIdx at h
    split at h
    · rename_i heq
      intro k hk
      by_cases hki : k = i + 1
      · subst hki; exact heq
      · exact ih h k (by omega)
    · cases h

theorem findIncrementIdx_some (maxVal r : Nat) (c : List Nat) (i j : Nat)
    (h : findIncrementIdx maxVal r c i = some j) :
    j ≤ i ∧ idxAt c j ≠ maxVal - r + j ∧ ∀ k, j < k → k ≤ i → idxAt c k = maxVal - r + k := by
  induction i with
  | zero =>
    unfold findIncrementIdx at h
    split at h
    · cases h
    · cases h
      rename_i hne
      exact ⟨Nat.le_refl _, hne, fun k hk1 hk2 => by omega⟩
  | succ i ih =>
    unfold findIncrementIdx at h
    split at h
    · rename_i heq
      obtain ⟨h1, h2, h3⟩ := ih h
      refine ⟨by omega, h2, fun k hk1 hk2 => ?_⟩
      by_cases hki : k = i + 1
      · subst hki; exact heq
      · exact h3 k hk1 (by omega)
    · cases h
      rename_i hne
      exact ⟨Nat.le_refl _, hne, fun k hk1 hk2 => by omega⟩

/-- The filling loop of `nextLexicographicRCombination`: slots below `j` are kept, slot
`k` from `j` on receives `rCombination[i] + k - i`. -/
theorem fillLoop_spec (i n j : Nat) (c : List Nat) (hij : i < j) (hlen : j + n ≤ c.length)
    (hsmall : idxAt c i + (j + n) ≤ 2 ^ indexBits + i) :
    (fillLoop i n j c).length = c.length ∧
    ∀ k, idxAt (fillLoop i n j c) k
      = if j ≤ k ∧ k < j + n then idxAt c i + k - i else idxAt c k := by
  induction n generalizing j c with
  | zero =>
    refine ⟨rfl, fun k => ?_⟩
    rw [if_neg (by omega)]
    rfl
  | succ n ih =>
    unfold fillLoop
    have hmod : (idxAt c i + j + 2 ^ indexBits - i) % 2 ^ indexBits = idxAt c i + j - i := by
      rw [show idxAt c i + j + 2 ^ indexBits - i = (idxAt c i + j - i) + 2 ^ indexBits by omega,
        Nat.add_mod_right]
      exact Nat.mod_eq_of_lt (by omega)
    rw [hmod]
    have hjl : j < c.length := by omega
    have hi' : idxAt (c.set j (idxAt c i + j - i)) i = idxAt c i := by
      rw [idxAt_set c j i _ hjl, if_neg (by omega)]
    obtain ⟨h1, h2⟩ := ih (j + 1) (c.set j (idxAt c i + j - i)) (by omega)
      (by rw [List.length_set]; omega) (by rw [hi']; omega)
    refine ⟨by rw [h1, List.length_set], fun k => ?_⟩
    rw [h2 k, hi', idxAt_set c j k _ hjl]
    by_cases hkj : k = j
    · subst hkj
      rw [if_neg (by omega), if_pos rfl, if_pos (by omega)]
    · rw [if_neg hkj]
      by_cases hk : j + 1 ≤ k ∧ k < j + 1 + n
      · rw [if_pos hk, if_pos (by omega)]
      · rw [if_neg hk, if_neg (by omega)]

theorem eq_range'_iff (c : List Nat) (s : Nat) :
    c = List.range' s c.length ↔ ∀ k, k < c.length → idxAt c k = s + k := by
  constructor
  · intro h k hk
    have e := congrArg (fun l => idxAt l k) h
    simp only [] at e
    rw [e]
    unfold idxAt
    rw [List.getD_eq_getElem?_getD, List.getElem?_range' s 1 hk]
    simp
  · intro h
    apply List.ext_getElem?
    intro k
    by_cases hk : k < c.length
    · rw [List.getElem?_range' s 1 hk, List.getElem?_eq_getElem hk]
      have := h k hk
      unfold idxAt at this
      rw [List.getD_eq_getElem _ _ hk] at this
      simp [this]
    · rw [List.getElem?_eq_none (by omega), List.getElem?_eq_none (by simp; omega)]

theorem mem_le_of_idxAt_le {c : List Nat} {m : Nat} (h : ∀ k, k < c.length → idxAt c k ≤ m) :
    ∀ x ∈ c, x ≤ m := by
  intro x hx
  obtain ⟨k, hk, rfl⟩ := List.getElem_of_mem hx
  have := h k hk
  unfold idxAt at this
  rw [List.getD_eq_getElem _ _ hk] at this
  exact this

/-! ## Lemmas on permutations in lexicographic order -/

/-- A non-decreasing list is the lexicographically smallest of its permutations. -/
theorem sorted_le_of_perm {R T : List Int} (hs : List.Sorted (· ≤ ·) R) (hp : T.Perm R) :
    R ≤ T := by
  induction R generalizing T with
  | nil =>
    rw [List.perm_nil.1 hp]
  | cons r R ih =>
    cases T with
    | nil => exact absurd hp.length_eq (by simp)
    | cons t T =>
      have hmem : t ∈ r :: R := hp.mem_iff.1 (List.mem_cons_self _ _)
      have hrt : r ≤ t := by
        rcases List.mem_cons.1 hmem with h | h
        · omega
        · exact List.rel_of_sorted_cons hs t h
      rcases lt_or_eq_of_le hrt with hlt | heq
      · exact le_of_lt ((lex_cons_iff r t R T).2 (Or.inl hlt))
      · subst heq
        exact List.cons_le_cons r (ih hs.of_cons (List.Perm.cons_inv hp))

/-- A non-increasing list is the lexicographically greatest of its permutations. -/
theorem le_sorted_ge_of_perm {S T : List Int} (hs : List.Sorted (· ≥ ·) S) (hp : T.Perm S) :
    T ≤ S := by
  induction S generalizing T with
  | nil =>
    rw [List.perm_nil.1 hp]
  | cons s S ih =>
    cases T with
    | nil => exact absurd hp.length_eq (by simp)
    | cons t T =>
      have hmem : t ∈ s :: S := hp.mem_iff.1 (List.mem_cons_self _ _)
      have hts : t ≤ s := by
        rcases List.mem_cons.1 hmem with h | h
        · omega
        · exact List.rel_of_sorted_cons hs t h
      rcases lt_or_eq_of_le hts with hlt | heq
      · exact le_of_lt ((lex_cons_iff t s T S).2 (Or.inl hlt))
      · subst heq
        exact List.cons_le_cons t (ih hs.of_cons (List.Perm.cons_inv hp))

/-- The successor in lexicographic order among the permutations of `A ++ x :: S`, when
`S` is non-increasing and holds an element greater than `x`: keep `A`, put the least
element `y` of `S` greater than `x` in place of `x`, and follow it by the rest in
non-decreasing order. -/
theorem next_permutation_least (A S R : List Int) (x y : Int)
    (hS : List.Sorted (· ≥ ·) S) (hxy : x < y) (hmin : ∀ z ∈ S, x < z → y ≤ z)
    (hR : List.Sorted (· ≤ ·) R) (hperm : (y :: R).Perm (x :: S)) :
    A ++ x :: S < A ++ y :: R ∧
    ∀ q : List Int, q.Perm (A ++ x :: S) → A ++ x :: S < q → A ++ y :: R ≤ q := by
  constructor
  · exact List.Lex.append_left _ (List.Lex.rel hxy) A
  · induction A with
    | nil =>
      intro q hq hlt
      cases q with
      | nil => exact absurd hq.length_eq (by simp)
      | cons z T =>
        simp only [List.nil_append] at hq hlt ⊢
        rcases (lex_cons_iff x z S T).1 hlt with hxz | ⟨rfl, hST⟩
        · have hzmem : z ∈ x :: S := hq.mem_iff.1 (List.mem_cons_self _ _)
          have hzS : z ∈ S := by
            rcases List.mem_cons.1 hzmem with h | h
            · omega
            · exact h
          have hyz := hmin z hzS hxz
          rcases lt_or_eq_of_le hyz with h | h
          · exact le_of_lt ((lex_cons_iff y z R T).2 (Or.inl h))
          · subst h
            have hTR : T.Perm R := List.Perm.cons_inv (hq.trans hperm.symm)
            exact List.cons_le_cons y (sorted_le_of_perm hR hTR)
        · have hTS : T.Perm S := List.Perm.cons_inv hq
          exact absurd hST (not_lt.2 (le_sorted_ge_of_perm hS hTS))
    | cons a A ih =>
      intro q hq hlt
      cases q with
      | nil => exact absurd hq.length_eq (by simp)
      | cons z T =>
        simp only [List.cons_append] at hq hlt ⊢
        rcases (lex_cons_iff a z _ T).1 hlt with haz | ⟨rfl, hT⟩
        · exact le_of_lt ((lex_cons_iff a z _ T).2 (Or.inl haz))
        · exact List.cons_le_cons a (ih T (List.Perm.cons_inv hq) hT)

theorem reverseLoop_perm (startIdx endIdx n i : Nat) (array : List Int) :
    (reverseLoop startIdx endIdx n i array).Perm array := by
  induction n generalizing i array with
  | zero => exact List.Perm.refl _
  | succ n ih =>
    unfold reverseLoop
    exact (ih _ _).trans (swapAt_perm _ _ _)

theorem reverseArray_perm (array : List Int) (startIdx endIdx : Nat) :
    (reverseArray array startIdx endIdx).Perm array :=
  reverseLoop_perm _ _ _ _ _

/-- The loop of `reverseArray` after the slots `[startIdx, i)` and their mirror images have
been exchanged: `n` more iterations exchange the slots `[i, i + n)` with theirs. -/
theorem reverseLoop_spec (startIdx endIdx : Nat) (a₀ : List Int) (hend : endIdx < a₀.length)
    (hsmall : startIdx + endIdx < 2 ^ indexBits) (n i : Nat) (a : List Int)
    (hi : startIdx ≤ i) (hdone : 2 * (i + n) ≤ startIdx + endIdx + 1)
    (hlen : a.length = a₀.length)
    (hinv : ∀ j, a[j]? = if (startIdx ≤ j ∧ j < i) ∨ (startIdx + endIdx - i < j ∧ j ≤ endIdx)
      then a₀[startIdx + endIdx - j]? else a₀[j]?) :
    (reverseLoop startIdx endIdx n i a).length = a₀.length ∧
    ∀ j, (reverseLoop startIdx endIdx n i a)[j]?
      = if (startIdx ≤ j ∧ j < i + n) ∨ (startIdx + endIdx - (i + n) < j ∧ j ≤ endIdx)
        then a₀[startIdx + endIdx - j]? else a₀[j]? := by
  induction n generalizing i a with
  | zero => exact ⟨hlen, hinv⟩
  | succ n ih =>
    unfold reverseLoop
    have hmod : (endIdx + 2 ^ indexBits - i + startIdx) % 2 ^ indexBits
        = startIdx + endIdx - i := by
      rw [show endIdx + 2 ^ indexBits - i + startIdx
        = (startIdx + endIdx - i) + 2 ^ indexBits by omega, Nat.add_mod_right]
      exact Nat.mod_eq_of_lt (by omega)
    rw [hmod]
    have him : i < startIdx + endIdx - i := by omega
    have hil : i < a.length := by omega
    have hml : startIdx + endIdx - i < a.length := by omega
    have hres := ih (i + 1) (swapAt a i (startIdx + endIdx - i)) (by omega) (by omega)
      (by rw [length_swapAt]; exact hlen)
      (by
        intro j
        rw [getElem?_swapAt a i _ j hil hml]
        by_cases hjm : j = startIdx + endIdx - i
        · rw [if_pos hjm, hinv i, if_neg (by omega), if_pos (by omega), hjm]
          congr 1
          omega
        · rw [if_neg hjm]
          by_cases hji : j = i
          · rw [if_pos hji, hinv _, if_neg (by omega), if_pos (by omega), hji]
          · rw [if_neg hji, hinv j]
            by_cases hc : (startIdx ≤ j ∧ j < i) ∨ (startIdx + endIdx - i < j ∧ j ≤ endIdx)
            · rw [if_pos hc, if_pos (by omega)]
            · rw [if_neg hc, if_neg (by omega)])
    obtain ⟨h1, h2⟩ := hres
    refine ⟨h1, fun j => ?_⟩
    rw [h2 j, show i + 1 + n = i + (n + 1) by omega]

/-- Effect of `reverseArray(array, startIdx, endIdx)` on a range inside the vector: slot
`j` of the range receives the element of slot `startIdx + endIdx - j`, other slots are
kept. -/
theorem reverseArray_spec (array : List Int) (startIdx endIdx : Nat) (hse : startIdx ≤ endIdx)
    (hend : endIdx < array.length) (hsmall : startIdx + endIdx + 1 < 2 ^ indexBits) :
    (reverseArray array startIdx endIdx).length = array.length ∧
    ∀ j, (reverseArray array startIdx endIdx)[j]?
      = if startIdx ≤ j ∧ j ≤ endIdx then array[startIdx + endIdx - j]? else array[j]? := by
  unfold reverseArray
  simp only []
  rw [Nat.mod_eq_of_lt hsmall]
  obtain ⟨h1, h2⟩ := reverseLoop_spec startIdx endIdx array hend (by omega)
    ((startIdx + endIdx + 1) / 2 - startIdx) startIdx array (Nat.le_refl _) (by omega) rfl
    (fun j => by rw [if_neg (by omega)])
  refine ⟨h1, fun j => ?_⟩
  rw [h2 j]
  by_cases hj : startIdx ≤ j ∧ j ≤ endIdx
  · rw [if_pos hj]
    by_cases hc : (startIdx ≤ j ∧ j < startIdx + ((startIdx + endIdx + 1) / 2 - startIdx)) ∨
        (startIdx + endIdx - (startIdx + ((startIdx + endIdx + 1) / 2 - startIdx)) < j ∧
          j ≤ endIdx)
    · rw [if_pos hc]
    · rw [if_neg hc]
      congr 1
      omega
  · rw [if_neg hj, if_neg (by omega)]

theorem findLastPair_none (permutation : List Int) (i : Nat)
    (h : findLastPair (fun a b => decide (a ≥ b)) permutation i = none) :
    ∀ k, k ≤ i → intAt permutation k ≥ intAt permutation (k + 1) := by
  induction i with
  | zero =>
    intro k hk
    have : k = 0 := by omega
    subst this
    unfold findLastPair at h
    split at h
    · rename_i hc; simpa using hc
    · cases h
  | succ i ih =>
    unfold findLastPair at h
    split at h
    · rename_i hc
      intro k hk
      by_cases hki : k = i + 1
      · subst hki; simpa using hc
      · exact ih h k (by omega)
    · cases h

theorem findLastPair_some (permutation : List Int) (i lastPair : Nat)
    (h : findLastPair (fun a b => decide (a ≥ b)) permutation i = some lastPair) :
    lastPair ≤ i ∧ intAt permutation lastPair < intAt permutation (lastPair + 1) ∧
      ∀ k, lastPair < k → k ≤ i → intAt permutation k ≥ intAt permutation (k + 1) := by
  induction i with
  | zero =>
    unfold findLastPair at h
    split at h
    · cases h
    · cases h
      rename_i hc
      exact ⟨Nat.le_refl _, by simpa using hc, fun k hk1 hk2 => by omega⟩
  | succ i ih =>
    unfold findLastPair at h
    split at h
    · rename_i hc
      obtain ⟨h1, h2, h3⟩ := ih h
      refine ⟨by omega, h2, fun k hk1 hk2 => ?_⟩
      by_cases hki : k = i + 1
      · subst hki; simpa using hc
      · exact h3 k hk1 (by omega)
    · cases h
      rename_i hc
      exact ⟨Nat.le_refl _, by simpa using hc, fun k hk1 hk2 => by omega⟩

theorem findSwapIdx_spec (permutation : List Int) (lastPair B k₀ : Nat)
    (hlt : lastPair < k₀)
    (hwit : ∃ m, lastPair < m ∧ m ≤ k₀ ∧ intAt permutation lastPair < intAt permutation m)
    (hafter : ∀ j, k₀ < j → j ≤ B → intAt permutation j ≤ intAt permutation lastPair) :
    ∃ k, findSwapIdx (fun a b => decide (a ≥ b)) permutation lastPair k₀ = .ok k ∧
      lastPair < k ∧ k ≤ k₀ ∧ intAt permutation lastPair < intAt permutation k ∧
      ∀ j, k < j → j ≤ B → intAt permutation j ≤ intAt permutation lastPair := by
  induction k₀ with
  | zero => omega
  | succ k₀ ih =>
    unfold findSwapIdx
    by_cases hc : intAt permutation lastPair ≥ intAt permutation (k₀ + 1)
    · rw [if_pos (by simpa using hc)]
      obtain ⟨m, hm1, hm2, hm3⟩ := hwit
      have hm : m ≤ k₀ := by
        by_contra hgt
        have : m = k₀ + 1 := by omega
        subst this
        omega
      rw [if_pos (by omega)]
      obtain ⟨k, h1, h2, h3, h4, h5⟩ := ih (by omega) ⟨m, hm1, hm, hm3⟩ (by
        intro j hj1 hj2
        by_cases hj : j = k₀ + 1
        · subst hj; exact hc
        · exact hafter j (by omega) hj2)
      exact ⟨k, h1, h2, by omega, h4, h5⟩
    · rw [if_neg (by simpa using hc)]
      exact ⟨k₀ + 1, rfl, hlt, Nat.le_refl _, by omega, hafter⟩

theorem sorted_ge_of_adjacent {L : List Int}
    (h : ∀ i, i + 1 < L.length → intAt L i ≥ intAt L (i + 1)) : List.Sorted (· ≥ ·) L := by
  have hchain : ∀ j i, i ≤ j → j < L.length → intAt L i ≥ intAt L j := by
    intro j
    induction j with
    | zero =>
      intro i hi _
      have : i = 0 := by omega
      subst this
      exact Int.le_refl _
    | succ j ih =>
      intro i hi hj
      by_cases hij : i = j + 1
      · subst hij; exact Int.le_refl _
      · have h1 := ih i (by omega) (by omega)
        have h2 := h j hj
        omega
  unfold List.Sorted
  rw [List.pairwise_iff_getElem]
  intro i j hi hj hij
  have := hchain j i (by omega) hj
  unfold intAt at this
  rw [List.getD_eq_getElem _ _ hi, List.getD_eq_getElem _ _ hj] at this
  exact this

theorem sorted_le_of_adjacent {L : List Int}
    (h : ∀ i, i + 1 < L.length → intAt L i ≤ intAt L (i + 1)) : List.Sorted (· ≤ ·) L := by
  unfold List.Sorted
  rw [List.pairwise_iff_getElem]
  intro i j hi hj hij
  have := @nonDecreasing_le L h i j (show i ≤ j by omega) hj
  rw [List.getD_eq_getElem _ _ hi, List.getD_eq_getElem _ _ hj] at this
  exact this

theorem intAt_drop (l : List Int) (n i : Nat) : intAt (l.drop n) i = intAt l (n + i) := by
  unfold intAt
  rw [List.getD_eq_getElem?_getD, List.getD_eq_getElem?_getD, List.getElem?_drop]

theorem eq_take_cons_drop (l : List Int) (i : Nat) (hi : i < l.length) :
    l = l.take i ++ intAt l i :: l.drop (i + 1) := by
  have h1 : l.drop i = intAt l i :: l.drop (i + 1) := by
    rw [List.drop_eq_getElem_cons hi]
    unfold intAt
    rw [List.getD_eq_getElem _ _ hi]
  conv_lhs => rw [← List.take_append_drop i l, h1]

theorem intAt_eq (l : List Int) (j : Nat) : intAt l j = (l[j]?).getD 0 := by
  unfold intAt
  rw [List.getD_eq_getElem?_getD]

/-- The shape of a lexicographic successor: `p` and `p'` share the front `A`, the pivot `x` is
replaced by the least later element `y` above it, and the non-increasing tail `S` becomes
the non-decreasing tail `R`. -/
theorem next_permutation_of_split (p p' A S R : List Int) (x y : Int)
    (hp : p = A ++ x :: S) (hp' : p' = A ++ y :: R)
    (hS : List.Sorted (· ≥ ·) S) (hxy : x < y) (hmin : ∀ z ∈ S, x < z → y ≤ z)
    (hR : List.Sorted (· ≤ ·) R) (hperm : p'.Perm p) :
    p < p' ∧ ∀ q : List Int, q.Perm p → p < q → p' ≤ q := by
  subst hp hp'
  exact next_permutation_least A S R x y hS hxy hmin hR ((List.perm_append_left_iff A).1 hperm)

/-- When `nextIncreasingLexicographicPermutation` finds a last ascending pair it returns
true and stores the least permutation above the argument. -/
theorem nextIncreasing_of_lastPair (p : List Int) (hlen : p.length ≤ 2 ^ 63)
    (h2 : ¬ p.length < 2) (lastPair : Nat)
    (hlp : findLastPair (fun a b => decide (a ≥ b)) p (p.length - 1 - 1) = some lastPair) :
    ∃ p', nextIncreasingLexicographicPermutation p = .ok (true, p') ∧ p'.Perm p ∧ p < p' ∧
      ∀ q : List Int, q.Perm p → p < q → p' ≤ q := by
  obtain ⟨hlpB, hlt, hsuf⟩ := findLastPair_some p _ lastPair hlp
  obtain ⟨k, hk, hk1, hk2, hk3, hk4⟩ := findSwapIdx_spec p lastPair (p.length - 1)
    (p.length - 1) (by omega) ⟨lastPair + 1, by omega, by omega, hlt⟩
    (fun j h1 h2 => by omega)
  have hpow : (2 : Nat) ^ indexBits = 2 ^ 64 := rfl
  have hfun : nextIncreasingLexicographicPermutation p
      = .ok (true, reverseArray (swapAt p lastPair k) (lastPair + 1) (p.length - 1)) := by
    unfold nextIncreasingLexicographicPermutation nextLexicographicPermutation
    rw [if_neg h2]
    simp only [hlp, hk, bind, Except.bind]
  obtain ⟨hrl, hrj⟩ := reverseArray_spec (swapAt p lastPair k) (lastPair + 1) (p.length - 1)
    (by omega) (by rw [length_swapAt]; omega) (by rw [hpow]; omega)
  have hs_int : ∀ j, intAt (swapAt p lastPair k) j
      = if j = k then intAt p lastPair else if j = lastPair then intAt p k else intAt p j := by
    intro j
    rw [intAt_eq, getElem?_swapAt p lastPair k j (by omega) (by omega)]
    split_ifs <;> rw [intAt_eq]
  have hp_int : ∀ j, intAt (reverseArray (swapAt p lastPair k) (lastPair + 1) (p.length - 1)) j
      = if lastPair + 1 ≤ j ∧ j ≤ p.length - 1
        then intAt (swapAt p lastPair k) (lastPair + 1 + (p.length - 1) - j)
        else intAt (swapAt p lastPair k) j := by
    intro j
    rw [intAt_eq, hrj j]
    split_ifs <;> rw [intAt_eq]
  have hchain : ∀ j i, lastPair < i → i ≤ j → j ≤ p.length - 1 → intAt p i ≥ intAt p j := by
    intro j
    induction j with
    | zero =>
      intro i h1 h2 _
      omega
    | succ j ih =>
      intro i h1 h2 h3
      by_cases hij : i = j + 1
      · subst hij; exact Int.le_refl _
      · have h4 := ih i h1 (by omega) (by omega)
        have h5 := hsuf j (by omega) (by omega)
        omega
  refine ⟨_, hfun, (reverseArray_perm _ _ _).trans (swapAt_perm _ _ _), ?_⟩
  refine next_permutation_of_split p _ (p.take lastPair) (p.drop (lastPair + 1))
    ((reverseArray (swapAt p lastPair k) (lastPair + 1) (p.length - 1)).drop (lastPair + 1))
    (intAt p lastPair) (intAt p k) (eq_take_cons_drop p lastPair (by omega)) ?_ ?_ hk3 ?_ ?_
    ((reverseArray_perm _ _ _).trans (swapAt_perm _ _ _))
  · have h1 := eq_take_cons_drop
      (reverseArray (swapAt p lastPair k) (lastPair + 1) (p.length - 1)) lastPair
      (by rw [hrl, length_swapAt]; omega)
    have h2 : (reverseArray (swapAt p lastPair k) (lastPair + 1) (p.length - 1)).take lastPair
        = p.take lastPair := by
      apply List.ext_getElem?
      intro j
      rw [List.getElem?_take, List.getElem?_take]
      by_cases hj : j < lastPair
      · rw [if_pos hj, if_pos hj, hrj j, if_neg (by omega),
          getElem?_swapAt_of_ne p lastPair k j (by omega) (by omega)]
      · rw [if_neg hj, if_neg hj]
    have h3 : intAt (reverseArray (swapAt p lastPair k) (lastPair + 1) (p.length - 1)) lastPair
        = intAt p k := by
      rw [hp_int, if_neg (by omega), hs_int, if_neg (by omega), if_pos rfl]
    rw [h2, h3] at h1
    exact h1
  · apply sorted_ge_of_adjacent
    intro i hi
    rw [List.length_drop] at hi
    rw [intAt_drop, intAt_drop]
    exact hsuf (lastPair + 1 + i) (by omega) (by omega)
  · intro z hz hxz
    obtain ⟨a, ha, hza⟩ := List.mem_iff_getElem.1 hz
    rw [List.length_drop] at ha
    have hz' : intAt p (lastPair + 1 + a) = z := by
      rw [← intAt_drop]
      unfold intAt
      rw [List.getD_eq_getElem _ _ (by rw [List.length_drop]; exact ha)]
      exact hza
    by_cases hak : k < lastPair + 1 + a
    · have := hk4 (lastPair + 1 + a) hak (by omega)
      omega
    · have := hchain k (lastPair + 1 + a) (by omega) (by omega) hk2
      omega
  · apply sorted_le_of_adjacent
    intro i hi
    rw [List.length_drop, hrl, length_swapAt] at hi
    rw [intAt_drop, intAt_drop, hp_int, hp_int, if_pos (by omega), if_pos (by omega)]
    have hidx : lastPair + 1 + (p.length - 1) - (lastPair + 1 + i)
        = (lastPair + 1 + (p.length - 1) - (lastPair + 1 + (i + 1))) + 1 := by omega
    rw [hidx]
    generalize hj : lastPair + 1 + (p.length - 1) - (lastPair + 1 + (i + 1)) = j
    have hj1 : lastPair < j := by omega
    have hj2 : j < p.length - 1 := by omega
    rw [hs_int, hs_int]
    by_cases hjk : j = k
    · rw [if_neg (show ¬ j + 1 = k by omega), if_neg (show ¬ j + 1 = lastPair by omega),
        if_pos hjk]
      exact hk4 (j + 1) (by omega) (by omega)
    · rw [if_neg hjk, if_neg (show ¬ j = lastPair by omega)]
      by_cases hjk1 : j + 1 = k
      · rw [if_pos hjk1]
        have := hchain k j hj1 (by omega) hk2
        omega
      · rw [if_neg hjk1, if_neg (show ¬ j + 1 = lastPair by omega)]
        exact hsuf j hj1 (by omega)

/-! ## Lemmas on modular exponentiation and the generators -/

/-- Invariant of the loop of `modularExp`: after the bits below `i` of `exp` were read, `x`
is `b` raised to these bits (not yet reduced when no bit was set) and `power` is
`b^(2^i) % mod`. -/
theorem modularExpLoop_spec (b exp mod : Nat) (hm : 0 < mod) (hm32 : mod < 2 ^ 32)
    (n i x power : Nat) (hp : power = b ^ 2 ^ i % mod)
    (hx : x = if exp % 2 ^ i = 0 then 1 else b ^ (exp % 2 ^ i) % mod) :
    modularExpLoop exp mod n i x power
      = if exp % 2 ^ (i + n) = 0 then 1 else b ^ (exp % 2 ^ (i + n)) % mod := by
  induction n generalizing i x power with
  | zero => exact hx
  | succ n ih =>
    unfold modularExpLoop
    simp only []
    have hpl : power < 2 ^ 32 := by
      rw [hp]
      exact Nat.lt_trans (Nat.mod_lt _ hm) hm32
    have hxl : x < 2 ^ 32 := by
      rw [hx]
      split
      · norm_num
      · exact Nat.lt_trans (Nat.mod_lt _ hm) hm32
    have hlong : ∀ a c : Nat, a < 2 ^ 32 → c < 2 ^ 32 → a * c % 2 ^ longBits = a * c := by
      intro a c ha hc
      apply Nat.mod_eq_of_lt
      have : a * c < 2 ^ 32 * 2 ^ 32 := Nat.mul_lt_mul'' ha hc
      have h64 : (2 : Nat) ^ longBits = 2 ^ 32 * 2 ^ 32 := by norm_num [longBits]
      omega
    rw [hlong x power hxl hpl, hlong power power hpl hpl, Nat.one_and_eq_mod_two,
      Nat.shiftRight_eq_div_pow, show i + (n + 1) = (i + 1) + n by omega]
    apply ih
    · rw [hp, ← Nat.mul_mod, ← pow_two, ← pow_mul, ← pow_succ]
    · have hsplit : exp % 2 ^ (i + 1) = exp % 2 ^ i + 2 ^ i * (exp / 2 ^ i % 2) :=
        Nat.mod_pow_succ
      have hpos : 0 < 2 ^ i := Nat.pow_pos (by norm_num)
      rcases Nat.mod_two_eq_zero_or_one (exp / 2 ^ i) with hbit | hbit
      · rw [hsplit, hbit, if_neg (by simp), Nat.mul_zero, Nat.add_zero]
        exact hx
      · rw [hsplit, hbit, if_pos (by simp), Nat.mul_one, if_neg (by omega), hx, hp]
        by_cases hz : exp % 2 ^ i = 0
        · rw [if_pos hz, hz, Nat.one_mul, Nat.zero_add, Nat.mod_mod]
        · rw [if_neg hz, ← Nat.mul_mod, ← pow_add]

/-- What `modularExp` computes for `mod >= 1`: the power of `base` reduced modulo `2^32`. -/
theorem modularExp_eq (base : Int) (exp mod : Nat) (hm : 0 < mod) (hm32 : mod < 2 ^ 32)
    (he : exp < 2 ^ 32) :
    modularExp base exp mod
      = .ok (if exp = 0 then 1 else (base % 2 ^ 32).toNat ^ exp % mod) := by
  unfold modularExp
  rw [if_neg (by omega)]
  simp only []
  rw [modularExpLoop_spec ((base % 2 ^ intBits).toNat) exp mod hm hm32 intBits 0 1 _
    (by rw [pow_zero, pow_one]) (by rw [pow_zero, Nat.mod_one, if_pos rfl])]
  have h32 : 0 + intBits = 32 := rfl
  rw [h32, Nat.mod_eq_of_lt he]
  rfl

/-- For a negative base the conversion to `unsigned int` changes the residue:
`modularExp(-1, 1, 3)` returns `0`, the residue of `2^32 - 1`, while `(-1)^1` is `2`
modulo `3`. -/
theorem modularExp_negative_base :
    modularExp (-1) 1 3 = .ok 0 ∧ ((-1 : Int) ^ 1 % 3 = 2) := by
  decide

/-- A strictly increasing list of positions inside `[a, b)` has at most `b - a` entries. -/
theorem length_le_of_sorted_lt (s : List Nat) : ∀ a b : Nat, s.Sorted (· < ·) →
    (∀ i ∈ s, a ≤ i ∧ i < b) → s.length ≤ b - a := by
  induction s with
  | nil => intro a b _ _; exact Nat.zero_le _
  | cons x t ih =>
    intro a b hs hr
    have hx := hr x (List.mem_cons_self _ _)
    have ht := ih (x + 1) b (List.Sorted.of_cons hs) (fun i hi =>
      ⟨List.rel_of_sorted_cons hs i hi, (hr i (List.mem_cons_of_mem _ hi)).2⟩)
    rw [List.length_cons]
    omega

/-- The recursion of `generateRCombinations` from `startingIndex` on: it returns, and the
sequences are the images of the strictly increasing selections of `r` positions in
`[startingIndex, size)`, each selection taken once. -/
theorem generateRCombinationsRecursive_spec (inputSet : List Int)
    (hn : inputSet.length < 2 ^ indexBits) (fuel : Nat) :
    ∀ startingIndex r : Nat, startingIndex ≤ inputSet.length →
      r ≤ inputSet.length - startingIndex → inputSet.length - startingIndex + 1 ≤ fuel →
      ∃ sels : List (List Nat),
        generateRCombinationsRecursive inputSet fuel startingIndex r
          = .ok (sels.map fun s => s.map (intAt inputSet)) ∧
        sels.length = (inputSet.length - startingIndex).choose r ∧ sels.Nodup ∧
        ∀ s : List Nat, s ∈ sels ↔
          (s.length = r ∧ s.Sorted (· < ·) ∧ ∀ i ∈ s, startingIndex ≤ i ∧ i < inputSet.length) := by
  induction fuel with
  | zero => intro startingIndex r _ _ hf; omega
  | succ fuel ih =>
    intro startingIndex r hs hr hf
    unfold generateRCombinationsRecursive
    rw [if_pos (by omega)]
    by_cases hr0 : r = 0
    · rw [if_pos hr0]
      refine ⟨[[]], rfl, ?_, List.nodup_singleton _, fun s => ?_⟩
      · rw [hr0, Nat.choose_zero_right]
        rfl
      · rw [List.mem_singleton, hr0]
        constructor
        · rintro rfl
          exact ⟨rfl, List.sorted_nil, fun i hi => by cases hi⟩
        · rintro ⟨hl, _, _⟩
          exact List.length_eq_zero.1 hl
    · rw [if_neg hr0]
      have hlt : startingIndex < inputSet.length := by omega
      have hsucc : (startingIndex + 1) % 2 ^ indexBits = startingIndex + 1 :=
        Nat.mod_eq_of_lt (by omega)
      have hsub : (inputSet.length + 2 ^ indexBits - startingIndex) % 2 ^ indexBits
          = inputSet.length - startingIndex := by
        rw [show inputSet.length + 2 ^ indexBits - startingIndex
          = (inputSet.length - startingIndex) + 2 ^ indexBits by omega, Nat.add_mod_right]
        exact Nat.mod_eq_of_lt (by omega)
      obtain ⟨sels1, h1, hl1, hd1, hm1⟩ := ih (startingIndex + 1) (r - 1) (by omega)
        (by omega) (by omega)
      have hget : inputSet[startingIndex]? = some (intAt inputSet startingIndex) :=
        getElem?_eq_some_intAt hlt
      have hfront : pushFrontAll inputSet startingIndex
            (sels1.map fun s => s.map (intAt inputSet))
          = .ok ((sels1.map (startingIndex :: ·)).map fun s => s.map (intAt inputSet)) := by
        unfold pushFrontAll
        rw [hget]
        by_cases he : sels1 = []
        · subst he
          rfl
        · rw [if_neg (by simpa using he)]
          simp only [List.map_map]
          rfl
      rw [hsucc, hsub, h1]
      simp only [bind, Except.bind, hfront]
      have hmem1 : ∀ s : List Nat, s ∈ sels1.map (startingIndex :: ·) ↔
          (s.length = r ∧ s.Sorted (· < ·) ∧
            (∀ i ∈ s, startingIndex ≤ i ∧ i < inputSet.length) ∧
            s.head? = some startingIndex) := by
        intro s
        rw [List.mem_map]
        constructor
        · rintro ⟨t, ht, rfl⟩
          obtain ⟨htl, hts, htr⟩ := (hm1 t).1 ht
          refine ⟨by rw [List.length_cons]; omega, ?_, ?_, rfl⟩
          · exact List.sorted_cons.2 ⟨fun i hi => (htr i hi).1, hts⟩
          · intro i hi
            rcases List.mem_cons.1 hi with rfl | hi
            · exact ⟨Nat.le_refl _, hlt⟩
            · exact ⟨by have := (htr i hi).1; omega, (htr i hi).2⟩
        · rintro ⟨hsl, hss, hsr, hsh⟩
          cases s with
          | nil => cases hsh
          | cons x t =>
            have hx : x = startingIndex := by
              simpa using hsh
            subst hx
            refine ⟨t, (hm1 t).2 ⟨?_, List.Sorted.of_cons hss, fun i hi => ?_⟩, rfl⟩
            · rw [List.length_cons] at hsl
              omega
            · exact ⟨List.rel_of_sorted_cons hss i hi, (hsr i (List.mem_cons_of_mem _ hi)).2⟩
      have hd1' : (sels1.map (startingIndex :: ·)).Nodup :=
        hd1.map (fun a b h => List.tail_eq_of_cons_eq h)
      have hchoose : (inputSet.length - startingIndex).choose r
          = (inputSet.length - (startingIndex + 1)).choose (r - 1)
            + (inputSet.length - (startingIndex + 1)).choose r := by
        obtain ⟨m, hm⟩ : ∃ m, inputSet.length - startingIndex = m + 1 :=
          ⟨inputSet.length - startingIndex - 1, by omega⟩
        obtain ⟨q, hq⟩ : ∃ q, r = q + 1 := ⟨r - 1, by omega⟩
        rw [hm, hq, show inputSet.length - (startingIndex + 1) = m by omega,
          Nat.choose_succ_succ]
        rfl
      by_cases hmore : inputSet.length - startingIndex > r
      · rw [if_pos hmore]
        obtain ⟨sels2, h2, hl2, hd2, hm2⟩ := ih (startingIndex + 1) r (by omega)
          (by omega) (by omega)
        rw [h2]
        refine ⟨sels1.map (startingIndex :: ·) ++ sels2, ?_, ?_, ?_, fun s => ?_⟩
        · rw [List.map_append]
        · rw [List.length_append, List.length_map, hl1, hl2, hchoose]
        · refine List.nodup_append.2 ⟨hd1', hd2, ?_⟩
          intro s hs1 hs2
          obtain ⟨_, _, _, hh⟩ := (hmem1 s).1 hs1
          obtain ⟨_, _, hr2⟩ := (hm2 s).1 hs2
          cases s with
          | nil => cases hh
          | cons x t =>
            have hx : x = startingIndex := by simpa using hh
            have := (hr2 x (List.mem_cons_self _ _)).1
            omega
        · rw [List.mem_append, hmem1 s, hm2 s]
          constructor
          · rintro (⟨a, b, c, _⟩ | ⟨a, b, c⟩)
            · exact ⟨a, b, c⟩
            · exact ⟨a, b, fun i hi => ⟨by have := (c i hi).1; omega, (c i hi).2⟩⟩
          · rintro ⟨a, b, c⟩
            cases s with
            | nil =>
              rw [List.length_nil] at a
              omega
            | cons x t =>
              by_cases hx : x = startingIndex
              · exact Or.inl ⟨a, b, c, by rw [hx]; rfl⟩
              · refine Or.inr ⟨a, b, fun i hi => ?_⟩
                have hx1 := (c x (List.mem_cons_self _ _)).1
                rcases List.mem_cons.1 hi with rfl | hi'
                · exact ⟨by omega, (c i hi).2⟩
                · have := List.rel_of_sorted_cons b i hi'
                  exact ⟨by omega, (c i hi).2⟩
      · rw [if_neg hmore]
        refine ⟨sels1.map (startingIndex :: ·), rfl, ?_, hd1', fun s => ?_⟩
        · rw [List.length_map, hl1, hchoose,
            show inputSet.length - (startingIndex + 1) = r - 1 by omega,
            show (r - 1).choose r = 0 from Nat.choose_eq_zero_of_lt (by omega), Nat.add_zero]
        · rw [hmem1 s]
          constructor
          · rintro ⟨a, b, c, _⟩
            exact ⟨a, b, c⟩
          · rintro ⟨a, b, c⟩
            refine ⟨a, b, c, ?_⟩
            cases s with
            | nil =>
              rw [List.length_nil] at a
              omega
            | cons x t =>
              by_cases hx : x = startingIndex
              · rw [hx]; rfl
              · exfalso
                have hx1 := (c x (List.mem_cons_self _ _)).1
                have hlen := length_le_of_sorted_lt (x :: t) (startingIndex + 1)
                  inputSet.length b (fun i hi => by
                    rcases List.mem_cons.1 hi with rfl | hi'
                    · exact ⟨by omega, (c i hi).2⟩
                    · have := List.rel_of_sorted_cons b i hi'
                      exact ⟨by omega, (c i hi).2⟩)
                omega

theorem length_nextSubsetMask (mask : List Bool) :
    (nextSubsetMask mask).length = mask.length := by
  induction mask with
  | nil => rfl
  | cons b rest ih =>
    unfold nextSubsetMask
    cases b <;> simp [ih]

theorem length_maskAfter (n k : Nat) : (maskAfter n k).length = n := by
  induction k with
  | zero => simp [maskAfter]
  | succ k ih =>
    unfold maskAfter
    rw [length_nextSubsetMask, ih]

theorem maskValue_lt (mask : List Bool) : maskValue mask < 2 ^ mask.length := by
  induction mask with
  | nil => simp [maskValue]
  | cons b rest ih =>
    unfold maskValue
    rw [List.length_cons, pow_succ]
    cases b <;> simp <;> omega

/-- The step `nextSubsetMask` adds one to the number of the mask, modulo `2^size`. -/
theorem maskValue_nextSubsetMask (mask : List Bool) :
    maskValue (nextSubsetMask mask) = (maskValue mask + 1) % 2 ^ mask.length := by
  induction mask with
  | nil => simp [nextSubsetMask, maskValue]
  | cons b rest ih =>
    have hlt := maskValue_lt rest
    unfold nextSubsetMask
    cases b
    · simp only [Bool.not_false, if_true, maskValue, List.length_cons, pow_succ]
      simp only [Bool.false_eq_true, if_false]
      rw [Nat.mod_eq_of_lt (by omega)]
      omega
    · simp only [Bool.not_true, Bool.false_eq_true, if_false, maskValue, if_true,
        List.length_cons, pow_succ]
      rw [ih, show 1 + 2 * maskValue rest + 1 = 2 * (maskValue rest + 1) by omega,
        Nat.mul_comm (2 ^ rest.length) 2, Nat.mul_mod_mul_left]
      omega

theorem maskValue_maskAfter (n k : Nat) : maskValue (maskAfter n k) = k % 2 ^ n := by
  induction k with
  | zero =>
    have h : ∀ m : Nat, maskValue (List.replicate m false) = 0 := by
      intro m
      induction m with
      | zero => rfl
      | succ m ihm => simp [List.replicate_succ, maskValue, ihm]
    rw [Nat.zero_mod]
    exact h n
  | succ k ih =>
    unfold maskAfter
    rw [maskValue_nextSubsetMask, ih, length_maskAfter, Nat.mod_add_mod]

theorem maskValue_eq_zero {mask : List Bool} (h : maskValue mask = 0) :
    ∀ i, mask.getD i false = false := by
  induction mask with
  | nil => intro i; rfl
  | cons b rest ih =>
    unfold maskValue at h
    intro i
    cases i with
    | zero =>
      cases b
      · rfl
      · simp at h
    | succ i =>
      rw [List.getD_cons_succ]
      exact ih (by omega) i

theorem mem_maskPositions (mask : List Bool) (i : Nat) :
    i ∈ maskPositions mask ↔ i < mask.length ∧ mask.getD i false = true := by
  unfold maskPositions
  rw [List.mem_filter, List.mem_range]

theorem maskPositions_sorted (mask : List Bool) : (maskPositions mask).Sorted (· < ·) := by
  unfold maskPositions
  exact List.Pairwise.sublist (List.filter_sublist _) (List.pairwise_lt_range _)

/-- Masks of equal size with the same set positions are equal. -/
theorem mask_eq_of_maskPositions_eq {m₁ m₂ : List Bool} (hl : m₁.length = m₂.length)
    (hp : maskPositions m₁ = maskPositions m₂) : m₁ = m₂ := by
  apply List.ext_getElem hl
  intro i h1 h2
  have e1 := mem_maskPositions m₁ i
  have e2 := mem_maskPositions m₂ i
  rw [hp] at e1
  rw [List.getD_eq_getElem _ _ h1] at e1
  rw [List.getD_eq_getElem _ _ h2] at e2
  cases hb1 : m₁[i] <;> cases hb2 : m₂[i] <;> simp_all

theorem maskPositions_eq_nil {mask : List Bool} (h : maskValue mask = 0) :
    maskPositions mask = [] := by
  unfold maskPositions
  rw [List.filter_eq_nil_iff]
  intro i _
  rw [maskValue_eq_zero h i]
  simp

/-- The loop of `nextSubset` from bit `i` on appends the elements at the set bits. -/
theorem collectLoop_spec (totalSet : List Int) (mask : List Bool)
    (hl : mask.length ≤ totalSet.length) (n i : Nat) (result : List Int)
    (hi : i + n = mask.length) :
    collectLoop totalSet mask n i result
      = .ok (result ++ ((List.range' i n).filter fun j => mask.getD j false).map
          (intAt totalSet)) := by
  induction n generalizing i result with
  | zero => simp [collectLoop]
  | succ n ih =>
    unfold collectLoop
    rw [List.range'_succ, List.filter_cons]
    by_cases hb : mask.getD i false = true
    · rw [if_pos hb, if_pos hb, getElem?_eq_some_intAt (show i < totalSet.length by omega)]
      simp only []
      rw [ih (i + 1) _ (by omega), List.map_cons, List.append_assoc]
      rfl
    · rw [if_neg hb, if_neg hb]
      exact ih (i + 1) _ (by omega)

theorem length_filter_range' (mask : List Bool) (n i : Nat) (hi : i + n = mask.length) :
    ((List.range' i n).filter fun j => mask.getD j false).length
      = (mask.drop i).count true := by
  induction n generalizing i with
  | zero =>
    rw [List.drop_eq_nil_of_le (by omega)]
    rfl
  | succ n ih =>
    have hlt : i < mask.length := by omega
    rw [List.range'_succ, List.filter_cons, List.drop_eq_getElem_cons hlt, List.count_cons,
      ← ih (i + 1) (by omega), List.getD_eq_getElem _ _ hlt]
    cases mask[i] <;> simp

/-- A call of `nextSubset` on a generator whose mask is as long as its vector returns the
elements at the set positions of the stepped mask. -/
theorem nextSubset_spec (g : SubsetGenerator) (hl : g.m_subsetMask.length = g.m_totalSet.length) :
    g.nextSubset = .ok ((maskPositions (nextSubsetMask g.m_subsetMask)).map
        (intAt g.m_totalSet),
      { g with m_subsetMask := nextSubsetMask g.m_subsetMask }) := by
  unfold SubsetGenerator.nextSubset
  simp only []
  rw [collectLoop_spec g.m_totalSet _ (by rw [length_nextSubsetMask]; omega) _ 0 []
    (by omega)]
  simp only [bind, Except.bind, List.nil_append, List.length_map]
  rw [length_filter_range' _ _ 0 (by omega), List.drop_zero, if_pos rfl]
  unfold maskPositions
  rw [List.range_eq_range']

/-- Successive calls on a new generator return the selections of the successive masks. -/
theorem nextSubsets_spec (totalSet : List Int) (k j : Nat) :
    SubsetGenerator.nextSubsets k
        { m_totalSet := totalSet, m_subsetMask := maskAfter totalSet.length j }
      = .ok ((List.range k).map fun c =>
            (maskPositions (maskAfter totalSet.length (j + c + 1))).map (intAt totalSet),
          { m_totalSet := totalSet, m_subsetMask := maskAfter totalSet.length (j + k) }) := by
  induction k generalizing j with
  | zero => rfl
  | succ k ih =>
    unfold SubsetGenerator.nextSubsets
    rw [nextSubset_spec _ (by exact length_maskAfter _ _)]
    simp only [bind, Except.bind]
    have hstep : nextSubsetMask (maskAfter totalSet.length j)
        = maskAfter totalSet.length (j + 1) := rfl
    rw [hstep, ih (j + 1)]
    simp only []
    rw [List.range_succ_eq_map, List.map_cons, List.map_map,
      show j + 1 + k = j + (k + 1) by omega]
    congr 3
    apply List.map_congr_left
    intro c _
    simp only [Function.comp]
    rw [show j + 1 + c + 1 = j + Nat.succ c + 1 by omega]

/-- Masks of equal size that stand for the same number are equal. -/
theorem mask_eq_of_maskValue_eq : ∀ m₁ m₂ : List Bool, m₁.length = m₂.length →
    maskValue m₁ = maskValue m₂ → m₁ = m₂ := by
  intro m₁
  induction m₁ with
  | nil =>
    intro m₂ hl _
    exact (List.length_eq_zero.1 hl.symm).symm
  | cons b₁ r₁ ih =>
    intro m₂ hl hv
    cases m₂ with
    | nil => cases hl
    | cons b₂ r₂ =>
      unfold maskValue at hv
      have hr : maskValue r₁ = maskValue r₂ := by
        cases b₁ <;> cases b₂ <;> simp at hv <;> omega
      have hb : b₁ = b₂ := by
        cases b₁ <;> cases b₂ <;> simp at hv <;> first | rfl | omega
      rw [hb, ih r₂ (by simpa using hl) hr]

/-- Every strictly increasing selection of positions below `n` is the selection of one of
the first `2^n` calls. -/
theorem maskPositions_complete (n : Nat) (s : List Nat) (hs : s.Sorted (· < ·))
    (hr : ∀ i ∈ s, i < n) :
    ∃ c, 1 ≤ c ∧ c ≤ 2 ^ n ∧ maskPositions (maskAfter n c) = s := by
  have hlen : ((List.range n).map fun i => decide (i ∈ s)).length = n := by
    rw [List.length_map, List.length_range]
  have hv := maskValue_lt ((List.range n).map fun i => decide (i ∈ s))
  rw [hlen] at hv
  have hpos : maskPositions ((List.range n).map fun i => decide (i ∈ s)) = s := by
    apply List.eq_of_perm_of_sorted _ (maskPositions_sorted _) hs
    rw [List.perm_ext_iff_of_nodup (maskPositions_sorted _).nodup hs.nodup]
    intro i
    rw [mem_maskPositions, hlen]
    constructor
    · rintro ⟨hi, hb⟩
      rw [List.getD_eq_getElem _ _ (by rw [hlen]; exact hi)] at hb
      simpa using hb
    · intro hi
      refine ⟨hr i hi, ?_⟩
      rw [List.getD_eq_getElem _ _ (by rw [hlen]; exact hr i hi)]
      simpa using hi
  have key : ∀ c, c % 2 ^ n = maskValue ((List.range n).map fun i => decide (i ∈ s)) →
      maskPositions (maskAfter n c) = s := by
    intro c hc
    have hm := mask_eq_of_maskValue_eq (maskAfter n c)
      ((List.range n).map fun i => decide (i ∈ s)) ((length_maskAfter n c).trans hlen.symm)
      ((maskValue_maskAfter n c).trans hc)
    rw [hm, hpos]
  by_cases h0 : maskValue ((List.range n).map fun i => decide (i ∈ s)) = 0
  · exact ⟨2 ^ n, Nat.one_le_two_pow, Nat.le_refl _, key _ (by rw [Nat.mod_self, h0])⟩
  · exact ⟨_, by omega, by omega, key _ (Nat.mod_eq_of_lt hv)⟩

/-! ## Lemmas on range partition and the longest common subsequence -/

/-- The calls of the unit test `testPartitionRange` evaluate to the expected dividers. -/
theorem partitionRange_unit_tests :
    partitionRange [] 0 = .ok [] ∧ partitionRange [1, 1] 0 = .ok [] ∧
    partitionRange [1, 1] 1 = .ok [0] ∧ partitionRange [1, 1, 1, 1, 1] 4 = .ok [0, 1, 2, 3] ∧
    partitionRange [1, 1, 4, 1, 1, 1] 2 = .ok [1, 2] ∧
    partitionRange [1, 1, 4, 1, 1, 4] 3 = .ok [1, 2, 4] ∧
    partitionRange [1, 1, 4, 1, 1, 4] 5 = .ok [0, 1, 2, 4] ∧
    partitionRange [1, 1, 1, 1] 5 = .ok [0, 1, 2] ∧ partitionRange [1, 1] 5 = .ok [0] ∧
    partitionRange [1] 5 = .ok [] := by
  decide

/-- A subsequence of `l ++ [x]` is a subsequence of `l`, or one of `l` followed by `x`. -/
theorem sublist_concat_cases {w l : List Char} {x : Char} (h : w.Sublist (l ++ [x])) :
    w.Sublist l ∨ ∃ w', w = w' ++ [x] ∧ w'.Sublist l := by
  obtain ⟨w₁, w₂, hw, h₁, h₂⟩ := List.sublist_append_iff.1 h
  rcases List.sublist_cons_iff.1 h₂ with h₃ | ⟨r, hr, h₃⟩
  · have : w₂ = [] := List.eq_nil_of_sublist_nil h₃
    subst this
    rw [List.append_nil] at hw
    subst hw
    exact Or.inl h₁
  · have : r = [] := List.eq_nil_of_sublist_nil h₃
    subst this
    subst hr
    exact Or.inr ⟨w₁, hw, h₁⟩

theorem isLcsLength_nil_left (l : List Char) : IsLcsLength [] l 0 :=
  ⟨⟨[], List.Sublist.refl _, List.nil_sublist _, rfl⟩,
    fun w h _ => by rw [List.eq_nil_of_sublist_nil h]; exact Nat.le_refl _⟩

theorem isLcsLength_nil_right (l : List Char) : IsLcsLength l [] 0 :=
  ⟨⟨[], List.nil_sublist _, List.Sublist.refl _, rfl⟩,
    fun w _ h => by rw [List.eq_nil_of_sublist_nil h]; exact Nat.le_refl _⟩

theorem IsLcsLength.unique_length {l₁ l₂ : List Char} {m m' : Nat} (h : IsLcsLength l₁ l₂ m)
    (h' : IsLcsLength l₁ l₂ m') : m = m' := by
  obtain ⟨⟨w, a, b, c⟩, hmax⟩ := h
  obtain ⟨⟨w', a', b', c'⟩, hmax'⟩ := h'
  have := hmax w' a' b'
  have := hmax' w a b
  omega

theorem IsLcsLength.le_left {l₁ l₂ : List Char} {m : Nat} (h : IsLcsLength l₁ l₂ m) :
    m ≤ l₁.length := by
  obtain ⟨⟨w, a, _, c⟩, _⟩ := h
  rw [← c]
  exact a.length_le

/-- The matching case of the recurrence: a common last character extends a longest common
subsequence of the two fronts. -/
theorem IsLcsLength.concat_eq {l₁ l₂ : List Char} {m : Nat} (x : Char)
    (h : IsLcsLength l₁ l₂ m) : IsLcsLength (l₁ ++ [x]) (l₂ ++ [x]) (m + 1) := by
  obtain ⟨⟨w, a, b, c⟩, hmax⟩ := h
  refine ⟨⟨w ++ [x], a.append (List.Sublist.refl _), b.append (List.Sublist.refl _),
    by rw [List.length_append, c]; rfl⟩, ?_⟩
  intro u hu₁ hu₂
  rcases sublist_concat_cases hu₁ with h₁ | ⟨u', rfl, h₁⟩
  · rcases sublist_concat_cases hu₂ with h₂ | ⟨u'', rfl, h₂⟩
    · have := hmax u h₁ h₂
      omega
    · have h₃ : u''.Sublist l₁ := (List.sublist_append_left u'' [x]).trans h₁
      have := hmax u'' h₃ h₂
      rw [List.length_append, List.length_singleton]
      omega
  · have h₂ : u'.Sublist l₂ := by
      rcases sublist_concat_cases hu₂ with h₂ | ⟨u'', he, h₂⟩
      · exact (List.sublist_append_left u' [x]).trans h₂
      · rw [List.append_cancel_right he]
        exact h₂
    have := hmax u' h₁ h₂
    rw [List.length_append, List.length_singleton]
    omega

/-- The other case of the recurrence: with different last characters a longest common
subsequence leaves out one of them. -/
theorem IsLcsLength.concat_ne {l₁ l₂ : List Char} {a b : Nat} {x y : Char} (hxy : x ≠ y)
    (ha : IsLcsLength (l₁ ++ [x]) l₂ a) (hb : IsLcsLength l₁ (l₂ ++ [y]) b) :
    IsLcsLength (l₁ ++ [x]) (l₂ ++ [y]) (max a b) := by
  obtain ⟨⟨w, wa, wb, wc⟩, hmaxa⟩ := ha
  obtain ⟨⟨v, va, vb, vc⟩, hmaxb⟩ := hb
  constructor
  · rcases Nat.le_total a b with hab | hab
    · rw [Nat.max_eq_right hab]
      exact ⟨v, va.trans (List.sublist_append_left _ _), vb, vc⟩
    · rw [Nat.max_eq_left hab]
      exact ⟨w, wa, wb.trans (List.sublist_append_left _ _), wc⟩
  · intro u hu₁ hu₂
    rcases sublist_concat_cases hu₂ with h₂ | ⟨u'', rfl, h₂⟩
    · exact Nat.le_trans (hmaxa u hu₁ h₂) (Nat.le_max_left _ _)
    · rcases sublist_concat_cases hu₁ with h₁ | ⟨u', he, h₁⟩
      · exact Nat.le_trans (hmaxb _ h₁ hu₂) (Nat.le_max_right _ _)
      · exfalso
        have h := congrArg List.getLast? he
        rw [List.getLast?_append, List.getLast?_append] at h
        simp at h
        exact hxy h.symm

theorem length_setCell {α : Type} (t : List (List α)) (i j : Nat) (v : α) :
    (setCell t i j v).length = t.length := by
  unfold setCell
  rw [List.length_set]

theorem getD_setCell {α : Type} (t : List (List α)) (i j a : Nat) (v : α)
    (hi : i < t.length) :
    (setCell t i j v).getD a [] = if a = i then (t.getD i []).set j v else t.getD a [] := by
  unfold setCell
  rw [List.getD_eq_getElem?_getD, List.getElem?_set, List.getD_eq_getElem?_getD]
  by_cases h : a = i
  · subst h
    rw [if_pos rfl, if_pos hi, if_pos rfl]
    rfl
  · rw [if_neg (Ne.symm h), if_neg h, List.getD_eq_getElem?_getD]

theorem length_getD_setCell {α : Type} (t : List (List α)) (i j a : Nat) (v : α)
    (hi : i < t.length) : ((setCell t i j v).getD a []).length = (t.getD a []).length := by
  rw [getD_setCell t i j a v hi]
  by_cases h : a = i
  · rw [if_pos h, List.length_set, h]
  · rw [if_neg h]

theorem idxCellAt_setCell (t : List (List Nat)) (i j a b v : Nat) (hi : i < t.length)
    (hj : j < (t.getD i []).length) :
    idxCellAt (setCell t i j v) a b = if a = i ∧ b = j then v else idxCellAt t a b := by
  unfold idxCellAt idxAt
  rw [getD_setCell t i j a v hi]
  by_cases ha : a = i
  · subst ha
    rw [if_pos rfl, List.getD_eq_getElem?_getD, List.getElem?_set]
    by_cases hb : b = j
    · subst hb
      rw [if_pos rfl, if_pos hj, if_pos ⟨rfl, rfl⟩]
      rfl
    · rw [if_neg (Ne.symm hb), if_neg (fun h => hb h.2),
        List.getD_eq_getElem?_getD (t.getD a []) b 0]
  · rw [if_neg ha, if_neg (fun h => ha h.1)]

theorem take_succ_charAt (s : List Char) (k : Nat) (hk : k < s.length) :
    s.take (k + 1) = s.take k ++ [charAt s k] := by
  rw [List.take_succ, List.getElem?_eq_getElem hk]
  unfold charAt
  rw [List.getD_eq_getElem _ _ hk]
  rfl

/-- The inner loop of `longestCommonSubsequence` keeps the invariant and completes row
`i`. -/
theorem lcsRowLoop_spec (s1 s2 : List Char) (h1 : s1.length + 1 < 2 ^ indexBits) (i : Nat)
    (hi1 : 1 ≤ i) (hi2 : i ≤ s1.length) (n j : Nat) (t : List (List Nat)) (hj1 : 1 ≤ j)
    (hjn : j + n = s2.length + 1) (hinv : LcsInv s1 s2 t i j) :
    LcsInv s1 s2 (lcsRowLoop s1 s2 i n j t) i (s2.length + 1) := by
  induction n generalizing j t with
  | zero =>
    have : j = s2.length + 1 := by omega
    subst this
    exact hinv
  | succ n ih =>
    unfold lcsRowLoop
    simp only []
    apply ih (j + 1) _ (by omega) (by omega)
    obtain ⟨hrows, hcols, hcells⟩ := hinv
    have hi : i < t.length := by omega
    have hj : j < (t.getD i []).length := by rw [hcols i hi2]; omega
    refine ⟨by rw [length_setCell, hrows], fun a ha => ?_, fun a b ha hb hf => ?_⟩
    · rw [length_getD_setCell t i j a _ hi, hcols a ha]
    · rw [idxCellAt_setCell t i j a b _ hi hj]
      by_cases hab : a = i ∧ b = j
      · rw [if_pos hab, hab.1, hab.2]
        have hti : s1.take i = s1.take (i - 1) ++ [charAt s1 (i - 1)] := by
          have := take_succ_charAt s1 (i - 1) (by omega)
          rwa [show i - 1 + 1 = i by omega] at this
        have htj : s2.take j = s2.take (j - 1) ++ [charAt s2 (j - 1)] := by
          have := take_succ_charAt s2 (j - 1) (by omega)
          rwa [show j - 1 + 1 = j by omega] at this
        by_cases hc : charAt s1 (i - 1) = charAt s2 (j - 1)
        · rw [if_pos hc]
          have hd := hcells (i - 1) (j - 1) (by omega) (by omega) (by omega)
          have hle := hd.le_left
          rw [List.length_take] at hle
          rw [Nat.mod_eq_of_lt (by omega), hti, htj, ← hc]
          exact hd.concat_eq _
        · rw [if_neg hc, hti, htj]
          apply IsLcsLength.concat_ne hc
          · rw [← hti]
            exact hcells i (j - 1) hi2 (by omega) (by omega)
          · rw [← htj]
            exact hcells (i - 1) j (by omega) (by omega) (by omega)
      · rw [if_neg hab]
        apply hcells a b ha hb
        omega

/-- The main loop of `longestCommonSubsequence` keeps the invariant and completes the
table. -/
theorem lcsTableLoop_spec (s1 s2 : List Char) (h1 : s1.length + 1 < 2 ^ indexBits)
    (n i : Nat) (t : List (List Nat)) (hi1 : 1 ≤ i) (hin : i + n = s1.length + 1)
    (hinv : LcsInv s1 s2 t i 1) :
    LcsInv s1 s2 (lcsTableLoop s1 s2 (s2.length + 1) n i t) (s1.length + 1) 1 := by
  induction n generalizing i t with
  | zero =>
    have : i = s1.length + 1 := by omega
    subst this
    exact hinv
  | succ n ih =>
    unfold lcsTableLoop
    apply ih (i + 1) _ (by omega) (by omega)
    have hrow := lcsRowLoop_spec s1 s2 h1 i hi1 (by omega) (s2.length + 1 - 1) 1 t
      (Nat.le_refl _) (by omega) hinv
    obtain ⟨hrows, hcols, hcells⟩ := hrow
    refine ⟨hrows, hcols, fun a b ha hb hf => hcells a b ha hb ?_⟩
    omega

theorem lcsInv_init (s1 s2 : List Char) :
    LcsInv s1 s2 (List.replicate (s1.length + 1) (List.replicate (s2.length + 1) 0)) 1 1 := by
  have hrow : ∀ a, a ≤ s1.length →
      (List.replicate (s1.length + 1) (List.replicate (s2.length + 1) 0)).getD a []
        = List.replicate (s2.length + 1) 0 := by
    intro a ha
    rw [List.getD_eq_getElem _ _ (by rw [List.length_replicate]; omega), List.getElem_replicate]
  refine ⟨List.length_replicate _ _, fun a ha => ?_, fun a b ha hb hf => ?_⟩
  · rw [hrow a ha, List.length_replicate]
  · have hz : idxCellAt (List.replicate (s1.length + 1) (List.replicate (s2.length + 1) 0)) a b
        = 0 := by
      unfold idxCellAt idxAt
      rw [hrow a ha, List.getD_eq_getElem _ _ (by rw [List.length_replicate]; omega),
        List.getElem_replicate]
    rw [hz]
    have hab : a = 0 ∨ b = 0 := by omega
    rcases hab with h | h
    · rw [h, List.take_zero]
      exact isLcsLength_nil_left _
    · rw [h, List.take_zero]
      exact isLcsLength_nil_right _

/-- On a completed table `backtrackAllLongestSubsequences` returns, every string it returns
is a common subsequence of the two prefixes whose length is the table cell, and the set is
not empty when a match was seen on the way or the cell is positive. -/
theorem backtrackAllLongestSubsequences_spec (t : List (List Nat)) (s1 s2 : List Char)
    (hT : ∀ a b, a ≤ s1.length → b ≤ s2.length →
      IsLcsLength (s1.take a) (s2.take b) (idxCellAt t a b)) (fuel : Nat) :
    ∀ (i j : Nat) (matchingCharsFound : Bool), i ≤ s1.length → j ≤ s2.length →
      i + j < fuel →
      ∃ S : Finset (List Char),
        backtrackAllLongestSubsequences t s1 s2 fuel i j matchingCharsFound = .ok S ∧
        (∀ w ∈ S, w.Sublist (s1.take i) ∧ w.Sublist (s2.take j) ∧
          w.length = idxCellAt t i j) ∧
        ((matchingCharsFound = true ∨ 0 < idxCellAt t i j) → S.Nonempty) := by
  induction fuel with
  | zero => intro i j _ _ _ hf; omega
  | succ fuel ih =>
    intro i j found hi hj hf
    unfold backtrackAllLongestSubsequences
    by_cases hb : i = 0 ∨ j = 0
    · rw [if_pos hb]
      have hz : idxCellAt t i j = 0 := by
        rcases hb with h | h
        · subst h
          exact (hT 0 j hi hj).unique_length (by rw [List.take_zero]; exact isLcsLength_nil_left _)
        · subst h
          exact (hT i 0 hi hj).unique_length (by rw [List.take_zero]; exact isLcsLength_nil_right _)
      refine ⟨_, rfl, fun w hw => ?_, fun hne => ?_⟩
      · cases found
        · simp at hw
        · have hw' : w = [] := by simpa using hw
          subst hw'
          exact ⟨List.nil_sublist _, List.nil_sublist _, by rw [hz]; rfl⟩
      · rcases hne with h | h
        · rw [h]
          simp
        · omega
    · rw [if_neg hb]
      have hi1 : 1 ≤ i := by omega
      have hj1 : 1 ≤ j := by omega
      have hti : s1.take i = s1.take (i - 1) ++ [charAt s1 (i - 1)] := by
        have := take_succ_charAt s1 (i - 1) (by omega)
        rwa [show i - 1 + 1 = i by omega] at this
      have htj : s2.take j = s2.take (j - 1) ++ [charAt s2 (j - 1)] := by
        have := take_succ_charAt s2 (j - 1) (by omega)
        rwa [show j - 1 + 1 = j by omega] at this
      by_cases hc : charAt s1 (i - 1) = charAt s2 (j - 1)
      · rw [if_pos hc]
        obtain ⟨S, hS, hmem, hne⟩ := ih (i - 1) (j - 1) true (by omega) (by omega) (by omega)
        rw [hS]
        have hcell : idxCellAt t i j = idxCellAt t (i - 1) (j - 1) + 1 := by
          apply (hT i j hi hj).unique_length
          have := (hT (i - 1) (j - 1) (by omega) (by omega)).concat_eq (charAt s1 (i - 1))
          rw [hti, htj, ← hc]
          exact this
        refine ⟨_, rfl, fun w hw => ?_, fun _ => Finset.image_nonempty.2 (hne (Or.inl rfl))⟩
        obtain ⟨p, hp, rfl⟩ := Finset.mem_image.1 hw
        obtain ⟨hp1, hp2, hp3⟩ := hmem p hp
        refine ⟨?_, ?_, ?_⟩
        · rw [hti]
          exact hp1.append (List.Sublist.refl _)
        · rw [htj, ← hc]
          exact hp2.append (List.Sublist.refl _)
        · rw [List.length_append, hp3, hcell]
          rfl
      · rw [if_neg hc]
        have hcell : idxCellAt t i j
            = max (idxCellAt t i (j - 1)) (idxCellAt t (i - 1) j) := by
          apply (hT i j hi hj).unique_length
          rw [hti, htj]
          apply IsLcsLength.concat_ne hc
          · rw [← hti]
            exact hT i (j - 1) hi (by omega)
          · rw [← htj]
            exact hT (i - 1) j (by omega) hj
        have hsub1 : ∀ w : List Char, w.Sublist (s2.take (j - 1)) → w.Sublist (s2.take j) := by
          intro w hw
          rw [htj]
          exact hw.trans (List.sublist_append_left _ _)
        have hsub2 : ∀ w : List Char, w.Sublist (s1.take (i - 1)) → w.Sublist (s1.take i) := by
          intro w hw
          rw [hti]
          exact hw.trans (List.sublist_append_left _ _)
        obtain ⟨S₁, hS₁, hmem₁, hne₁⟩ := ih i (j - 1) found hi (by omega) (by omega)
        obtain ⟨S₂, hS₂, hmem₂, hne₂⟩ := ih (i - 1) j found (by omega) hj (by omega)
        by_cases hAB : idxCellAt t i (j - 1) ≥ idxCellAt t (i - 1) j
        · rw [if_pos hAB, hS₁]
          have hmax : idxCellAt t i j = idxCellAt t i (j - 1) := by
            rw [hcell, Nat.max_eq_left hAB]
          have hm₁ : ∀ w ∈ S₁, w.Sublist (s1.take i) ∧ w.Sublist (s2.take j) ∧
              w.length = idxCellAt t i j := by
            intro w hw
            obtain ⟨a, b, c⟩ := hmem₁ w hw
            exact ⟨a, hsub1 w b, by rw [c, hmax]⟩
          have hn₁ : (found = true ∨ 0 < idxCellAt t i j) → S₁.Nonempty := by
            intro h
            apply hne₁
            rw [← hmax]
            exact h
          by_cases hBA : idxCellAt t (i - 1) j ≥ idxCellAt t i (j - 1)
          · simp only [bind, Except.bind]
            rw [if_pos hBA, hS₂]
            have hmax' : idxCellAt t i j = idxCellAt t (i - 1) j := by
              rw [hcell, Nat.max_eq_right hBA]
            refine ⟨_, rfl, fun w hw => ?_, fun h => ?_⟩
            · rcases Finset.mem_union.1 hw with h | h
              · exact hm₁ w h
              · obtain ⟨a, b, c⟩ := hmem₂ w h
                exact ⟨hsub2 w a, b, by rw [c, hmax']⟩
            · obtain ⟨w, hw⟩ := hn₁ h
              exact ⟨w, Finset.mem_union.2 (Or.inl hw)⟩
          · simp only [bind, Except.bind]
            rw [if_neg hBA]
            exact ⟨_, rfl, hm₁, hn₁⟩
        · rw [if_neg hAB]
          have hBA : idxCellAt t (i - 1) j ≥ idxCellAt t i (j - 1) := by omega
          simp only [bind, Except.bind]
          rw [if_pos hBA, hS₂]
          have hmax' : idxCellAt t i j = idxCellAt t (i - 1) j := by
            rw [hcell, Nat.max_eq_right hBA]
          refine ⟨_, rfl, fun w hw => ?_, fun h => ?_⟩
          · rcases Finset.mem_union.1 hw with h | h
            · simp at h
            · obtain ⟨a, b, c⟩ := hmem₂ w h
              exact ⟨hsub2 w a, b, by rw [c, hmax']⟩
          · obtain ⟨w, hw⟩ := hne₂ (by rw [← hmax']; exact h)
            exact ⟨w, Finset.mem_union.2 (Or.inr hw)⟩

/-! ## Lemmas on edit scripts and approximate string matching -/

theorem EditScript.rfl_script (s : List Char) : EditScript s s 0 := by
  induction s with
  | nil => exact EditScript.done
  | cons x s ih => exact EditScript.keep x ih

theorem EditScript.symm_script {s u : List Char} {n : Nat} (h : EditScript s u n) :
    EditScript u s n := by
  induction h with
  | done => exact EditScript.done
  | keep x _ ih => exact EditScript.keep x ih
  | substitute x y _ ih => exact EditScript.substitute y x ih
  | delete x _ ih => exact EditScript.insert x ih
  | insert y _ ih => exact EditScript.delete y ih

theorem EditScript.eq_of_cost_zero {s u : List Char} {n : Nat} (h : EditScript s u n)
    (hn : n = 0) : s = u := by
  induction h with
  | done => rfl
  | keep x _ ih => rw [ih hn]
  | substitute x y _ _ => omega
  | delete x _ _ => omega
  | insert y _ _ => omega

/-- Scripts differ from the length difference by at most their cost. -/
theorem EditScript.length_le {s u : List Char} {n : Nat} (h : EditScript s u n) :
    s.length ≤ u.length + n ∧ u.length ≤ s.length + n := by
  induction h with
  | done => exact ⟨Nat.le_refl _, Nat.le_refl _⟩
  | keep x _ ih => simp only [List.length_cons]; omega
  | substitute x y _ ih => simp only [List.length_cons]; omega
  | delete x _ ih => simp only [List.length_cons]; omega
  | insert y _ ih => simp only [List.length_cons]; omega

theorem EditScript.append_script {a b c d : List Char} {n m : Nat} (h : EditScript a b n)
    (h' : EditScript c d m) : EditScript (a ++ c) (b ++ d) (n + m) := by
  induction h with
  | done => rw [Nat.zero_add]; exact h'
  | keep x _ ih => exact EditScript.keep x ih
  | substitute x y _ ih =>
    rw [Nat.add_right_comm]
    exact EditScript.substitute x y ih
  | delete x _ ih =>
    rw [Nat.add_right_comm]
    exact EditScript.delete x ih
  | insert y _ ih =>
    rw [Nat.add_right_comm]
    exact EditScript.insert y ih

theorem EditScript.delete_all (s : List Char) : EditScript s [] s.length := by
  induction s with
  | nil => exact EditScript.done
  | cons x s ih => exact EditScript.delete x ih

theorem EditScript.insert_all (u : List Char) : EditScript [] u u.length := by
  induction u with
  | nil => exact EditScript.done
  | cons y u ih => exact EditScript.insert y ih

/-- A script for two strings gives a script of the same cost for the reversed strings. -/
theorem EditScript.reverse_script {s u : List Char} {n : Nat} (h : EditScript s u n) :
    EditScript s.reverse u.reverse n := by
  induction h with
  | done => exact EditScript.done
  | keep x _ ih =>
    rw [List.reverse_cons, List.reverse_cons]
    exact ih.append_script (EditScript.keep x EditScript.done)
  | substitute x y _ ih =>
    rw [List.reverse_cons, List.reverse_cons]
    exact ih.append_script (EditScript.substitute x y EditScript.done)
  | delete x _ ih =>
    rw [List.reverse_cons]
    have := ih.append_script (EditScript.delete x EditScript.done)
    rwa [List.append_nil] at this
  | insert y _ ih =>
    rw [List.reverse_cons]
    have := ih.append_script (EditScript.insert y EditScript.done)
    rwa [List.append_nil] at this

theorem IsEditDistance.unique_distance {s u : List Char} {d d' : Nat} (h : IsEditDistance s u d)
    (h' : IsEditDistance s u d') : d = d' := by
  have := h.2 d' h'.1
  have := h'.2 d h.1
  omega

theorem IsEditDistance.le_length {s u : List Char} {d : Nat} (h : IsEditDistance s u d) :
    d ≤ s.length + u.length := by
  have h₁ := (EditScript.delete_all s).append_script (EditScript.insert_all u)
  rw [List.append_nil, List.nil_append] at h₁
  exact h.2 _ h₁

theorem isEditDistance_nil_left (u : List Char) : IsEditDistance [] u u.length :=
  ⟨EditScript.insert_all u, fun n h => by have := h.length_le.2; simpa using this⟩

theorem isEditDistance_nil_right (s : List Char) : IsEditDistance s [] s.length :=
  ⟨EditScript.delete_all s, fun n h => by have := h.length_le.1; simpa using this⟩

theorem IsEditDistance.reverse {s u : List Char} {d : Nat} (h : IsEditDistance s u d) :
    IsEditDistance s.reverse u.reverse d := by
  refine ⟨h.1.reverse_script, fun n hn => h.2 n ?_⟩
  have := hn.reverse_script
  rwa [List.reverse_reverse, List.reverse_reverse] at this

theorem IsEditDistance.symm {s u : List Char} {d : Nat} (h : IsEditDistance s u d) :
    IsEditDistance u s d :=
  ⟨h.1.symm_script, fun n hn => h.2 n hn.symm_script⟩

theorem IsEditDistance.eq_zero_iff {s u : List Char} {d : Nat} (h : IsEditDistance s u d) :
    d = 0 ↔ s = u := by
  constructor
  · intro hd
    exact h.1.eq_of_cost_zero hd
  · intro hs
    subst hs
    have := h.2 0 (EditScript.rfl_script s)
    omega

/-- The recurrence of the edit distance at the first characters: the least of replacing
(or keeping) both, inserting the second and deleting the first. -/
theorem IsEditDistance.cons_cons {s u : List Char} {d₁ d₂ d₃ : Nat} (x y : Char)
    (h₁ : IsEditDistance s u d₁) (h₂ : IsEditDistance (x :: s) u d₂)
    (h₃ : IsEditDistance s (y :: u) d₃) :
    IsEditDistance (x :: s) (y :: u)
      (min (d₁ + if x = y then 0 else 1) (min (d₂ + 1) (d₃ + 1))) := by
  constructor
  · have e₁ : EditScript (x :: s) (y :: u) (d₁ + if x = y then 0 else 1) := by
      by_cases hxy : x = y
      · rw [if_pos hxy, hxy]
        exact EditScript.keep y h₁.1
      · rw [if_neg hxy]
        exact EditScript.substitute x y h₁.1
    have e₂ : EditScript (x :: s) (y :: u) (d₂ + 1) := EditScript.insert y h₂.1
    have e₃ : EditScript (x :: s) (y :: u) (d₃ + 1) := EditScript.delete x h₃.1
    rcases Nat.le_total (d₁ + if x = y then 0 else 1) (min (d₂ + 1) (d₃ + 1)) with h | h
    · rw [Nat.min_eq_left h]
      exact e₁
    · rw [Nat.min_eq_right h]
      rcases Nat.le_total (d₂ + 1) (d₃ + 1) with h' | h'
      · rw [Nat.min_eq_left h']
        exact e₂
      · rw [Nat.min_eq_right h']
        exact e₃
  · intro n hn
    cases hn with
    | keep _ hs =>
      have := h₁.2 _ hs
      rw [if_pos rfl]
      exact Nat.le_trans (Nat.min_le_left _ _) (by omega)
    | substitute _ _ hs =>
      have := h₁.2 _ hs
      refine Nat.le_trans (Nat.min_le_left _ _) ?_
      split <;> omega
    | delete _ hs =>
      have := h₃.2 _ hs
      exact Nat.le_trans (Nat.min_le_right _ _) (Nat.le_trans (Nat.min_le_right _ _) (by omega))
    | insert _ hs =>
      have := h₂.2 _ hs
      exact Nat.le_trans (Nat.min_le_right _ _) (Nat.le_trans (Nat.min_le_left _ _) (by omega))

/-- Composition of edit scripts: the cost of going from `s` to `v` is at most the sum of the
costs through `u`. -/
theorem EditScript.trans_script (N : Nat) : ∀ (s u v : List Char) (n m : Nat),
    s.length + u.length + v.length < N → EditScript s u n → EditScript u v m →
    ∃ k, k ≤ n + m ∧ EditScript s v k := by
  induction N with
  | zero => intro s u v n m h; omega
  | succ N ih =>
    intro s u v n m hN A B
    cases A with
    | done => exact ⟨m, by omega, B⟩
    | @keep x s' u' _ A' =>
      cases B with
      | @keep _ _ v' _ B' =>
        obtain ⟨k, hk, C⟩ := ih s' u' v' _ _ (by simp only [List.length_cons] at hN; omega) A' B'
        exact ⟨k, hk, EditScript.keep x C⟩
      | @substitute _ z _ v' m' B' =>
        obtain ⟨k, hk, C⟩ := ih s' u' v' _ _ (by simp only [List.length_cons] at hN; omega) A' B'
        exact ⟨k + 1, by omega, EditScript.substitute x z C⟩
      | @delete _ _ _ m' B' =>
        obtain ⟨k, hk, C⟩ := ih s' u' v _ _ (by simp only [List.length_cons] at hN; omega) A' B'
        exact ⟨k + 1, by omega, EditScript.delete x C⟩
      | @insert z _ v' m' B' =>
        obtain ⟨k, hk, C⟩ := ih (x :: s') (x :: u') v' _ _
          (by simp only [List.length_cons] at hN ⊢; omega) (EditScript.keep x A') B'
        exact ⟨k + 1, by omega, EditScript.insert z C⟩
    | @substitute x y s' u' n' A' =>
      cases B with
      | @keep _ _ v' _ B' =>
        obtain ⟨k, hk, C⟩ := ih s' u' v' _ _ (by simp only [List.length_cons] at hN; omega) A' B'
        exact ⟨k + 1, by omega, EditScript.substitute x y C⟩
      | @substitute _ z _ v' m' B' =>
        obtain ⟨k, hk, C⟩ := ih s' u' v' _ _ (by simp only [List.length_cons] at hN; omega) A' B'
        exact ⟨k + 1, by omega, EditScript.substitute x z C⟩
      | @delete _ _ _ m' B' =>
        obtain ⟨k, hk, C⟩ := ih s' u' v _ _ (by simp only [List.length_cons] at hN; omega) A' B'
        exact ⟨k + 1, by omega, EditScript.delete x C⟩
      | @insert z _ v' m' B' =>
        obtain ⟨k, hk, C⟩ := ih (x :: s') (y :: u') v' _ _
          (by simp only [List.length_cons] at hN ⊢; omega) (EditScript.substitute x y A') B'
        exact ⟨k + 1, by omega, EditScript.insert z C⟩
    | @delete x s' _ n' A' =>
      obtain ⟨k, hk, C⟩ := ih s' u v _ _ (by simp only [List.length_cons] at hN; omega) A' B
      exact ⟨k + 1, by omega, EditScript.delete x C⟩
    | @insert y _ u' n' A' =>
      cases B with
      | @keep _ _ v' _ B' =>
        obtain ⟨k, hk, C⟩ := ih s u' v' _ _ (by simp only [List.length_cons] at hN; omega) A' B'
        exact ⟨k + 1, by omega, EditScript.insert y C⟩
      | @substitute _ z _ v' m' B' =>
        obtain ⟨k, hk, C⟩ := ih s u' v' _ _ (by simp only [List.length_cons] at hN; omega) A' B'
        exact ⟨k + 1, by omega, EditScript.insert z C⟩
      | @delete _ _ _ m' B' =>
        obtain ⟨k, hk, C⟩ := ih s u' v _ _ (by simp only [List.length_cons] at hN; omega) A' B'
        exact ⟨k, by omega, C⟩
      | @insert z _ v' m' B' =>
        obtain ⟨k, hk, C⟩ := ih s (y :: u') v' _ _
          (by simp only [List.length_cons] at hN ⊢; omega) (EditScript.insert y A') B'
        exact ⟨k + 1, by omega, EditScript.insert z C⟩

theorem EditStep.cons_step (x : Char) {s u : List Char} (h : EditStep s u) :
    EditStep (x :: s) (x :: u) := by
  cases h with
  | substitute a b c d => exact EditStep.substitute (x :: a) b c d
  | insert a b d => exact EditStep.insert (x :: a) b d
  | delete a b c => exact EditStep.delete (x :: a) b c

theorem EditChain.cons_chain (x : Char) {s u : List Char} {n : Nat} (h : EditChain s u n) :
    EditChain (x :: s) (x :: u) n := by
  induction h with
  | refl s => exact EditChain.refl _
  | step hs _ ih => exact EditChain.step (hs.cons_step x) ih

/-- An edit script of cost `n` is carried out by `n` successive single edits. -/
theorem EditScript.to_chain {s u : List Char} {n : Nat} (h : EditScript s u n) :
    EditChain s u n := by
  induction h with
  | done => exact EditChain.refl _
  | keep x _ ih => exact ih.cons_chain x
  | @substitute x y s' u' _ _ ih =>
    exact EditChain.step (EditStep.substitute [] s' x y) (ih.cons_chain y)
  | @delete x s' u' _ _ ih =>
    exact EditChain.step (EditStep.delete [] s' x) ih
  | @insert y s' u' _ _ ih =>
    exact EditChain.step (EditStep.insert [] s' y) (ih.cons_chain y)

theorem EditStep.script_of_step {s u : List Char} (h : EditStep s u) : EditScript s u 1 := by
  cases h with
  | substitute a b x y =>
    have := (EditScript.rfl_script a).append_script
      (EditScript.substitute x y (EditScript.rfl_script b))
    simpa using this
  | insert a b y =>
    have := (EditScript.rfl_script a).append_script
      (EditScript.insert y (EditScript.rfl_script b))
    simpa using this
  | delete a b x =>
    have := (EditScript.rfl_script a).append_script
      (EditScript.delete x (EditScript.rfl_script b))
    simpa using this

/-- Successive single edits are never cheaper than the best edit script. -/
theorem EditChain.script_of_chain {s u : List Char} {n : Nat} (h : EditChain s u n) :
    ∃ k, k ≤ n ∧ EditScript s u k := by
  induction h with
  | refl s => exact ⟨0, Nat.le_refl _, EditScript.rfl_script s⟩
  | @step s' u' v' n' hs _ ih =>
    obtain ⟨k, hk, C⟩ := ih
    obtain ⟨k', hk', C'⟩ := EditScript.trans_script _ s' u' v' 1 k (Nat.lt_succ_self _)
      hs.script_of_step C
    exact ⟨k', by omega, C'⟩

/-- The least cost of an edit script is the least number of single edits. -/
theorem IsEditDistance.chain {s u : List Char} {d : Nat} (h : IsEditDistance s u d) :
    EditChain s u d ∧ ∀ n, EditChain s u n → d ≤ n := by
  refine ⟨h.1.to_chain, fun n hn => ?_⟩
  obtain ⟨k, hk, C⟩ := hn.script_of_chain
  have := h.2 k C
  omega

theorem addCost_of_lt (t : Nat) (c : Nat) (h : t + c < 2 ^ indexBits) :
    addCost t (c : Int) = t + c := by
  unfold addCost
  rw [← Int.natCast_add, Int.emod_eq_of_lt (Int.natCast_nonneg _)
    (by exact_mod_cast h), Int.toNat_ofNat]

theorem chooseCost_three (a b c cell : Nat) :
    chooseCost [a, b, c] cell = min (min (min cell a) b) c := by
  have hstep : ∀ cur x : Nat, (if x < cur then x else cur) = min cur x := by
    intro cur x
    by_cases h : x < cur
    · rw [if_pos h, Nat.min_eq_right (Nat.le_of_lt h)]
    · rw [if_neg h, Nat.min_eq_left (Nat.le_of_not_lt h)]
  unfold chooseCost
  simp only [List.foldl_cons, List.foldl_nil, hstep]

theorem reverse_take_succ (s : List Char) (k : Nat) (hk : k < s.length) :
    (s.take (k + 1)).reverse = charAt s k :: (s.take k).reverse := by
  rw [take_succ_charAt s k hk, List.reverse_append]
  rfl

/-- The inner loop of `approximativeStringMatching` keeps the invariant and completes row
`i`. -/
theorem matchRowLoop_spec (s1 s2 : List Char)
    (hlen : s1.length + s2.length < 2 ^ indexBits - 1) (i : Nat)
    (hi1 : 1 ≤ i) (hi2 : i ≤ s1.length) (n j : Nat) (t : List (List Nat)) (hj1 : 1 ≤ j)
    (hjn : j + n = s2.length + 1) (hinv : MatchInv s1 s2 t i j) :
    MatchInv s1 s2 (matchRowLoop MatchConfigGenericImpl s1 s2 i n j t) i (s2.length + 1) := by
  induction n generalizing j t with
  | zero =>
    have : j = s2.length + 1 := by omega
    subst this
    exact hinv
  | succ n ih =>
    unfold matchRowLoop
    simp only []
    apply ih (j + 1) _ (by omega) (by omega)
    obtain ⟨hrows, hcols, hcells⟩ := hinv
    have hi : i < t.length := by omega
    have hj : j < (t.getD i []).length := by rw [hcols i hi2]; omega
    refine ⟨by rw [length_setCell, hrows], fun a ha => ?_, fun a b ha hb => ?_⟩
    · rw [length_getD_setCell t i j a _ hi, hcols a ha]
    · rw [idxCellAt_setCell t i j a b _ hi hj]
      by_cases hab : a = i ∧ b = j
      · rw [if_pos hab, hab.1, hab.2]
        refine ⟨fun _ => ?_, fun h => absurd (Or.inr (Or.inr (Or.inr ⟨rfl, by omega⟩))) h⟩
        have hti : (s1.take i).reverse = charAt s1 (i - 1) :: (s1.take (i - 1)).reverse := by
          have := reverse_take_succ s1 (i - 1) (by omega)
          rwa [show i - 1 + 1 = i by omega] at this
        have htj : (s2.take j).reverse = charAt s2 (j - 1) :: (s2.take (j - 1)).reverse := by
          have := reverse_take_succ s2 (j - 1) (by omega)
          rwa [show j - 1 + 1 = j by omega] at this
        have hd₁ := (hcells (i - 1) (j - 1) (by omega) (by omega)).1 (by omega)
        have hd₂ := (hcells i (j - 1) hi2 (by omega)).1 (by omega)
        have hd₃ := (hcells (i - 1) j (by omega) (by omega)).1 (by omega)
        have hcur := (hcells i j hi2 (by omega)).2 (by omega)
        have hb₁ := hd₁.le_length
        have hb₂ := hd₂.le_length
        have hb₃ := hd₃.le_length
        simp only [List.length_reverse, List.length_take] at hb₁ hb₂ hb₃
        have hrec := IsEditDistance.cons_cons (charAt s1 (i - 1)) (charAt s2 (j - 1)) hd₁
          (by rw [← hti]; exact hd₂) (by rw [← htj]; exact hd₃)
        rw [← hti, ← htj] at hrec
        have hmatch : addCost (idxCellAt t (i - 1) (j - 1))
            (MatchConfigGenericImpl.matchCost (charAt s1 (i - 1)) (charAt s2 (j - 1)))
            = idxCellAt t (i - 1) (j - 1)
              + if charAt s1 (i - 1) = charAt s2 (j - 1) then 0 else 1 := by
          unfold MatchConfigGenericImpl.matchCost
          by_cases hc : charAt s1 (i - 1) = charAt s2 (j - 1)
          · rw [if_pos hc, if_pos hc]
            exact addCost_of_lt _ 0 (by omega)
          · rw [if_neg hc, if_neg hc]
            exact addCost_of_lt _ 1 (by omega)
        have hins : addCost (idxCellAt t i (j - 1)) 1 = idxCellAt t i (j - 1) + 1 :=
          addCost_of_lt _ 1 (by omega)
        have hdel : addCost (idxCellAt t (i - 1) j) 1 = idxCellAt t (i - 1) j + 1 :=
          addCost_of_lt _ 1 (by omega)
        have hval : chooseCost
            [addCost (idxCellAt t (i - 1) (j - 1))
                (MatchConfigGenericImpl.matchCost (charAt s1 (i - 1)) (charAt s2 (j - 1))),
              addCost (idxCellAt t i (j - 1)) 1, addCost (idxCellAt t (i - 1) j) 1]
            (idxCellAt t i j)
            = min (idxCellAt t (i - 1) (j - 1)
                + if charAt s1 (i - 1) = charAt s2 (j - 1) then 0 else 1)
              (min (idxCellAt t i (j - 1) + 1) (idxCellAt t (i - 1) j + 1)) := by
          rw [chooseCost_three, hmatch, hins, hdel, hcur]
          have : idxCellAt t (i - 1) (j - 1)
              + (if charAt s1 (i - 1) = charAt s2 (j - 1) then 0 else 1) ≤ 2 ^ indexBits - 1 := by
            split <;> omega
          omega
        rw [← hval] at hrec
        exact hrec
      · rw [if_neg hab]
        have := hcells a b ha hb
        refine ⟨fun hf => this.1 ?_, fun hf => this.2 ?_⟩
        · omega
        · omega

/-- The main loop of `approximativeStringMatching` keeps the invariant and completes the
table. -/
theorem matchTableLoop_spec (s1 s2 : List Char)
    (hlen : s1.length + s2.length < 2 ^ indexBits - 1) (n i : Nat) (t : List (List Nat))
    (hi1 : 1 ≤ i) (hin : i + n = s1.length + 1) (hinv : MatchInv s1 s2 t i 1) :
    MatchInv s1 s2 (matchTableLoop MatchConfigGenericImpl s1 s2 (s2.length + 1) n i t)
      (s1.length + 1) 1 := by
  induction n generalizing i t with
  | zero =>
    have : i = s1.length + 1 := by omega
    subst this
    exact hinv
  | succ n ih =>
    unfold matchTableLoop
    apply ih (i + 1) _ (by omega) (by omega)
    have hrow := matchRowLoop_spec s1 s2 hlen i hi1 (by omega) (s2.length + 1 - 1) 1 t
      (Nat.le_refl _) (by omega) hinv
    obtain ⟨hrows, hcols, hcells⟩ := hrow
    refine ⟨hrows, hcols, fun a b ha hb => ?_⟩
    have := hcells a b ha hb
    refine ⟨fun hf => this.1 ?_, fun hf => this.2 ?_⟩
    · omega
    · omega

theorem matchInv_createTable (s1 s2 : List Char) :
    MatchInv s1 s2 (MatchConfigGenericImpl.createTable (s1.length + 1) (s2.length + 1)) 1 1 := by
  have hrow : ∀ a, a ≤ s1.length →
      (MatchConfigGenericImpl.createTable (s1.length + 1) (s2.length + 1)).getD a []
        = if a = 0 then List.range (s2.length + 1)
          else (List.replicate (s2.length + 1) (2 ^ indexBits - 1)).set 0 a := by
    intro a ha
    unfold MatchConfigGenericImpl.createTable
    rw [List.getD_eq_getElem _ _ (by rw [List.length_map, List.length_range]; omega),
      List.getElem_map, List.getElem_range]
  refine ⟨by unfold MatchConfigGenericImpl.createTable; rw [List.length_map, List.length_range],
    fun a ha => ?_, fun a b ha hb => ?_⟩
  · rw [hrow a ha]
    split
    · rw [List.length_range]
    · rw [List.length_set, List.length_replicate]
  · have hcell : idxCellAt
          (MatchConfigGenericImpl.createTable (s1.length + 1) (s2.length + 1)) a b
        = if a = 0 then b else if b = 0 then a else 2 ^ indexBits - 1 := by
      unfold idxCellAt idxAt
      rw [hrow a ha]
      by_cases ha0 : a = 0
      · rw [if_pos ha0, if_pos ha0,
          List.getD_eq_getElem _ _ (by rw [List.length_range]; omega), List.getElem_range]
      · rw [if_neg ha0, if_neg ha0, List.getD_eq_getElem?_getD, List.getElem?_set]
        by_cases hb0 : b = 0
        · rw [if_pos hb0.symm, if_pos hb0, if_pos (by rw [List.length_replicate]; omega)]
          rfl
        · rw [if_neg (Ne.symm hb0), if_neg hb0,
            List.getElem?_eq_getElem (by rw [List.length_replicate]; omega),
            List.getElem_replicate]
          rfl
    rw [hcell]
    constructor
    · intro hf
      by_cases ha0 : a = 0
      · rw [if_pos ha0, ha0, List.take_zero, List.reverse_nil]
        have := isEditDistance_nil_left (s2.take b).reverse
        rwa [List.length_reverse, List.length_take, Nat.min_eq_left hb] at this
      · rw [if_neg ha0]
        have hb0 : b = 0 := by omega
        rw [if_pos hb0, hb0, List.take_zero, List.reverse_nil]
        have := isEditDistance_nil_right (s1.take a).reverse
        rwa [List.length_reverse, List.length_take, Nat.min_eq_left ha] at this
    · intro hf
      rw [if_neg (by omega), if_neg (by omega)]

theorem getResult_eq (t : List (List Nat)) (r c : Nat) (hr : t.length = r + 1)
    (hc : (t.getD r []).length = c + 1) :
    MatchConfigGenericImpl.getResult t = .ok (idxCellAt t r c) := by
  have h1 : t.getLast? = some (t.getD r []) := by
    rw [List.getLast?_eq_getElem?, hr, Nat.add_sub_cancel,
      List.getElem?_eq_getElem (by omega), List.getD_eq_getElem _ _ (by omega)]
  have h2 : (t.getD r []).getLast? = some (idxCellAt t r c) := by
    rw [List.getLast?_eq_getElem?, hc, Nat.add_sub_cancel,
      List.getElem?_eq_getElem (by omega)]
    unfold idxCellAt idxAt
    rw [List.getD_eq_getElem (t.getD r []) 0 (by omega)]
  unfold MatchConfigGenericImpl.getResult
  rw [h1]
  simp only []
  rw [h2]

/-- With `MatchConfigGenericImpl` the function `approximativeStringMatching` returns the
least cost of an edit script from `s1` to `s2`. -/
theorem approximativeStringMatching_isEditDistance (s1 s2 : List Char)
    (hlen : s1.length + s2.length < 2 ^ indexBits - 1) :
    ∃ d, approximativeStringMatching s1 s2 MatchConfigGenericImpl = .ok d ∧
      IsEditDistance s1 s2 d := by
  have hm1 : (s1.length + 1) % 2 ^ indexBits = s1.length + 1 := Nat.mod_eq_of_lt (by omega)
  have hm2 : (s2.length + 1) % 2 ^ indexBits = s2.length + 1 := Nat.mod_eq_of_lt (by omega)
  obtain ⟨hrows, hcols, hcells⟩ := matchTableLoop_spec s1 s2 hlen s1.length 1 _
    (Nat.le_refl _) (by omega) (matchInv_createTable s1 s2)
  have hfin := (hcells s1.length s2.length (Nat.le_refl _) (Nat.le_refl _)).1 (by omega)
  rw [List.take_length, List.take_length] at hfin
  have hd := hfin.reverse
  rw [List.reverse_reverse, List.reverse_reverse] at hd
  refine ⟨_, ?_, hd⟩
  unfold approximativeStringMatching
  rw [hm1, hm2]
  simp only [Nat.add_sub_cancel]
  exact getResult_eq _ s1.length s2.length hrows (hcols s1.length (Nat.le_refl _))

/-- The least cost of an edit script is the distance `levenshtein` of Mathlib with its
default costs. -/
theorem isEditDistance_levenshtein (s u : List Char) :
    IsEditDistance s u (levenshtein Levenshtein.defaultCost s u) := by
  induction s generalizing u with
  | nil =>
    induction u with
    | nil =>
      rw [levenshtein_nil_nil]
      exact isEditDistance_nil_left []
    | cons y u ih =>
      rw [levenshtein_nil_cons]
      have h := isEditDistance_nil_left (y :: u)
      have h' := ih.unique_distance (isEditDistance_nil_left u)
      rw [h']
      simpa [Levenshtein.defaultCost, Nat.add_comm] using h
  | cons x s ihs =>
    induction u with
    | nil =>
      rw [levenshtein_cons_nil]
      have h := isEditDistance_nil_right (x :: s)
      have h' := (ihs []).unique_distance (isEditDistance_nil_right s)
      rw [h']
      simpa [Levenshtein.defaultCost, Nat.add_comm] using h
    | cons y u ihu =>
      rw [levenshtein_cons_cons]
      have h := IsEditDistance.cons_cons x y (ihs u) ihu (ihs (y :: u))
      have e : min (Levenshtein.defaultCost.delete x
              + levenshtein Levenshtein.defaultCost s (y :: u))
            (min (Levenshtein.defaultCost.insert y
                + levenshtein Levenshtein.defaultCost (x :: s) u)
              (Levenshtein.defaultCost.substitute x y
                + levenshtein Levenshtein.defaultCost s u))
          = min (levenshtein Levenshtein.defaultCost s u + if x = y then 0 else 1)
            (min (levenshtein Levenshtein.defaultCost (x :: s) u + 1)
              (levenshtein Levenshtein.defaultCost s (y :: u) + 1)) := by
        simp only [Levenshtein.defaultCost]
        omega
      rw [e]
      exact h

/-! ## Lemmas on `Heap::insert` -/

/-- On a `Heap` object whose reference is bound to its own storage (an object made by a
constructor, not by copy) and whose elements satisfy the heap invariant, `insert(e)`
returns; afterwards the reference is still bound to the own storage, the heap invariant
holds again, `size()` has grown by exactly one and the multiset of elements is the previous
multiset plus `e`. -/
theorem Heap.insert_own_storage (c : Comparer) (data : List Int) (e : Int)
    (hinv : heapInvariant c (Heap.base ⟨data, none⟩)) :
    ∃ h', Heap.insert c ⟨data, none⟩ e = .ok h' ∧
      h'.referenced = none ∧
      heapInvariant c h'.base ∧
      h'.base.size = (Heap.base ⟨data, none⟩).size + 1 ∧
      (↑h'.base.logical : Multiset Int)
        = e ::ₘ (↑(Heap.base ⟨data, none⟩).logical : Multiset Int) := by
  have hbase : ∀ l : List Int, Heap.base ⟨l, none⟩ = ⟨l, none⟩ := fun _ => rfl
  rw [hbase] at hinv ⊢
  have hsize : (HeapBase.mk (data ++ [e]) none).size = data.length + 1 := by
    simp [HeapBase.size]
  have hexc : heapInvariantExcept c ⟨data ++ [e], none⟩ data.length := by
    constructor
    · intro i hi0 hi hne
      rw [hsize] at hi
      have hlt : i < data.length := by omega
      have := hinv i hi0 hlt
      simp only [HeapBase.get] at this ⊢
      rw [List.getD_append _ _ _ _ hlt, List.getD_append _ _ _ _ (by omega)]
      exact this
    · intro i hi0 hi hq hk0
      rw [hsize] at hi
      omega
  obtain ⟨b, hrun, hr, hheap⟩ :=
    bubbleUpLoop_spec c (data.length + 1) ⟨data ++ [e], none⟩ data.length
      (by rw [hsize]; simp) (by rw [hsize]; omega) (by omega) hexc
  have hs' : b.size = data.length + 1 := by rw [hr.size_eq, hsize]
  have hlen' : b.heapData.length = data.length + 1 := by rw [hr.2.1]; simp
  have hb : (HeapBase.mk b.heapData none) = b := by
    have h1 : b.sorterCount = none := hr.1
    cases b
    simp only [HeapBase.mk.injEq, true_and]
    exact h1.symm
  refine ⟨⟨b.heapData, none⟩, ?_, rfl, ?_, ?_, ?_⟩
  · unfold Heap.insert
    simp only []
    rw [hbase, HeapBase.getLastIndex_of_pos _ (by rw [hsize]; omega), hsize]
    simp only [bind, Except.bind, Nat.add_sub_cancel]
    unfold bubbleUp
    rw [hsize, if_pos (by omega), hrun]
    rfl
  · rw [hbase, hb]
    exact hheap
  · rw [hbase, hb, hs']
    rfl
  · rw [hbase, hb]
    have hlog : b.logical = b.heapData := by
      unfold HeapBase.logical
      rw [hs', ← hlen', List.take_length]
    have hlog0 : (HeapBase.mk data none).logical = data := by
      simp [HeapBase.logical, HeapBase.size]
    rw [hlog, hlog0, Multiset.cons_coe, Multiset.coe_eq_coe]
    refine hr.perm.trans ?_
    exact List.perm_append_singleton e data

/-- The lemma `Heap.insert_own_storage` at a concrete heap: `insert(1)` into the MinHeap
holding `[2,4,6,8,7]`. -/
theorem Heap.insert_own_storage_at_2_4_6_8_7 :
    heapInvariant .less (Heap.base ⟨[2, 4, 6, 8, 7], none⟩) ∧
    Heap.insert .less ⟨[2, 4, 6, 8, 7], none⟩ 1 = .ok ⟨[1, 4, 2, 8, 7, 6], none⟩ ∧
    ∃ h', Heap.insert .less ⟨[2, 4, 6, 8, 7], none⟩ 1 = .ok h' ∧
      h'.referenced = none ∧
      heapInvariant .less h'.base ∧
      h'.base.size = (Heap.base ⟨[2, 4, 6, 8, 7], none⟩).size + 1 ∧
      (↑h'.base.logical : Multiset Int)
        = 1 ::ₘ (↑(Heap.base ⟨[2, 4, 6, 8, 7], none⟩).logical : Multiset Int) :=
  ⟨by decide, by decide, Heap.insert_own_storage .less [2, 4, 6, 8, 7] 1 (by decide)⟩

/-! ## The claims -/

/-- C1. Evaluation of the code at a failing input: starting from the empty MinHeap, the
calls `insert(0..4)` followed by one `extractTop` leave the vector `[1,4,2,3]`, where
index 3 holds `3` under its parent `4` at index 1, so the heap invariant does not hold
after this operation sequence. -/
theorem heapInvariant_lost_after_extractTop :
    runOps .less Heap.empty
        [.insert 0, .insert 1, .insert 2, .insert 3, .insert 4, .extractTop]
      = .ok ⟨[1, 4, 2, 3], none⟩ ∧
    ¬ heapInvariant .less ⟨[1, 4, 2, 3], none⟩ := by
  decide

/-- C2. Evaluation of the code at a failing input: the MinHeap built from
`{2,8,7,4,1,6}` returns `1,2,6,4,7,8` over six `extractTop` calls, which is not
non-decreasing (the MaxHeap built from the same vector does return `8,7,6,4,2,1`). -/
theorem extractTop_order_2_8_7_4_1_6 :
    (Heap.ofVector .less [2, 8, 7, 4, 1, 6] >>= extractAll .less 6) = .ok [1, 2, 6, 4, 7, 8] ∧
    ¬ nonDecreasing [1, 2, 6, 4, 7, 8] ∧
    (Heap.ofVector .greater [2, 8, 7, 4, 1, 6] >>= extractAll .greater 6)
      = .ok [8, 7, 6, 4, 2, 1] := by
  decide

/-- C3. Evaluation of the code at a failing input: `heapsort` turns `{0,1,2,3,4}` into
`{0,1,3,2,4}`, which is not non-decreasing. -/
theorem heapsort_0_1_2_3_4 :
    heapsort [0, 1, 2, 3, 4] = .ok [0, 1, 3, 2, 4] ∧ ¬ nonDecreasing [0, 1, 3, 2, 4] := by
  decide

/-- C4. Evaluation of the code at a failing input: for the text "abab" the suffix array
is `[0,2,3,1]`, and the suffix at `suffixArray[0] = 0` ("abab") is not smaller than or
equal to the suffix at `suffixArray[1] = 2` ("ab"). -/
theorem suffixArray_abab :
    (SuffixArray.build (codes "abab")).map (·.suffixArray) = .ok [0, 2, 3, 1] ∧
    ¬ suffixFrom (codes "abab") 0 ≤ suffixFrom (codes "abab") 2 := by
  decide

/-- C5. Evaluation of the code at a failing input: for the text "abab", `lcp(0, 2)`
returns `4`, although only two characters follow position 2; the longest common prefix
of "abab" and "ab" has length 2. -/
theorem lcp_abab_0_2 :
    (SuffixArray.build (codes "abab") >>= fun sa => sa.lcp 0 2) = .ok 4 ∧
    (codes "abab").length < 2 + 4 ∧
    (suffixFrom (codes "abab") 0).take 2 = (suffixFrom (codes "abab") 2).take 2 ∧
    (suffixFrom (codes "abab") 0).take 3 ≠ (suffixFrom (codes "abab") 2).take 3 := by
  decide

/-- C6, as stated, fails: on "bOBocEl" the search for "bOB" returns `3 < 7`, and the text
read at position 3 is "ocE", not "bOB". -/
theorem searchSubstring_result_not_text_position :
    ¬ ∀ (text substr : List Nat) (sa : SuffixArray) (r : Nat),
      SuffixArray.build text = .ok sa → substr ≠ [] →
      sa.searchSubstring substr = .ok r → r < text.length →
      (text.drop r).take substr.length = substr := by
  intro H
  have h := H (codes "bOBocEl") (codes "bOB")
    { text := [98, 79, 66, 111, 99, 69, 108]
      suffixArray := [2, 5, 1, 0, 4, 6, 3]
      prefixOrderMatrix := [[98, 79, 66, 111, 99, 69, 108], [3, 2, 0, 6, 4, 1, 5],
        [3, 2, 0, 6, 4, 1, 5], [3, 2, 0, 6, 4, 1, 5]] }
    3 (by decide) (by decide) (by decide) (by decide)
  revert h
  decide

/-- C6, amended. For every text of length N and every substr, if `searchSubstring(substr)`
on the suffix array built from the text returns `r < N`, then `r` is an index into the
suffix array, and `suffixArray[r]` is the starting text position of an occurrence:
`text[suffixArray[r] .. suffixArray[r] + |substr|) = substr`. -/
theorem searchSubstring_result_indexes_occurrence (text substr : List Nat) (sa : SuffixArray)
    (r : Nat) (hb : SuffixArray.build text = .ok sa)
    (hs : sa.searchSubstring substr = .ok r) (hr : r < text.length) :
    ∃ p, sa.suffixArray[r]? = some p ∧ p < text.length ∧
      (text.drop p).take substr.length = substr := by
  obtain ⟨htext, hlen⟩ := SuffixArray.build_shape text sa hb
  unfold SuffixArray.searchSubstring at hs
  split at hs
  · cases hs
  obtain ⟨p, hp, heq⟩ := binSearch_hit _ _ _ _ _ _ r hs (by rw [hlen]; exact hr)
  obtain ⟨hlt, hocc⟩ := sa.isLexEqual_true p substr heq
  rw [htext] at hlt hocc
  exact ⟨p, hp, hlt, hocc⟩

/-- C6, amended, at a concrete input: on "bOBocEl" the search for "bOB" returns 3, and
`suffixArray[3] = 0` is where "bOB" starts. -/
theorem searchSubstring_result_indexes_occurrence_witness :
    SuffixArray.build (codes "bOBocEl") = .ok
      { text := [98, 79, 66, 111, 99, 69, 108]
        suffixArray := [2, 5, 1, 0, 4, 6, 3]
        prefixOrderMatrix := [[98, 79, 66, 111, 99, 69, 108], [3, 2, 0, 6, 4, 1, 5],
          [3, 2, 0, 6, 4, 1, 5], [3, 2, 0, 6, 4, 1, 5]] } ∧
    SuffixArray.searchSubstring
      { text := [98, 79, 66, 111, 99, 69, 108]
        suffixArray := [2, 5, 1, 0, 4, 6, 3]
        prefixOrderMatrix := [[98, 79, 66, 111, 99, 69, 108], [3, 2, 0, 6, 4, 1, 5],
          [3, 2, 0, 6, 4, 1, 5], [3, 2, 0, 6, 4, 1, 5]] } (codes "bOB") = .ok 3 ∧
    3 < (codes "bOBocEl").length ∧
    ∃ p, ([2, 5, 1, 0, 4, 6, 3] : List Nat)[3]? = some p ∧ p < (codes "bOBocEl").length ∧
      ((codes "bOBocEl").drop p).take (codes "bOB").length = codes "bOB" :=
  ⟨by decide, by decide, by decide,
    searchSubstring_result_indexes_occurrence (codes "bOBocEl") (codes "bOB")
      { text := [98, 79, 66, 111, 99, 69, 108]
        suffixArray := [2, 5, 1, 0, 4, 6, 3]
        prefixOrderMatrix := [[98, 79, 66, 111, 99, 69, 108], [3, 2, 0, 6, 4, 1, 5],
          [3, 2, 0, 6, 4, 1, 5], [3, 2, 0, 6, 4, 1, 5]] }
      3 (by decide) (by decide) (by decide)⟩

/-- C7. Evaluation of the code at a failing input: on the text "abab" (N = 4) the search
for "aba" returns `4`, an invalid index, although "aba" occurs at text position 0. -/
theorem searchSubstring_abab_aba :
    (SuffixArray.build (codes "abab") >>= fun sa => sa.searchSubstring (codes "aba")) = .ok 4 ∧
    (codes "abab").length = 4 ∧
    (suffixFrom (codes "abab") 0).take (codes "aba").length = codes "aba" := by
  decide

/-- C8. Evaluation of the code at a failing input: for the text "baa", `minLexRotation()`
returns "aba", which is greater than the rotation at `p = 1`, "aab". -/
theorem minLexRotation_baa :
    (SuffixArray.build (codes "baa") >>= fun sa => sa.minLexRotation) = .ok (codes "aba") ∧
    rotation (codes "baa") 1 = codes "aab" ∧
    ¬ codes "aba" ≤ rotation (codes "baa") 1 := by
  decide

/-- C9. Evaluation of the code at a failing input: the MinHeap holding `[0,3,1,4,5,2]`
satisfies the heap invariant; `deleteItem(4)` returns true and leaves `[0,3,1,2,5]`,
where index 3 holds `2` under its parent `3` at index 1. -/
theorem deleteItem_loses_heapInvariant :
    heapInvariant .less ⟨[0, 3, 1, 4, 5, 2], none⟩ ∧
    deleteItem .less ⟨[0, 3, 1, 4, 5, 2], none⟩ 4 = .ok (true, ⟨[0, 3, 1, 2, 5], none⟩) ∧
    ¬ heapInvariant .less ⟨[0, 3, 1, 2, 5], none⟩ := by
  decide

/-- C10. `deleteItem(v)` on a well-formed heap object returns normally; the flag it
returns is true exactly when `v` occurs among the first `size()` elements; when it is
true, `size()` has decreased by exactly one and the multiset of logical elements is the
previous one minus one occurrence of `v`; when it is false, the object is unchanged. -/
theorem deleteItem_effect (c : Comparer) (h : HeapBase) (v : Int)
    (hvalid : h.size ≤ h.heapData.length) :
    ∃ h', deleteItem c h v = .ok (decide (v ∈ h.logical), h') ∧
      (v ∈ h.logical →
        h'.size + 1 = h.size ∧
        (↑h'.logical : Multiset Int) = (↑h.logical : Multiset Int).erase v) ∧
      (v ∉ h.logical → h' = h) := by
  have hlen := h.length_logical hvalid
  unfold deleteItem
  by_cases hmem : v ∈ h.logical
  · have hlt : List.indexOf v h.logical < h.size := by
      rw [← hlen]; exact List.indexOf_lt_length.2 hmem
    obtain ⟨h', hrun, hsize, -, hperm⟩ := removeItemFromHeap_spec c h _ hvalid hlt
    refine ⟨h', ?_, fun _ => ⟨hsize, ?_⟩, fun hn => absurd hmem hn⟩
    · show (if decide (List.indexOf v h.logical < h.size) = true then _ else _) = _
      rw [if_pos (by simpa using hlt), hrun]
      simp [bind, Except.bind, hmem, hlt]
    · rw [Multiset.coe_erase, Multiset.coe_eq_coe, ← List.eraseIdx_indexOf_eq_erase]
      exact hperm
  · have hge : ¬ List.indexOf v h.logical < h.size := by
      rw [← hlen, List.indexOf_lt_length]; exact hmem
    refine ⟨h, ?_, fun hm => absurd hm hmem, fun _ => rfl⟩
    show (if decide (List.indexOf v h.logical < h.size) = true then _ else _) = _
    rw [if_neg (by simpa using hge)]
    rw [decide_eq_decide.2 ⟨fun hl => absurd hl hge, fun hm => absurd hm hmem⟩]

/-- C10, at a concrete heap: deleting `4` from the MinHeap holding `[0,3,1,4,5,2]`. -/
theorem deleteItem_effect_witness :
    (HeapBase.mk [0, 3, 1, 4, 5, 2] none).size ≤ (HeapBase.mk [0, 3, 1, 4, 5, 2] none).heapData.length ∧
    ∃ h', deleteItem .less (HeapBase.mk [0, 3, 1, 4, 5, 2] none) 4
        = .ok (decide ((4 : Int) ∈ (HeapBase.mk [0, 3, 1, 4, 5, 2] none).logical), h') ∧
      ((4 : Int) ∈ (HeapBase.mk [0, 3, 1, 4, 5, 2] none).logical →
        h'.size + 1 = (HeapBase.mk [0, 3, 1, 4, 5, 2] none).size ∧
        (↑h'.logical : Multiset Int)
          = (↑(HeapBase.mk [0, 3, 1, 4, 5, 2] none).logical : Multiset Int).erase 4) ∧
      ((4 : Int) ∉ (HeapBase.mk [0, 3, 1, 4, 5, 2] none).logical →
        h' = HeapBase.mk [0, 3, 1, 4, 5, 2] none) :=
  ⟨by decide, deleteItem_effect .less (HeapBase.mk [0, 3, 1, 4, 5, 2] none) 4 (by decide)⟩


/-- C11. Evaluation of the code at failing inputs: the MinHeap constructed from
`{3,2,1,0}` holds `[0,3,1,2]` after `heapify` (index 3 holds `2` under its parent `3`),
and the MaxHeap constructed from `{0,1,2,3}` holds `[3,0,2,1]` (index 3 holds `1` under
its parent `0`); neither satisfies the heap invariant. -/
theorem heapify_3_2_1_0 :
    Heap.ofVector .less [3, 2, 1, 0] = .ok ⟨[0, 3, 1, 2], none⟩ ∧
    ¬ heapInvariant .less ⟨[0, 3, 1, 2], none⟩ ∧
    Heap.ofVector .greater [0, 1, 2, 3] = .ok ⟨[3, 0, 2, 1], none⟩ ∧
    ¬ heapInvariant .greater ⟨[3, 0, 2, 1], none⟩ := by
  decide

/-- C12. Evaluation of the code at a failing input: the vector `{1,2,3,4,5}` is
non-decreasing, and `heapsort` turns it into `{1,2,4,3,5}`, which differs from it. -/
theorem heapsort_changes_1_2_3_4_5 :
    nonDecreasing [1, 2, 3, 4, 5] ∧
    heapsort [1, 2, 3, 4, 5] = .ok [1, 2, 4, 3, 5] ∧
    ([1, 2, 4, 3, 5] : List Int) ≠ [1, 2, 3, 4, 5] := by
  decide

/-- C15. On a well-formed, non-empty heap object `extractTop` returns normally; the value
returned is the element at index 0, which is what `top()` returns just before; `size()`
has decreased by exactly one and the multiset of the remaining logical elements is the
previous one minus that element. -/
theorem extractTop_effect (c : Comparer) (h : HeapBase)
    (hvalid : h.size ≤ h.heapData.length) (hne : 0 < h.size) :
    ∃ t h', h.heapData[0]? = some t ∧ h.top = .ok t ∧
      extractTop c h = .ok (t, h') ∧
      h'.size + 1 = h.size ∧
      (↑h'.logical : Multiset Int) = (↑h.logical : Multiset Int).erase t := by
  obtain ⟨h', hrun, hsize, -, hperm⟩ := removeItemFromHeap_spec c h TopIdx hvalid hne
  have hlen : 0 < h.heapData.length := by omega
  obtain ⟨t, rest, hdata⟩ : ∃ t rest, h.heapData = t :: rest := by
    cases hd : h.heapData with
    | nil => rw [hd] at hlen; simp at hlen
    | cons t rest => exact ⟨t, rest, rfl⟩
  have hget : h.get TopIdx = t := by simp [HeapBase.get, TopIdx, hdata]
  have hlog : h.logical = t :: rest.take (h.size - 1) := by
    unfold HeapBase.logical
    rw [hdata]
    obtain ⟨n, hn⟩ : ∃ n, h.size = n + 1 := ⟨h.size - 1, by omega⟩
    rw [hn]; simp
  refine ⟨t, h', by simp [hdata], by simp [HeapBase.top, hdata], ?_, hsize, ?_⟩
  · unfold extractTop
    rw [hrun, hget]
    rfl
  · rw [Multiset.coe_erase, Multiset.coe_eq_coe]
    refine hperm.trans ?_
    rw [hlog]
    simp [TopIdx]

/-- C15, at a concrete heap: `extractTop` on the MaxHeap holding `[8,4,7,2,1,6]`. -/
theorem extractTop_effect_witness :
    (HeapBase.mk [8, 4, 7, 2, 1, 6] none).size ≤ (HeapBase.mk [8, 4, 7, 2, 1, 6] none).heapData.length ∧
    0 < (HeapBase.mk [8, 4, 7, 2, 1, 6] none).size ∧
    ∃ t h', (HeapBase.mk [8, 4, 7, 2, 1, 6] none).heapData[0]? = some t ∧
      (HeapBase.mk [8, 4, 7, 2, 1, 6] none).top = .ok t ∧
      extractTop .greater (HeapBase.mk [8, 4, 7, 2, 1, 6] none) = .ok (t, h') ∧
      h'.size + 1 = (HeapBase.mk [8, 4, 7, 2, 1, 6] none).size ∧
      (↑h'.logical : Multiset Int)
        = (↑(HeapBase.mk [8, 4, 7, 2, 1, 6] none).logical : Multiset Int).erase t :=
  ⟨by decide, by decide,
    extractTop_effect .greater (HeapBase.mk [8, 4, 7, 2, 1, 6] none) (by decide) (by decide)⟩

/-- C17. For every suffix array object and all indices `x`, `y`, the calls `lcp(x, y)` and
`lcp(y, x)` have the same outcome; in particular they return the same value when
`x, y < N`. -/
theorem lcp_symmetric (sa : SuffixArray) (x y : Nat) : sa.lcp x y = sa.lcp y x := by
  unfold SuffixArray.lcp
  simp only []
  by_cases hout : x ≥ sa.text.length ∨ y ≥ sa.text.length
  · rw [if_pos hout, if_pos (Or.symm hout)]
  · rw [if_neg hout, if_neg (mt Or.symm hout)]
    by_cases hxy : x = y
    · subst hxy; rfl
    · rw [if_neg hxy, if_neg (Ne.symm hxy), sa.lcpLoop_comm]

/-- C18. For every suffix array object over a text of length N, `lcp(x, y)` raises the
out-of-range error if and only if `x >= N` or `y >= N`, and it returns a value if and only
if `x < N` and `y < N`. -/
theorem lcp_outOfRange_iff (sa : SuffixArray) (x y : Nat) :
    (sa.lcp x y = .error .outOfRange ↔ (x ≥ sa.text.length ∨ y ≥ sa.text.length)) ∧
    ((∃ v, sa.lcp x y = .ok v) ↔ (x < sa.text.length ∧ y < sa.text.length)) := by
  unfold SuffixArray.lcp
  simp only []
  by_cases hout : x ≥ sa.text.length ∨ y ≥ sa.text.length
  · rw [if_pos hout]
    refine ⟨⟨fun _ => hout, fun _ => rfl⟩, ⟨?_, fun hin => ?_⟩⟩
    · rintro ⟨v, hv⟩; cases hv
    · rcases hout with h | h <;> omega
  · rw [if_neg hout]
    have hin : x < sa.text.length ∧ y < sa.text.length := by omega
    refine ⟨⟨fun h => ?_, fun h => absurd h hout⟩, ⟨fun _ => hin, fun _ => ?_⟩⟩
    · split at h <;> cases h
    · split <;> exact ⟨_, rfl⟩

/-- C19. Evaluation of the code at a failing input: on the suffix array built from the
empty text, `searchSubstring("a")` computes `end = m_suffixArray.size() - 1` in
`IndexType`, which is `2^64 - 1`, and `binSearch` stops at its `assert(end < vct.size())`;
no index is returned for this non-empty pattern. -/
theorem searchSubstring_empty_text :
    SuffixArray.build (codes "") = .ok ⟨[], [], [[]]⟩ ∧
    SuffixArray.searchSubstring ⟨[], [], [[]]⟩ (codes "a") = .error .assertion ∧
    (([] : List Nat).length + 2 ^ indexBits - 1) % 2 ^ indexBits = 2 ^ 64 - 1 := by
  decide

/-- C20. For every suffix array object and every pattern, if `searchSubstring(substr)`
returns `r` with `indexValid(r)`, then `r` indexes the suffix array and `substr` is a
prefix of the suffix of the text that starts at position `suffixArray[r]`. -/
theorem searchSubstring_valid_result (sa : SuffixArray) (substr : List Nat) (r : Nat)
    (hs : sa.searchSubstring substr = .ok r) (hv : sa.indexValid r = true) :
    ∃ p, sa.suffixArray[r]? = some p ∧ substr <+: suffixFrom sa.text p := by
  unfold SuffixArray.searchSubstring at hs
  split at hs
  · cases hs
  have hr : r < sa.suffixArray.length := by simpa [SuffixArray.indexValid] using hv
  obtain ⟨p, hp, heq⟩ := binSearch_hit _ _ _ _ _ _ r hs hr
  obtain ⟨-, hocc⟩ := sa.isLexEqual_true p substr heq
  refine ⟨p, hp, ?_⟩
  unfold suffixFrom
  rw [← hocc]
  exact List.take_prefix _ _

/-- C20, at a concrete input: on "bOBocEl" with suffix array `[2,5,1,0,4,6,3]` the search
for "Boc" returns 0, and "Boc" is a prefix of the suffix starting at position 2. -/
theorem searchSubstring_valid_result_witness :
    SuffixArray.searchSubstring
      { text := codes "bOBocEl"
        suffixArray := [2, 5, 1, 0, 4, 6, 3]
        prefixOrderMatrix := [[98, 79, 66, 111, 99, 69, 108], [3, 2, 0, 6, 4, 1, 5],
          [3, 2, 0, 6, 4, 1, 5], [3, 2, 0, 6, 4, 1, 5]] } (codes "Boc") = .ok 0 ∧
    SuffixArray.indexValid
      { text := codes "bOBocEl"
        suffixArray := [2, 5, 1, 0, 4, 6, 3]
        prefixOrderMatrix := [[98, 79, 66, 111, 99, 69, 108], [3, 2, 0, 6, 4, 1, 5],
          [3, 2, 0, 6, 4, 1, 5], [3, 2, 0, 6, 4, 1, 5]] } 0 = true ∧
    ∃ p, ([2, 5, 1, 0, 4, 6, 3] : List Nat)[0]? = some p ∧
      codes "Boc" <+: suffixFrom (codes "bOBocEl") p :=
  ⟨by decide, by decide,
    searchSubstring_valid_result
      { text := codes "bOBocEl"
        suffixArray := [2, 5, 1, 0, 4, 6, 3]
        prefixOrderMatrix := [[98, 79, 66, 111, 99, 69, 108], [3, 2, 0, 6, 4, 1, 5],
          [3, 2, 0, 6, 4, 1, 5], [3, 2, 0, 6, 4, 1, 5]] }
      (codes "Boc") 0 (by decide) (by decide)⟩

/-- C13. For every integer vector of length at least 2, `heapsort(data)` returns, and the
vector afterwards has the same length and the same multiset of elements as before. -/
theorem heapsort_permutes (data : List Int) (h2 : 2 ≤ data.length) :
    ∃ out, heapsort data = .ok out ∧ out.length = data.length ∧
      (↑out : Multiset Int) = ↑data := by
  obtain ⟨h₁, hrun₁, hr₁⟩ :=
    heapify_rearranged .greater ⟨data, some data.length⟩ (Nat.le_refl _) h2
  have hsc₁ : h₁.sorterCount = some data.length := hr₁.1
  have hlen₁ : h₁.heapData.length = data.length := hr₁.2.1
  have hsize₁ : h₁.size = data.length := by unfold HeapBase.size; rw [hsc₁]
  obtain ⟨h₂, hrun₂, hperm₂⟩ :=
    sortLoop_perm (h₁.size + 1) h₁ data.length hsc₁ (by omega) (by omega) (by omega)
  have hperm : h₂.heapData.Perm data := hperm₂.trans hr₁.perm
  refine ⟨h₂.heapData, ?_, hperm.length_eq, Multiset.coe_eq_coe.2 hperm⟩
  unfold heapsort HeapSorter.sort
  simp only [hrun₁, hrun₂, bind, Except.bind]

/-- C13, at a concrete input: `heapsort` on `{2,8,7,4,1,6}`. -/
theorem heapsort_permutes_witness :
    2 ≤ ([2, 8, 7, 4, 1, 6] : List Int).length ∧
    ∃ out, heapsort [2, 8, 7, 4, 1, 6] = .ok out ∧
      out.length = ([2, 8, 7, 4, 1, 6] : List Int).length ∧
      (↑out : Multiset Int) = ↑([2, 8, 7, 4, 1, 6] : List Int) :=
  ⟨by decide, heapsort_permutes [2, 8, 7, 4, 1, 6] (by decide)⟩

/-- C14. Evaluation of the code at a failing input: the MaxHeap constructed from `{3,2,1}`
holds `[3,2,1]` and satisfies the heap invariant, and so does a copy of it; `insert(5)` on
the copy appends `5` to the storage of the copy, while `size()` and the elements are read
through the reference, which is bound to the storage of the original: `size()` is `3`
before and after the call and the elements stay `[3,2,1]`, without the `5`. -/
theorem insert_on_copied_heap :
    Heap.ofVector .greater [3, 2, 1] = .ok ⟨[3, 2, 1], none⟩ ∧
    Heap.copy ⟨[3, 2, 1], none⟩ = ⟨[3, 2, 1], some [3, 2, 1]⟩ ∧
    heapInvariant .greater (Heap.base ⟨[3, 2, 1], some [3, 2, 1]⟩) ∧
    (Heap.base ⟨[3, 2, 1], some [3, 2, 1]⟩).size = 3 ∧
    Heap.insert .greater ⟨[3, 2, 1], some [3, 2, 1]⟩ 5 = .ok ⟨[3, 2, 1, 5], some [3, 2, 1]⟩ ∧
    (Heap.base ⟨[3, 2, 1, 5], some [3, 2, 1]⟩).size = 3 ∧
    (Heap.base ⟨[3, 2, 1, 5], some [3, 2, 1]⟩).logical = [3, 2, 1] := by
  decide

/-- C16. For every text of length N (N at most `2^63`, as for any `std::string`), the
constructor returns, `suffixArray` has length N and contains every position `0..N-1`
exactly once; N = 0 gives the empty array and N = 1 gives `[0]`. -/
theorem suffixArray_is_permutation (text : List Nat) (hN : text.length ≤ 2 ^ 63) :
    ∃ sa, SuffixArray.build text = .ok sa ∧
      sa.suffixArray.length = text.length ∧
      sa.suffixArray.Perm (List.range text.length) ∧
      (text.length = 0 → sa.suffixArray = []) ∧
      (text.length = 1 → sa.suffixArray = [0]) := by
  obtain ⟨res, hrun, hperm⟩ := buildLoop_spec text.length (text.length + 1) 1 [text]
    (List.replicate text.length { chunk0 := 0, chunk1 := 0, pos := 0 }) hN (Nat.le_refl _)
    (by omega) (by omega) (by
      intro h1
      have h01 : text.length = 0 ∨ text.length = 1 := by omega
      rcases h01 with h0 | h1'
      · rw [h0]; exact List.Perm.refl []
      · rw [h1']; exact List.Perm.refl [0])
  refine ⟨⟨text, res.2.map (·.pos), res.1⟩, ?_, ?_, hperm, ?_, ?_⟩
  · unfold SuffixArray.build
    simp only [hrun, bind, Except.bind]
  · simpa using hperm.length_eq
  · intro h0
    rw [h0] at hperm
    simpa using hperm
  · intro h1
    rw [h1] at hperm
    exact List.perm_singleton.1 hperm

/-- C16, at a concrete input: the text "bobocel". -/
theorem suffixArray_is_permutation_witness :
    (codes "bobocel").length ≤ 2 ^ 63 ∧
    ∃ sa, SuffixArray.build (codes "bobocel") = .ok sa ∧
      sa.suffixArray.length = (codes "bobocel").length ∧
      sa.suffixArray.Perm (List.range (codes "bobocel").length) ∧
      ((codes "bobocel").length = 0 → sa.suffixArray = []) ∧
      ((codes "bobocel").length = 1 → sa.suffixArray = [0]) :=
  ⟨by decide, suffixArray_is_permutation (codes "bobocel") (by decide)⟩

/-- C21. For every text of length N (at most `2^63`) and every `n` of type `IndexType`, on
the suffix array built from the text `getNthSuffix(n)` raises out-of-range if and only if
`n` is outside `[1, N]` (which includes `n = 0`), and for `n` in `[1, N]` it returns
`text[suffixArray[n-1]:]`. -/
theorem getNthSuffix_spec (text : List Nat) (sa : SuffixArray) (n : Nat)
    (hN : text.length ≤ 2 ^ 63) (hn : n < 2 ^ 64) (hb : SuffixArray.build text = .ok sa) :
    (sa.getNthSuffix n = .error .outOfRange ↔ (n < 1 ∨ text.length < n)) ∧
    (1 ≤ n ∧ n ≤ text.length →
      ∃ p, sa.suffixArray[n - 1]? = some p ∧ sa.getNthSuffix n = .ok (suffixFrom text p)) := by
  obtain ⟨sa', hb', htext, hperm⟩ := SuffixArray.build_spec text hN
  rw [hb] at hb'
  cases hb'
  have hlen : sa.suffixArray.length = text.length := by simpa using hperm.length_eq
  have hpow : (2 : Nat) ^ indexBits = 2 ^ 64 := rfl
  unfold SuffixArray.getNthSuffix
  rw [hpow, htext]
  by_cases hin : 1 ≤ n ∧ n ≤ text.length
  · have hidx : (n + 2 ^ 64 - 1) % 2 ^ 64 = n - 1 := by
      rw [show n + 2 ^ 64 - 1 = (n - 1) + 2 ^ 64 by omega, Nat.add_mod_right]
      exact Nat.mod_eq_of_lt (by omega)
    rw [hidx]
    have hlt : n - 1 < sa.suffixArray.length := by omega
    have hget : sa.suffixArray[n - 1]? = some sa.suffixArray[n - 1] :=
      List.getElem?_eq_getElem hlt
    have hp := perm_range_getElem?_lt hperm hget
    rw [hget]
    simp only []
    rw [if_neg (by omega)]
    refine ⟨⟨fun h => (by cases h), fun h => (by omega)⟩, fun _ => ⟨_, rfl, rfl⟩⟩
  · have hnone : sa.suffixArray[(n + 2 ^ 64 - 1) % 2 ^ 64]? = none := by
      apply List.getElem?_eq_none
      rw [hlen]
      by_cases h0 : n = 0
      · subst h0
        have : (0 + 2 ^ 64 - 1) % 2 ^ 64 = 2 ^ 64 - 1 := by decide
        rw [this]
        have : (2 : Nat) ^ 63 < 2 ^ 64 - 1 := by decide
        omega
      · have hidx : (n + 2 ^ 64 - 1) % 2 ^ 64 = n - 1 := by
          rw [show n + 2 ^ 64 - 1 = (n - 1) + 2 ^ 64 by omega, Nat.add_mod_right]
          exact Nat.mod_eq_of_lt (by omega)
        rw [hidx]
        omega
    rw [hnone]
    exact ⟨⟨fun _ => (by omega), fun _ => rfl⟩, fun h => absurd h hin⟩

/-- C21, at a concrete input: on "bOBocEl", `getNthSuffix(3)`. -/
theorem getNthSuffix_spec_witness :
    (codes "bOBocEl").length ≤ 2 ^ 63 ∧ 3 < 2 ^ 64 ∧
    SuffixArray.build (codes "bOBocEl") = .ok
      { text := [98, 79, 66, 111, 99, 69, 108]
        suffixArray := [2, 5, 1, 0, 4, 6, 3]
        prefixOrderMatrix := [[98, 79, 66, 111, 99, 69, 108], [3, 2, 0, 6, 4, 1, 5],
          [3, 2, 0, 6, 4, 1, 5], [3, 2, 0, 6, 4, 1, 5]] } ∧
    SuffixArray.getNthSuffix
      { text := [98, 79, 66, 111, 99, 69, 108]
        suffixArray := [2, 5, 1, 0, 4, 6, 3]
        prefixOrderMatrix := [[98, 79, 66, 111, 99, 69, 108], [3, 2, 0, 6, 4, 1, 5],
          [3, 2, 0, 6, 4, 1, 5], [3, 2, 0, 6, 4, 1, 5]] } 3 = .ok (codes "OBocEl") ∧
    SuffixArray.getNthSuffix
      { text := [98, 79, 66, 111, 99, 69, 108]
        suffixArray := [2, 5, 1, 0, 4, 6, 3]
        prefixOrderMatrix := [[98, 79, 66, 111, 99, 69, 108], [3, 2, 0, 6, 4, 1, 5],
          [3, 2, 0, 6, 4, 1, 5], [3, 2, 0, 6, 4, 1, 5]] } 10 = .error .outOfRange ∧
    ((SuffixArray.getNthSuffix
        { text := [98, 79, 66, 111, 99, 69, 108]
          suffixArray := [2, 5, 1, 0, 4, 6, 3]
          prefixOrderMatrix := [[98, 79, 66, 111, 99, 69, 108], [3, 2, 0, 6, 4, 1, 5],
            [3, 2, 0, 6, 4, 1, 5], [3, 2, 0, 6, 4, 1, 5]] } 3 = .error .outOfRange ↔
        (3 < 1 ∨ (codes "bOBocEl").length < 3)) ∧
      (1 ≤ 3 ∧ 3 ≤ (codes "bOBocEl").length →
        ∃ p, ([2, 5, 1, 0, 4, 6, 3] : List Nat)[3 - 1]? = some p ∧
          SuffixArray.getNthSuffix
            { text := [98, 79, 66, 111, 99, 69, 108]
              suffixArray := [2, 5, 1, 0, 4, 6, 3]
              prefixOrderMatrix := [[98, 79, 66, 111, 99, 69, 108], [3, 2, 0, 6, 4, 1, 5],
                [3, 2, 0, 6, 4, 1, 5], [3, 2, 0, 6, 4, 1, 5]] } 3
            = .ok (suffixFrom (codes "bOBocEl") p))) :=
  ⟨by decide, by decide, by decide, by decide, by decide,
    getNthSuffix_spec (codes "bOBocEl")
      { text := [98, 79, 66, 111, 99, 69, 108]
        suffixArray := [2, 5, 1, 0, 4, 6, 3]
        prefixOrderMatrix := [[98, 79, 66, 111, 99, 69, 108], [3, 2, 0, 6, 4, 1, 5],
          [3, 2, 0, 6, 4, 1, 5], [3, 2, 0, 6, 4, 1, 5]] }
      3 (by decide) (by decide) (by decide)⟩

/-- C22. For every non-empty text of length N (at most `2^63`) the constructor and
`minLexRotation()` return, and there is a `p` in `[0, N)` with
`minLexRotation() = text[p:] + text[:p]`; the result has the same length and the same
multiset of characters as the text. -/
theorem minLexRotation_is_rotation (text : List Nat) (hne : text ≠ [])
    (hN : text.length ≤ 2 ^ 63) :
    ∃ sa p out, SuffixArray.build text = .ok sa ∧ sa.minLexRotation = .ok out ∧
      p < text.length ∧ out = rotation text p ∧
      out.length = text.length ∧ (↑out : Multiset Nat) = ↑text := by
  obtain ⟨sa, hb, htext, hperm⟩ := SuffixArray.build_spec text hN
  have hlen : sa.suffixArray.length = text.length := by simpa using hperm.length_eq
  have hpos : 0 < text.length := List.length_pos.2 hne
  have hget : sa.suffixArray[0]? = some sa.suffixArray[0] :=
    List.getElem?_eq_getElem (by omega)
  have hp := perm_range_getElem?_lt hperm hget
  have hrot : (rotation text sa.suffixArray[0]).Perm text := by
    unfold rotation
    refine List.perm_append_comm.trans ?_
    rw [List.take_append_drop]
  refine ⟨sa, sa.suffixArray[0], rotation text sa.suffixArray[0], hb, ?_, hp, rfl,
    hrot.length_eq, Multiset.coe_eq_coe.2 hrot⟩
  unfold SuffixArray.minLexRotation
  rw [hget, htext]
  simp only []
  rw [if_neg (by omega)]
  by_cases h0 : sa.suffixArray[0] > 0
  · rw [if_pos h0]; rfl
  · rw [if_neg h0]
    have : sa.suffixArray[0] = 0 := by omega
    rw [this]
    simp [rotation]

/-- C22, at a concrete input: the text "alabala". -/
theorem minLexRotation_is_rotation_witness :
    codes "alabala" ≠ [] ∧ (codes "alabala").length ≤ 2 ^ 63 ∧
    ∃ sa p out, SuffixArray.build (codes "alabala") = .ok sa ∧ sa.minLexRotation = .ok out ∧
      p < (codes "alabala").length ∧ out = rotation (codes "alabala") p ∧
      out.length = (codes "alabala").length ∧ (↑out : Multiset Nat) = ↑(codes "alabala") :=
  ⟨by decide, by decide, minLexRotation_is_rotation (codes "alabala") (by decide) (by decide)⟩

/-- C23. Evaluation of the code at the input of the claim: on the suffix array built from
the empty text, `minLexRotation()` starts by reading `m_suffixArray[0]`, an element of
the empty vector, so the call does not get as far as returning the empty string. -/
theorem minLexRotation_empty_text :
    SuffixArray.build (codes "") = .ok ⟨[], [], [[]]⟩ ∧
    (⟨[], [], [[]]⟩ : SuffixArray).suffixArray[0]? = none ∧
    SuffixArray.minLexRotation ⟨[], [], [[]]⟩ = .error .outOfBounds := by
  decide

/-- C27. For every non-empty non-decreasing vector of `int` and every target,
`binSearch(vct, target)` returns; when the target occurs, the result is the smallest
index `i` with `vct[i] = target`; when it does not, the result is `>= vct.size()`. -/
theorem binSearchVct_spec (vct : List Int) (target : Int) (hne : vct ≠ [])
    (hsize : vct.length ≤ 2 ^ 64) (hs : nonDecreasing vct) :
    ∃ r, binSearchVct vct target = .ok r ∧
      (target ∈ vct →
        r < vct.length ∧ intAt vct r = target ∧ ∀ i, i < r → intAt vct i ≠ target) ∧
      (target ∉ vct → r ≥ vct.length) := by
  have hpos : 0 < vct.length := List.length_pos.2 hne
  obtain ⟨b, hrun, hbE, hP, hJ⟩ := binSearchLoop_sorted vct target hs (vct.length - 1)
    (vct.length - 1 - 0 + 1) 0 (vct.length - 1) (by omega) (by omega) (Nat.le_refl _)
    (by omega) (fun i hi => by omega) (Or.inl rfl)
  have hb : b < vct.length := by omega
  have hgetD : vct.getD b 0 = vct[b] := List.getD_eq_getElem _ _ hb
  have hmem : target ∈ vct → vct[b] = target := by
    intro hm
    obtain ⟨j, hj, hjt⟩ := List.getElem_of_mem hm
    have hjb : b ≤ j := by
      by_contra hlt
      have := hP j (by omega)
      rw [List.getD_eq_getElem _ _ hj, hjt] at this
      omega
    have hle := nonDecreasing_le hs hjb hj
    rw [List.getD_eq_getElem _ _ hj, hjt, hgetD] at hle
    rcases hJ with hE | hge
    · have : j = b := by omega
      subst this
      exact hjt
    · rw [hgetD] at hge
      omega
  have hend : (vct.length + 2 ^ indexBits - 1) % 2 ^ indexBits = vct.length - 1 :=
    index_pred_mod (by omega) hsize
  unfold binSearchVct binSearch
  rw [hend, if_pos (by omega), hrun]
  simp only [bind, Except.bind, if_true, List.getElem?_eq_getElem hb]
  by_cases heq : vct[b] = target
  · refine ⟨b, by simp [heq], fun _ => ⟨hb, ?_, ?_⟩, fun hn => ?_⟩
    · rw [intAt, hgetD, heq]
    · intro i hi
      have := hP i hi
      rw [intAt]
      omega
    · exact absurd (heq ▸ List.getElem_mem hb) hn
  · refine ⟨vct.length, by simp [heq], fun hm => absurd (hmem hm) heq, fun _ => Nat.le_refl _⟩

/-- C27, at a concrete input: the vector `{1,2,3,4,5}` and the target 4. -/
theorem binSearchVct_spec_witness :
    ([1, 2, 3, 4, 5] : List Int) ≠ [] ∧ ([1, 2, 3, 4, 5] : List Int).length ≤ 2 ^ 64 ∧
    nonDecreasing [1, 2, 3, 4, 5] ∧
    binSearchVct [1, 2, 3, 4, 5] 4 = .ok 3 ∧ binSearchVct [1, 2, 3, 4, 5] 6 = .ok 5 ∧
    ∃ r, binSearchVct [1, 2, 3, 4, 5] 4 = .ok r ∧
      ((4 : Int) ∈ ([1, 2, 3, 4, 5] : List Int) →
        r < ([1, 2, 3, 4, 5] : List Int).length ∧ intAt [1, 2, 3, 4, 5] r = 4 ∧
          ∀ i, i < r → intAt [1, 2, 3, 4, 5] i ≠ 4) ∧
      ((4 : Int) ∉ ([1, 2, 3, 4, 5] : List Int) → r ≥ ([1, 2, 3, 4, 5] : List Int).length) :=
  ⟨by decide, by decide, by decide, by decide, by decide,
    binSearchVct_spec [1, 2, 3, 4, 5] 4 (by decide) (by decide) (by decide)⟩

/-- C28, as stated, fails: on the non-decreasing vector `{1,2,4,5}` the call
`upperBound(vct, 5)` returns 3, and `vct[3] = 5` is not smaller than the target; the
largest index with an element smaller than 5 is 2. -/
theorem upperBound_not_strict_at_last :
    ¬ ∀ (vct : List Int) (target : Int) (r : Nat), vct ≠ [] → nonDecreasing vct →
      upperBoundVct vct target = .ok r →
      (r < vct.length ∧ intAt vct r < target ∧
          ∀ i, i < vct.length → intAt vct i < target → i ≤ r) ∨
        (r ≥ vct.length ∧ ∀ i, i < vct.length → ¬ intAt vct i < target) := by
  intro H
  have h := H [1, 2, 4, 5] 5 3 (by decide) (by decide) (by decide)
  revert h
  decide

/-- C28, amended. For every non-empty non-decreasing vector of `int` and every target for
which `upperBound(vct, target)` returns `r`: if the target is not greater than the first
element (no element is smaller than the target), `r` is `vct.size()`; otherwise, if the
target is greater than or equal to the last element, `r` is the last index; otherwise `r`
is the largest index `i` with `vct[i] < target`. -/
theorem upperBoundVct_spec (vct : List Int) (target : Int) (r : Nat) (hne : vct ≠ [])
    (hsize : vct.length ≤ 2 ^ 64) (hs : nonDecreasing vct)
    (hrun : upperBoundVct vct target = .ok r) :
    (target ≤ intAt vct 0 →
      r = vct.length ∧ ∀ i, i < vct.length → ¬ intAt vct i < target) ∧
    (intAt vct 0 < target → intAt vct (vct.length - 1) ≤ target → r = vct.length - 1) ∧
    (intAt vct 0 < target → target < intAt vct (vct.length - 1) →
      r < vct.length ∧ intAt vct r < target ∧
        ∀ i, i < vct.length → intAt vct i < target → i ≤ r) := by
  have hpos : 0 < vct.length := List.length_pos.2 hne
  have hend : (vct.length + 2 ^ indexBits - 1) % 2 ^ indexBits = vct.length - 1 :=
    index_pred_mod (by omega) hsize
  unfold upperBoundVct upperBound at hrun
  rw [hend, if_pos (by omega), if_neg (by omega)] at hrun
  refine ⟨fun h0 => ?_, fun h0 hl => ?_, fun h0 hl => ?_⟩
  · rw [if_pos h0] at hrun
    cases hrun
    refine ⟨rfl, fun i hi hlt => ?_⟩
    have := nonDecreasing_le hs (Nat.zero_le i) hi
    unfold intAt at h0 hlt
    omega
  · rw [if_neg (by omega), if_pos (by omega)] at hrun
    cases hrun
    rfl
  · rw [if_neg (by omega), if_neg (by omega)] at hrun
    obtain ⟨hr, hlt, hge⟩ := upperBoundLoop_sorted vct target hs hsize _ 0 (vct.length - 1) r
      (by omega) (by omega) h0 (fun i hi hil => by omega) hrun
    refine ⟨hr, hlt, fun i hi hit => ?_⟩
    by_contra hgt
    have := hge i (by omega) hi
    unfold intAt at hit
    omega

/-- C28, amended, at a concrete input: the vector `{1,2,4,5}` and the target 3. -/
theorem upperBoundVct_spec_witness :
    ([1, 2, 4, 5] : List Int) ≠ [] ∧ ([1, 2, 4, 5] : List Int).length ≤ 2 ^ 64 ∧
    nonDecreasing [1, 2, 4, 5] ∧ upperBoundVct [1, 2, 4, 5] 3 = .ok 1 ∧
    (3 ≤ intAt [1, 2, 4, 5] 0 →
      1 = ([1, 2, 4, 5] : List Int).length ∧
        ∀ i, i < ([1, 2, 4, 5] : List Int).length → ¬ intAt [1, 2, 4, 5] i < 3) ∧
    (intAt [1, 2, 4, 5] 0 < 3 →
      intAt [1, 2, 4, 5] (([1, 2, 4, 5] : List Int).length - 1) ≤ 3 →
      1 = ([1, 2, 4, 5] : List Int).length - 1) ∧
    (intAt [1, 2, 4, 5] 0 < 3 →
      3 < intAt [1, 2, 4, 5] (([1, 2, 4, 5] : List Int).length - 1) →
      1 < ([1, 2, 4, 5] : List Int).length ∧ intAt [1, 2, 4, 5] 1 < 3 ∧
        ∀ i, i < ([1, 2, 4, 5] : List Int).length → intAt [1, 2, 4, 5] i < 3 → i ≤ 1) :=
  ⟨by decide, by decide, by decide, by decide,
    upperBoundVct_spec [1, 2, 4, 5] 3 1 (by decide) (by decide) (by decide) (by decide)⟩

/-- C25. Postcondition of `partitionLomuto(beg, end, pivotPos)` on a vector of `int`: for
a non-empty range `[beg, end)` and a pivot position inside it, the returned position `p`
lies in `[beg, end)`, the value at `p` equals the value originally at the pivot position,
every element of the range before `p` is `<=` that value, every element of the range
after `p` is `>` that value, and the range is a permutation of its original contents; for
an empty or reversed range (`beg >= end`) the function returns `end` and changes
nothing. -/
theorem partitionLomuto_postcondition (l : List Int) (beg endPos pivotPos : Nat) :
    (beg < endPos → endPos ≤ l.length → beg ≤ pivotPos → pivotPos < endPos →
      beg ≤ (partitionLomutoAt (fun a b => decide (a ≤ b)) l beg endPos pivotPos).2 ∧
      (partitionLomutoAt (fun a b => decide (a ≤ b)) l beg endPos pivotPos).2 < endPos ∧
      intAt (partitionLomutoAt (fun a b => decide (a ≤ b)) l beg endPos pivotPos).1
          (partitionLomutoAt (fun a b => decide (a ≤ b)) l beg endPos pivotPos).2
        = intAt l pivotPos ∧
      (∀ k, beg ≤ k →
        k < (partitionLomutoAt (fun a b => decide (a ≤ b)) l beg endPos pivotPos).2 →
        intAt (partitionLomutoAt (fun a b => decide (a ≤ b)) l beg endPos pivotPos).1 k
          ≤ intAt l pivotPos) ∧
      (∀ k, (partitionLomutoAt (fun a b => decide (a ≤ b)) l beg endPos pivotPos).2 < k →
        k < endPos →
        intAt (partitionLomutoAt (fun a b => decide (a ≤ b)) l beg endPos pivotPos).1 k
          > intAt l pivotPos) ∧
      (slice (partitionLomutoAt (fun a b => decide (a ≤ b)) l beg endPos pivotPos).1
        beg endPos).Perm (slice l beg endPos)) ∧
    (endPos ≤ beg →
      partitionLomutoAt (fun a b => decide (a ≤ b)) l beg endPos pivotPos = (l, endPos) ∧
      partitionLomuto (fun a b => decide (a ≤ b)) l beg endPos = (l, endPos)) := by
  constructor
  · intro hbe hend hpb hpe
    have hpv : l[pivotPos]? = some (intAt l pivotPos) := getElem?_eq_some_intAt (by omega)
    obtain ⟨h1, h2, h3, h4, h5, h6⟩ := partitionLomutoAt_spec (fun a b => decide (a ≤ b)) l
      beg endPos pivotPos (intAt l pivotPos) hbe hend hpb hpe hpv
    have hperm := partitionLomutoAt_perm (fun a b : Int => decide (a ≤ b)) l beg endPos pivotPos
    have hlen := partitionLomutoAt_length (fun a b : Int => decide (a ≤ b)) l beg endPos pivotPos
    generalize partitionLomutoAt (fun a b : Int => decide (a ≤ b)) l beg endPos pivotPos = res
      at h1 h2 h3 h4 h5 h6 hperm hlen
    obtain ⟨l', p⟩ := res
    simp only [] at h1 h2 h3 h4 h5 h6 hperm hlen ⊢
    refine ⟨h1, h2, intAt_of_getElem? h3, ?_, ?_, slice_perm_of_frame l l' beg endPos
      (by omega) hperm h6⟩
    · intro k hk1 hk2
      have := h4 k _ hk1 hk2 (getElem?_eq_some_intAt (by omega))
      simpa using this
    · intro k hk1 hk2
      have := h5 k _ hk1 hk2 (getElem?_eq_some_intAt (by omega))
      simpa using this
  · intro h
    have hn : ¬ beg < endPos := by omega
    constructor
    · unfold partitionLomutoAt
      rw [if_neg hn]
    · unfold partitionLomuto
      rw [if_neg hn]

/-- C24. For every vector of `int`, with or without duplicates, `quickSortInPlace(vct)`
returns (the recursion terminates), and the vector afterwards is non-decreasing and is a
permutation of the input. -/
theorem quickSortInPlace_sorts (vct : List Int) :
    ∃ out, quickSortInPlace (fun a b => decide (a ≤ b)) vct = .ok out ∧
      nonDecreasing out ∧ out.Perm vct := by
  obtain ⟨out, hrun, hperm, -, hsorted⟩ :=
    quickSortRange_sorted (vct.length + 1) vct 0 vct.length (by omega) (Nat.le_refl _)
  refine ⟨out, hrun, ?_, hperm⟩
  rw [← hperm.length_eq, slice_zero_length] at hsorted
  exact nonDecreasing_of_sorted hsorted

/-- C25, at a concrete input: the range `[0, 10)` of `{2,0,8,7,4,1,6,3,9,5}` with the pivot
at position 2. -/
theorem partitionLomuto_postcondition_witness :
    partitionLomutoAt (fun a b : Int => decide (a ≤ b)) [2, 0, 8, 7, 4, 1, 6, 3, 9, 5] 0 10 2
      = ([2, 0, 5, 7, 4, 1, 6, 3, 8, 9], 8) ∧
    (slice (partitionLomutoAt (fun a b : Int => decide (a ≤ b))
        [2, 0, 8, 7, 4, 1, 6, 3, 9, 5] 0 10 2).1 0 10).Perm
      (slice ([2, 0, 8, 7, 4, 1, 6, 3, 9, 5] : List Int) 0 10) :=
  ⟨by decide,
    ((partitionLomuto_postcondition [2, 0, 8, 7, 4, 1, 6, 3, 9, 5] 0 10 2).1
      (by decide) (by decide) (by decide) (by decide)).2.2.2.2.2⟩

/-- C26. For every range `[beg, end)` of a vector of `int`, of length `L = end - beg`, and
every `n`: `findNthSmallestElem(beg, end, n)` raises out-of-range if and only if `n <= 0`
or `n > L`; otherwise it returns (the loop terminates) the element at index `n - 1` of the
sorted range. -/
theorem findNthSmallestElem_spec (l : List Int) (beg endPos : Nat) (n : Int)
    (hbe : beg ≤ endPos) (hend : endPos ≤ l.length) :
    (findNthSmallestElem l beg endPos n = .error .outOfRange ↔
      (n ≤ 0 ∨ n > ((endPos - beg : Nat) : Int))) ∧
    (1 ≤ n → n ≤ ((endPos - beg : Nat) : Int) →
      findNthSmallestElem l beg endPos n
        = .ok (intAt ((slice l beg endPos).insertionSort (· ≤ ·)) (n - 1).toNat)) := by
  by_cases hbad : n ≤ 0 ∨ (endPos : Int) - (beg : Int) < n
  · have hres : findNthSmallestElem l beg endPos n = .error .outOfRange := by
      unfold findNthSmallestElem
      rw [if_pos hbad]
    rw [hres]
    refine ⟨⟨fun _ => (by omega), fun _ => rfl⟩, fun h1 h2 => (by omega)⟩
  · have h1 : 1 ≤ n := by omega
    have h2 : n ≤ ((endPos - beg : Nat) : Int) := by omega
    have ht : beg + (n - 1).toNat < endPos := by omega
    obtain ⟨l', hrun, hlen', hperm, hleft, hright⟩ :=
      findNthLoop_spec beg endPos (beg + (n - 1).toNat) (slice l beg endPos)
        (endPos - beg + 1) l beg endPos endPos (by omega) (by omega) (Nat.le_refl _)
        (by omega) ht (Nat.le_refl _) hend (List.Perm.refl _)
        (fun i j hi1 hi2 => by omega) (fun i j _ _ hj1 hj2 => by omega)
    have hval : intAt ((slice l beg endPos).insertionSort (· ≤ ·)) (n - 1).toNat
        = intAt l' (beg + (n - 1).toNat) := by
      have hS : (n - 1).toNat < (slice l' beg endPos).length := by
        rw [length_slice l' beg endPos hlen']; omega
      rw [intAt_insertionSort_of_split (slice l' beg endPos) (slice l beg endPos)
        (n - 1).toNat hS hperm ?_ ?_]
      · exact intAt_slice l' beg endPos _ (by omega)
      · intro i hi
        rw [intAt_slice l' beg endPos i (by omega), intAt_slice l' beg endPos _ (by omega)]
        exact hleft (beg + i) (by omega) (by omega)
      · intro j hj1 hj2
        rw [length_slice l' beg endPos hlen'] at hj2
        rw [intAt_slice l' beg endPos j hj2, intAt_slice l' beg endPos _ (by omega)]
        exact hright (beg + j) (by omega) (by omega)
    have hres : findNthSmallestElem l beg endPos n
        = .ok (intAt l' (beg + (n - 1).toNat)) := by
      unfold findNthSmallestElem
      rw [if_neg hbad]
      simp only [hrun, bind, Except.bind]
      rw [getElem?_eq_some_intAt (by omega : beg + (n - 1).toNat < l'.length)]
    rw [hres, hval]
    exact ⟨⟨fun h => (by cases h), fun h => (by omega)⟩, fun _ _ => rfl⟩

/-- C26, at a concrete input: the 4th smallest element of `{2,0,8,7,4,1,6,3,9,5}`. -/
theorem findNthSmallestElem_spec_witness :
    (0 : Nat) ≤ 10 ∧ 10 ≤ ([2, 0, 8, 7, 4, 1, 6, 3, 9, 5] : List Int).length ∧
    findNthSmallestElem [2, 0, 8, 7, 4, 1, 6, 3, 9, 5] 0 10 4 = .ok 3 ∧
    findNthSmallestElem [2, 0, 8, 7, 4, 1, 6, 3, 9, 5] 0 10 1 = .ok 0 ∧
    findNthSmallestElem [2, 0, 8, 7, 4, 1, 6, 3, 9, 5] 0 10 10 = .ok 9 ∧
    (findNthSmallestElem [2, 0, 8, 7, 4, 1, 6, 3, 9, 5] 0 10 4 = .error .outOfRange ↔
      ((4 : Int) ≤ 0 ∨ (4 : Int) > ((10 - 0 : Nat) : Int))) ∧
    ((1 : Int) ≤ 4 → (4 : Int) ≤ ((10 - 0 : Nat) : Int) →
      findNthSmallestElem [2, 0, 8, 7, 4, 1, 6, 3, 9, 5] 0 10 4
        = .ok (intAt ((slice ([2, 0, 8, 7, 4, 1, 6, 3, 9, 5] : List Int) 0 10).insertionSort
            (· ≤ ·)) ((4 : Int) - 1).toNat)) :=
  ⟨by decide, by decide, by decide, by decide, by decide,
    findNthSmallestElem_spec [2, 0, 8, 7, 4, 1, 6, 3, 9, 5] 0 10 4 (by decide) (by decide)⟩

/-- C30. For every `maxVal` (an `IndexType`) and every strictly increasing index vector `c`
with all entries `<= maxVal`: `nextLexicographicRCombination(maxVal, c)` returns false
exactly when `c` is the last combination `{maxVal-r, ..., maxVal}` with `r = |c| - 1`
(which includes the empty `c`), and then `c` is unchanged; otherwise it returns true and
`c` becomes the lexicographically next strictly increasing vector of the same length with
entries in `[0, maxVal]`. -/
theorem nextLexicographicRCombination_spec (maxVal : Nat) (c : List Nat)
    (hmax : maxVal < 2 ^ 64) (hinc : strictlyIncreasing c) (hle : ∀ x ∈ c, x ≤ maxVal) :
    ∃ b c', nextLexicographicRCombination maxVal c = (b, c') ∧
      (c = [] → b = false) ∧
      (b = false ↔ c = List.range' (maxVal - (c.length - 1)) c.length) ∧
      (b = false → c' = c) ∧
      (b = true →
        strictlyIncreasing c' ∧ c'.length = c.length ∧ (∀ x ∈ c', x ≤ maxVal) ∧ c < c' ∧
        ∀ d : List Nat, d.length = c.length → strictlyIncreasing d → (∀ x ∈ d, x ≤ maxVal) →
          c < d → c' ≤ d) := by
  have hpow : (2 : Nat) ^ indexBits = 2 ^ 64 := rfl
  unfold nextLexicographicRCombination
  by_cases hemp : c = []
  · subst hemp
    exact ⟨false, [], rfl, fun _ => rfl, ⟨fun _ => rfl, fun _ => rfl⟩, fun _ => rfl,
      fun h => (by cases h)⟩
  have hpos : 0 < c.length := List.length_pos.2 hemp
  have hne : c.isEmpty = false := by
    cases c with
    | nil => exact absurd rfl hemp
    | cons _ _ => rfl
  rw [hne]
  simp only [Bool.false_eq_true, if_false]
  generalize hr : c.length - 1 = r
  have hN : c.length = r + 1 := by omega
  have hbound : ∀ k, k < c.length → idxAt c k + (r - k) ≤ maxVal := by
    intro k hk
    have h1 := strictlyIncreasing_add_le hinc (show k ≤ r by omega) (by omega)
    have h2 := hle _ (idxAt_mem (show r < c.length by omega))
    omega
  by_cases hmr : maxVal ≤ r
  · rw [if_pos hmr]
    refine ⟨false, c, rfl, fun _ => rfl, ⟨fun _ => ?_, fun _ => rfl⟩, fun _ => rfl,
      fun h => (by cases h)⟩
    rw [eq_range'_iff]
    intro k hk
    have h1 := hbound k hk
    have h2 := strictlyIncreasing_add_le hinc (Nat.zero_le k) hk
    omega
  rw [if_neg hmr]
  cases hfind : findIncrementIdx maxVal r c r with
  | none =>
    refine ⟨false, c, rfl, fun _ => rfl, ⟨fun _ => ?_, fun _ => rfl⟩, fun _ => rfl,
      fun h => (by cases h)⟩
    rw [eq_range'_iff]
    intro k hk
    exact findIncrementIdx_none maxVal r c r hfind k (by omega)
  | some i =>
    obtain ⟨hir, hine, hafter⟩ := findIncrementIdx_some maxVal r c r i hfind
    have hil : i < c.length := by omega
    have hci : idxAt c i < maxVal - r + i := by
      have := hbound i hil
      omega
    have hmod : (idxAt c i + 1) % 2 ^ indexBits = idxAt c i + 1 :=
      Nat.mod_eq_of_lt (by omega)
    simp only [hmod]
    have hset : ∀ k, idxAt (c.set i (idxAt c i + 1)) k
        = if k = i then idxAt c i + 1 else idxAt c k := fun k => idxAt_set c i k _ hil
    obtain ⟨hlen', hfill⟩ := fillLoop_spec i (r - i) (i + 1) (c.set i (idxAt c i + 1))
      (by omega) (by rw [List.length_set]; omega)
      (by rw [hset i, if_pos rfl]; omega)
    generalize fillLoop i (r - i) (i + 1) (c.set i (idxAt c i + 1)) = c' at hlen' hfill
    rw [List.length_set] at hlen'
    have hval : ∀ k, idxAt c' k
        = if k < i then idxAt c k else if k < c.length then idxAt c i + 1 + (k - i)
          else idxAt c k := by
      intro k
      rw [hfill k, hset i, if_pos rfl, hset k]
      by_cases hk1 : k < i
      · rw [if_neg (by omega), if_neg (by omega), if_pos hk1]
      · rw [if_neg hk1]
        by_cases hk2 : k = i
        · subst hk2
          rw [if_neg (by omega), if_pos rfl, if_pos hil]
          omega
        · by_cases hk3 : k < c.length
          · rw [if_pos (by omega), if_pos hk3]
            omega
          · rw [if_neg (by omega), if_neg hk2, if_neg hk3]
    refine ⟨true, c', rfl, fun h => absurd h hemp, ⟨fun h => (by cases h), fun h => ?_⟩,
      fun h => (by cases h), fun _ => ⟨?_, hlen', ?_, ?_, ?_⟩⟩
    · exfalso
      have := (eq_range'_iff c _).1 h i hil
      omega
    · intro k hk
      rw [hlen'] at hk
      rw [hval k, hval (k + 1)]
      by_cases hk1 : k + 1 < i
      · rw [if_pos (by omega), if_pos hk1]
        exact hinc k hk
      · rw [if_neg hk1, if_pos hk]
        by_cases hk2 : k < i
        · rw [if_pos hk2]
          have : k + 1 = i := by omega
          have := hinc k hk
          rw [‹k + 1 = i›] at this
          omega
        · rw [if_neg hk2, if_pos (by omega)]
          omega
    · apply mem_le_of_idxAt_le
      intro k hk
      rw [hlen'] at hk
      rw [hval k]
      by_cases hk1 : k < i
      · rw [if_pos hk1]
        have := hbound k hk
        omega
      · rw [if_neg hk1, if_pos hk]
        omega
    · rw [lex_lt_iff_exists 0 c c' hlen'.symm]
      refine ⟨i, hil, fun k hk => ?_, ?_⟩
      · have := hval k
        rw [if_pos hk] at this
        exact this.symm
      · have := hval i
        rw [if_neg (by omega), if_pos hil] at this
        show idxAt c i < idxAt c' i
        omega
    · intro d hdlen hdinc hdle hcd
      rw [← not_lt]
      intro hdc
      rw [lex_lt_iff_exists 0 c d hdlen.symm] at hcd
      rw [lex_lt_iff_exists 0 d c' (hdlen.trans hlen'.symm)] at hdc
      obtain ⟨k, hk, hkpre, hklt⟩ := hcd
      obtain ⟨m, hm, hmpre, hmlt⟩ := hdc
      rw [hdlen] at hm
      change ∀ i, i < k → idxAt c i = idxAt d i at hkpre
      change idxAt c k < idxAt d k at hklt
      change ∀ i, i < m → idxAt d i = idxAt c' i at hmpre
      change idxAt d m < idxAt c' m at hmlt
      have hdbound : ∀ k, k < d.length → idxAt d k + (r - k) ≤ maxVal := by
        intro k hk
        have h1 := strictlyIncreasing_add_le hdinc (show k ≤ r by omega) (by omega)
        have h2 := hdle _ (idxAt_mem (show r < d.length by omega))
        omega
      by_cases hki : k < i
      · have hc'k := hval k
        rw [if_pos hki] at hc'k
        rcases Nat.lt_trichotomy m k with h | h | h
        · have := hmpre m
          have e1 := hkpre m h
          have e2 := hval m
          rw [if_pos (by omega)] at e2
          omega
        · subst h
          omega
        · have := hmpre k h
          omega
      · by_cases hki' : k = i
        · subst hki'
          have hc'k := hval k
          rw [if_neg (by omega), if_pos hil] at hc'k
          rcases Nat.lt_trichotomy m k with h | h | h
          · have e1 := hkpre m h
            have e2 := hval m
            rw [if_pos h] at e2
            omega
          · subst h
            omega
          · have e1 := hmpre (m - 1) (by omega)
            have e2 := hval (m - 1)
            rw [if_neg (by omega), if_pos (by omega)] at e2
            have e3 := hval m
            rw [if_neg (by omega), if_pos hm] at e3
            have e4 := hdinc (m - 1) (by rw [hdlen]; omega)
            rw [show m - 1 + 1 = m by omega] at e4
            omega
        · have e1 := hafter k (by omega) (by omega)
          have e2 := hdbound k (by rw [hdlen]; exact hk)
          omega

/-- C30, at a concrete input: `maxVal = 5` and the combination `{0,1,4,5}`. -/
theorem nextLexicographicRCombination_spec_witness :
    (5 : Nat) < 2 ^ 64 ∧ strictlyIncreasing [0, 1, 4, 5] ∧
    (∀ x ∈ ([0, 1, 4, 5] : List Nat), x ≤ 5) ∧
    nextLexicographicRCombination 5 [0, 1, 4, 5] = (true, [0, 2, 3, 4]) ∧
    ∃ b c', nextLexicographicRCombination 5 [0, 1, 4, 5] = (b, c') ∧
      (([0, 1, 4, 5] : List Nat) = [] → b = false) ∧
      (b = false ↔ ([0, 1, 4, 5] : List Nat)
        = List.range' (5 - (([0, 1, 4, 5] : List Nat).length - 1))
            ([0, 1, 4, 5] : List Nat).length) ∧
      (b = false → c' = [0, 1, 4, 5]) ∧
      (b = true →
        strictlyIncreasing c' ∧ c'.length = ([0, 1, 4, 5] : List Nat).length ∧
        (∀ x ∈ c', x ≤ 5) ∧ [0, 1, 4, 5] < c' ∧
        ∀ d : List Nat, d.length = ([0, 1, 4, 5] : List Nat).length → strictlyIncreasing d →
          (∀ x ∈ d, x ≤ 5) → [0, 1, 4, 5] < d → c' ≤ d) :=
  ⟨by decide, by decide, by decide, by decide,
    nextLexicographicRCombination_spec 5 [0, 1, 4, 5] (by decide) (by decide) (by decide)⟩

/-- C29: for every integer vector `p` (duplicates allowed, size `<= 2^63`),
`nextIncreasingLexicographicPermutation` returns a result; it returns false exactly when `p`
is non-increasing, and then `p` is unchanged; otherwise it returns true and the stored
vector is a permutation of `p`, lexicographically greater than `p`, and not greater than any
permutation of `p` that is lexicographically greater than `p`. -/
theorem nextIncreasingLexicographicPermutation_successor (p : List Int)
    (hlen : p.length ≤ 2 ^ 63) :
    ∃ b p', nextIncreasingLexicographicPermutation p = .ok (b, p') ∧
      (b = false ↔ nonIncreasing p) ∧ (b = false → p' = p) ∧
      (b = true → p'.Perm p ∧ p < p' ∧ ∀ q : List Int, q.Perm p → p < q → p' ≤ q) := by
  by_cases h2 : p.length < 2
  · refine ⟨false, p, ?_, ?_, fun _ => rfl, fun h => by cases h⟩
    · unfold nextIncreasingLexicographicPermutation nextLexicographicPermutation
      rw [if_pos h2]
    · exact ⟨fun _ i hi => by omega, fun _ => rfl⟩
  · cases hlp : findLastPair (fun a b => decide (a ≥ b)) p (p.length - 1 - 1) with
    | none =>
      refine ⟨false, p, ?_, ?_, fun _ => rfl, fun h => by cases h⟩
      · unfold nextIncreasingLexicographicPermutation nextLexicographicPermutation
        rw [if_neg h2]
        simp only [hlp]
      · refine ⟨fun _ i hi => ?_, fun _ => rfl⟩
        exact findLastPair_none p _ hlp i (by omega)
    | some lastPair =>
      obtain ⟨p', h1, h3, h4, h5⟩ := nextIncreasing_of_lastPair p hlen h2 lastPair hlp
      refine ⟨true, p', h1, ?_, fun h => (by cases h), fun _ => ⟨h3, h4, h5⟩⟩
      refine ⟨fun h => (by cases h), fun hni => ?_⟩
      obtain ⟨hlpB, hlt, _⟩ := findLastPair_some p _ lastPair hlp
      have := hni lastPair (by omega)
      unfold intAt at hlt
      omega

theorem nextIncreasingLexicographicPermutation_successor_witness :
    ([1, 2, 3, 4, 5] : List Int).length ≤ 2 ^ 63 ∧
    nextIncreasingLexicographicPermutation [1, 2, 3, 4, 5] = .ok (true, [1, 2, 3, 5, 4]) ∧
    nextIncreasingLexicographicPermutation [3, 2, 1] = .ok (false, [3, 2, 1]) ∧
    ∃ b p', nextIncreasingLexicographicPermutation [1, 2, 3, 4, 5] = .ok (b, p') ∧
      (b = false ↔ nonIncreasing [1, 2, 3, 4, 5]) ∧ (b = false → p' = [1, 2, 3, 4, 5]) ∧
      (b = true → p'.Perm [1, 2, 3, 4, 5] ∧ ([1, 2, 3, 4, 5] : List Int) < p' ∧
        ∀ q : List Int, q.Perm [1, 2, 3, 4, 5] → ([1, 2, 3, 4, 5] : List Int) < q → p' ≤ q) :=
  ⟨by decide, by decide, by decide,
    nextIncreasingLexicographicPermutation_successor [1, 2, 3, 4, 5] (by decide)⟩

/-- C36, as stated, fails: `modularExp(-1, 0, 1)` returns `1` (the unit test asserts this
value), whereas the residue of `(-1)^0` modulo `1` is `0`. -/
theorem modularExp_exp_zero_mod_one :
    modularExp (-1) 0 1 = .ok 1 ∧ ((-1 : Int) ^ 0 % 1 = 0) := by
  decide

/-- C36, amended: for every `int` base, `unsigned` exp and `unsigned` mod, `modularExp`
rejects `mod = 0` with `invalid_argument`; for `mod >= 1` it returns `1` when `exp = 0`
(also for `mod = 1`), and for `exp >= 1` and a non-negative base it returns
`base^exp % mod`. -/
theorem modularExp_spec (base : Int) (exp mod : Nat)
    (hb : -2 ^ 31 ≤ base ∧ base < 2 ^ 31) (he : exp < 2 ^ 32) (hm : mod < 2 ^ 32) :
    (mod = 0 → modularExp base exp mod = .error .invalidArgument) ∧
    (0 < mod → exp = 0 → modularExp base exp mod = .ok 1) ∧
    (0 < mod → 0 < exp → 0 ≤ base →
      modularExp base exp mod = .ok (base ^ exp % (mod : Int)).toNat) := by
  refine ⟨fun h0 => ?_, fun hpos h0 => ?_, fun hpos hexp hbase => ?_⟩
  · unfold modularExp
    rw [if_pos h0]
  · rw [modularExp_eq base exp mod hpos hm he, if_pos h0]
  · rw [modularExp_eq base exp mod hpos hm he, if_neg (by omega)]
    have hb' : base % 2 ^ 32 = base := Int.emod_eq_of_lt hbase (by omega)
    rw [hb']
    obtain ⟨b, rfl⟩ := Int.eq_ofNat_of_zero_le hbase
    congr 1
    rw [Int.toNat_ofNat, ← Int.natCast_pow, ← Int.natCast_mod, Int.toNat_ofNat]

theorem modularExp_spec_witness :
    ((-2 ^ 31 ≤ (3 : Int) ∧ (3 : Int) < 2 ^ 31) ∧ 644 < 2 ^ 32 ∧ 645 < 2 ^ 32) ∧
    modularExp 3 644 645 = .ok 36 ∧ modularExp 2 4 10 = .ok 6 ∧ modularExp 2 5 10 = .ok 2 ∧
    modularExp 1 1 0 = .error .invalidArgument ∧
    ((645 = 0 → modularExp 3 644 645 = .error .invalidArgument) ∧
    (0 < 645 → 644 = 0 → modularExp 3 644 645 = .ok 1) ∧
    (0 < 645 → 0 < 644 → 0 ≤ (3 : Int) →
      modularExp 3 644 645 = .ok ((3 : Int) ^ 644 % ((645 : Nat) : Int)).toNat)) :=
  ⟨⟨⟨by decide, by decide⟩, by decide, by decide⟩, by decide, by decide, by decide, by decide,
    modularExp_spec 3 644 645 ⟨by decide, by decide⟩ (by decide) (by decide)⟩

/-- C37. Evaluation of the code at a failing input: for the text "abab" row 2 of the rank
table gives the positions 0 and 2 the same rank although the prefixes of length 4 there
("abab" and "ab") differ; in the round that builds it (`cnt = 2`) the second half of
position 0 is in range and has rank `0`, the value also used for the second halves past
the end of the text (positions 2 and 3). -/
theorem rank_rows_abab :
    (SuffixArray.build (codes "abab")).map (·.prefixOrderMatrix)
      = .ok [[97, 98, 97, 98], [0, 3, 0, 2], [0, 3, 0, 2]] ∧
    idxAt [0, 3, 0, 2] 0 = idxAt [0, 3, 0, 2] 2 ∧
    (suffixFrom (codes "abab") 0).take (2 ^ 2) ≠ (suffixFrom (codes "abab") 2).take (2 ^ 2) ∧
    (setupPrefixes [0, 3, 0, 2] 4 2).map (·.chunk1) = [0, 2, 0, 0] := by
  decide

/-- C31: for every input vector of length `n` (a `size_t`) and every `r`,
`generateRCombinations` returns; for `r > n` the result is empty; for `r <= n` the result
lists, for a duplicate-free list of position selections, the elements at the selected
positions, where the list has `C(n, r)` entries and contains exactly the strictly
increasing selections of `r` positions below `n`. -/
theorem generateRCombinations_spec (inputSet : List Int) (r : Nat)
    (hn : inputSet.length < 2 ^ 64) :
    (inputSet.length < r → generateRCombinations inputSet r = .ok []) ∧
    (r ≤ inputSet.length → ∃ sels : List (List Nat),
      generateRCombinations inputSet r = .ok (sels.map fun s => s.map (intAt inputSet)) ∧
      sels.length = inputSet.length.choose r ∧ sels.Nodup ∧
      ∀ s : List Nat, s ∈ sels ↔
        (s.length = r ∧ s.Sorted (· < ·) ∧ ∀ i ∈ s, i < inputSet.length)) := by
  constructor
  · intro h
    unfold generateRCombinations
    rw [if_pos h]
  · intro h
    obtain ⟨sels, h1, h2, h3, h4⟩ := generateRCombinationsRecursive_spec inputSet hn
      (inputSet.length + 1) 0 r (Nat.zero_le _) (by omega) (by omega)
    refine ⟨sels, ?_, h2, h3, fun s => ?_⟩
    · unfold generateRCombinations
      rw [if_neg (by omega), h1]
    · rw [h4 s]
      constructor
      · rintro ⟨a, b, c⟩
        exact ⟨a, b, fun i hi => (c i hi).2⟩
      · rintro ⟨a, b, c⟩
        exact ⟨a, b, fun i hi => ⟨Nat.zero_le _, c i hi⟩⟩

theorem generateRCombinations_spec_witness :
    ([0, 1, 4, 5] : List Int).length < 2 ^ 64 ∧
    generateRCombinations [0, 1, 4, 5] 3 = .ok [[0, 1, 4], [0, 1, 5], [0, 4, 5], [1, 4, 5]] ∧
    (∀ v ∈ ([0, 1, 4, 5] : List Int),
      ([[0, 1, 4], [0, 1, 5], [0, 4, 5], [1, 4, 5]] : List (List Int)).flatten.count v = 3) ∧
    generateRCombinations [] 1 = .ok [] ∧
    (([0, 1, 4, 5] : List Int).length < 3 → generateRCombinations [0, 1, 4, 5] 3 = .ok []) ∧
    (3 ≤ ([0, 1, 4, 5] : List Int).length → ∃ sels : List (List Nat),
      generateRCombinations [0, 1, 4, 5] 3
        = .ok (sels.map fun s => s.map (intAt [0, 1, 4, 5])) ∧
      sels.length = ([0, 1, 4, 5] : List Int).length.choose 3 ∧ sels.Nodup ∧
      ∀ s : List Nat, s ∈ sels ↔
        (s.length = 3 ∧ s.Sorted (· < ·) ∧ ∀ i ∈ s, i < ([0, 1, 4, 5] : List Int).length)) :=
  ⟨by decide, by decide, by decide, by decide,
    generateRCombinations_spec [0, 1, 4, 5] 3 (by decide)⟩

/-- C32: for every vector of `n` elements, `k` successive calls of `nextSubset` on a new
`SubsetGenerator` return, call `c` giving the elements at the set positions of the mask
after `c` calls; these position selections are strictly increasing with entries below `n`,
those of the first `2^n` calls are pairwise different and include every strictly increasing
selection of positions below `n`, the selection of call `2^n` is empty and no earlier call
has an empty selection or returns an empty subset. -/
theorem subsetGenerator_enumerates (totalSet : List Int) :
    (∀ k, (SubsetGenerator.nextSubsets k (SubsetGenerator.new totalSet)).map (·.1)
      = .ok ((List.range k).map fun c =>
          (maskPositions (maskAfter totalSet.length (c + 1))).map (intAt totalSet))) ∧
    (∀ c, (maskPositions (maskAfter totalSet.length c)).Sorted (· < ·) ∧
      ∀ i ∈ maskPositions (maskAfter totalSet.length c), i < totalSet.length) ∧
    (∀ c d, 1 ≤ c → c < d → d ≤ 2 ^ totalSet.length →
      maskPositions (maskAfter totalSet.length c)
        ≠ maskPositions (maskAfter totalSet.length d)) ∧
    (∀ s : List Nat, s.Sorted (· < ·) → (∀ i ∈ s, i < totalSet.length) →
      ∃ c, 1 ≤ c ∧ c ≤ 2 ^ totalSet.length ∧
        maskPositions (maskAfter totalSet.length c) = s) ∧
    maskPositions (maskAfter totalSet.length (2 ^ totalSet.length)) = [] ∧
    (∀ c, 1 ≤ c → c < 2 ^ totalSet.length →
      maskPositions (maskAfter totalSet.length c) ≠ [] ∧
      (maskPositions (maskAfter totalSet.length c)).map (intAt totalSet) ≠ []) := by
  have hdiff : ∀ c d, 1 ≤ c → c < d → d ≤ 2 ^ totalSet.length →
      maskPositions (maskAfter totalSet.length c)
        ≠ maskPositions (maskAfter totalSet.length d) := by
    intro c d hc hcd hd heq
    have hm := mask_eq_of_maskPositions_eq
      (by rw [length_maskAfter, length_maskAfter]) heq
    have hv := congrArg maskValue hm
    rw [maskValue_maskAfter, maskValue_maskAfter, Nat.mod_eq_of_lt (by omega)] at hv
    by_cases hd2 : d = 2 ^ totalSet.length
    · rw [hd2, Nat.mod_self] at hv
      omega
    · rw [Nat.mod_eq_of_lt (by omega)] at hv
      omega
  have hlast : maskPositions (maskAfter totalSet.length (2 ^ totalSet.length)) = [] :=
    maskPositions_eq_nil (by rw [maskValue_maskAfter, Nat.mod_self])
  refine ⟨fun k => ?_, fun c => ⟨maskPositions_sorted _, fun i hi => ?_⟩, hdiff,
    maskPositions_complete totalSet.length, hlast, fun c hc hcl => ?_⟩
  · have h := nextSubsets_spec totalSet k 0
    have h0 : SubsetGenerator.new totalSet
        = { m_totalSet := totalSet, m_subsetMask := maskAfter totalSet.length 0 } := rfl
    rw [h0, h]
    simp only [Except.map, Nat.zero_add]
  · have := ((mem_maskPositions _ i).1 hi).1
    rwa [length_maskAfter] at this
  · have hne : maskPositions (maskAfter totalSet.length c) ≠ [] := by
      intro h
      exact hdiff c (2 ^ totalSet.length) hc hcl (Nat.le_refl _) (h.trans hlast.symm)
    exact ⟨hne, fun h => hne (List.map_eq_nil_iff.1 h)⟩

theorem subsetGenerator_enumerates_witness :
    (SubsetGenerator.nextSubsets 8 (SubsetGenerator.new [0, 1, 4])).map (·.1)
      = .ok [[0], [1], [0, 1], [4], [0, 4], [1, 4], [0, 1, 4], []] ∧
    (1 ≤ 3 ∧ 3 < 7 ∧ 7 ≤ 2 ^ ([0, 1, 4] : List Int).length) ∧
    maskPositions (maskAfter ([0, 1, 4] : List Int).length 3)
      ≠ maskPositions (maskAfter ([0, 1, 4] : List Int).length 7) :=
  ⟨by decide, ⟨by decide, by decide, by decide⟩,
    (subsetGenerator_enumerates [0, 1, 4]).2.2.1 3 7 (by decide) (by decide) (by decide)⟩

/-- C35. Evaluation of the code at a failing input: for `data = {1, 1}` and
`maxDividers = 2^64 - 1` the sum `maxDividers + 1` wraps to `rangeCount = 0`, the rows of
`rangeEnd` are empty, and the last loop starts at `k = 2^64 - 1` and reads
`rangeEnd[1][2^64 - 1]`, outside the row. -/
theorem partitionRange_max_dividers :
    (2 ^ 64 - 1 + 1) % 2 ^ indexBits = 0 ∧
    partitionRange [1, 1] (2 ^ 64 - 1) = .error .outOfBounds := by
  decide

/-- C33: for all strings `s1`, `s2` (sizes below `2^64 - 1`) `longestCommonSubsequence`
returns; the returned length `m` is the greatest length of a common subsequence of `s1` and
`s2`, and `0` when either string is empty; without a container nothing is stored; with a
container and `m > 0` the container receives a non-empty set of strings, each of them a
common subsequence of `s1` and `s2` of length `m`; with a container and `m = 0` the
container is left as it was. -/
theorem longestCommonSubsequence_spec (s1 s2 : List Char)
    (sequences : Option (Finset (List Char)))
    (h1 : s1.length + 1 < 2 ^ 64) (h2 : s2.length + 1 < 2 ^ 64) :
    ∃ (m : Nat) (out : Option (Finset (List Char))),
      longestCommonSubsequence s1 s2 sequences = .ok (m, out) ∧
      (∃ w : List Char, w.Sublist s1 ∧ w.Sublist s2 ∧ w.length = m) ∧
      (∀ w : List Char, w.Sublist s1 → w.Sublist s2 → w.length ≤ m) ∧
      (s1 = [] ∨ s2 = [] → m = 0) ∧
      (sequences = none → out = none) ∧
      (∀ c, sequences = some c → 0 < m → ∃ S : Finset (List Char), out = some S ∧
        S.Nonempty ∧ ∀ w ∈ S, w.Sublist s1 ∧ w.Sublist s2 ∧ w.length = m) ∧
      (∀ c, sequences = some c → m = 0 → out = some c) := by
  by_cases he : s1.length = 0 ∨ s2.length = 0
  · have hz : IsLcsLength s1 s2 0 := by
      rcases he with h | h
      · rw [List.length_eq_zero.1 h]
        exact isLcsLength_nil_left _
      · rw [List.length_eq_zero.1 h]
        exact isLcsLength_nil_right _
    refine ⟨0, sequences, ?_, hz.1, hz.2, fun _ => rfl, fun h => h, fun c _ h => ?_,
      fun c h _ => h⟩
    · unfold longestCommonSubsequence
      rw [if_pos he]
    · omega
  · have hm1 : (s1.length + 1) % 2 ^ indexBits = s1.length + 1 := Nat.mod_eq_of_lt h1
    have hm2 : (s2.length + 1) % 2 ^ indexBits = s2.length + 1 := Nat.mod_eq_of_lt h2
    have hinv := lcsTableLoop_spec s1 s2 h1 s1.length 1 _ (Nat.le_refl _) (by omega)
      (lcsInv_init s1 s2)
    obtain ⟨_, _, hcells⟩ := hinv
    have hT : ∀ a b, a ≤ s1.length → b ≤ s2.length →
        IsLcsLength (s1.take a) (s2.take b)
          (idxCellAt (lcsTableLoop s1 s2 (s2.length + 1) s1.length 1
            (List.replicate (s1.length + 1) (List.replicate (s2.length + 1) 0))) a b) :=
      fun a b ha hb => hcells a b ha hb (by omega)
    have hfin := hT s1.length s2.length (Nat.le_refl _) (Nat.le_refl _)
    rw [List.take_length, List.take_length] at hfin
    have hne : ¬ (s1 = [] ∨ s2 = []) := by
      intro h
      apply he
      rcases h with h | h
      · exact Or.inl (by rw [h]; rfl)
      · exact Or.inr (by rw [h]; rfl)
    cases sequences with
    | none =>
      refine ⟨_, none, ?_, hfin.1, hfin.2, fun h => absurd h hne, fun _ => rfl,
        fun c h => (by cases h), fun c h => (by cases h)⟩
      unfold longestCommonSubsequence
      rw [if_neg he, hm1, hm2]
      simp only [Nat.add_sub_cancel]
    | some c =>
      by_cases hpos : 0 < idxCellAt (lcsTableLoop s1 s2 (s2.length + 1) s1.length 1
          (List.replicate (s1.length + 1) (List.replicate (s2.length + 1) 0)))
          s1.length s2.length
      · obtain ⟨S, hS, hmem, hnon⟩ := backtrackAllLongestSubsequences_spec _ s1 s2 hT
          (s1.length + 1 + (s2.length + 1)) s1.length s2.length false (Nat.le_refl _)
          (Nat.le_refl _) (by omega)
        refine ⟨_, some S, ?_, hfin.1, hfin.2, fun h => absurd h hne, fun h => (by cases h),
          fun c' _ _ => ⟨S, rfl, hnon (Or.inr hpos), fun w hw => ?_⟩, fun c' _ h => ?_⟩
        · unfold longestCommonSubsequence
          rw [if_neg he, hm1, hm2]
          simp only [Nat.add_sub_cancel]
          rw [if_pos hpos, hS]
          rfl
        · have := hmem w hw
          rwa [List.take_length, List.take_length] at this
        · omega
      · refine ⟨_, some c, ?_, hfin.1, hfin.2, fun h => absurd h hne, fun h => (by cases h),
          fun c' _ h => absurd h hpos, fun c' h _ => h⟩
        unfold longestCommonSubsequence
        rw [if_neg he, hm1, hm2]
        simp only [Nat.add_sub_cancel]
        rw [if_neg hpos]

set_option maxRecDepth 100000 in
theorem longestCommonSubsequence_spec_witness :
    ("anaconda".toList.length + 1 < 2 ^ 64 ∧ "anagram".toList.length + 1 < 2 ^ 64) ∧
    longestCommonSubsequence "anaconda".toList "anagram".toList (some ∅)
      = .ok (4, some {"anaa".toList}) ∧
    longestCommonSubsequence "anaconda".toList "ala".toList none = .ok (2, none) ∧
    ∃ (m : Nat) (out : Option (Finset (List Char))),
      longestCommonSubsequence "anaconda".toList "anagram".toList (some ∅) = .ok (m, out) ∧
      (∃ w : List Char, w.Sublist "anaconda".toList ∧ w.Sublist "anagram".toList ∧
        w.length = m) ∧
      (∀ w : List Char, w.Sublist "anaconda".toList → w.Sublist "anagram".toList →
        w.length ≤ m) ∧
      ("anaconda".toList = [] ∨ "anagram".toList = [] → m = 0) ∧
      ((some ∅ : Option (Finset (List Char))) = none → out = none) ∧
      (∀ c, (some ∅ : Option (Finset (List Char))) = some c → 0 < m →
        ∃ S : Finset (List Char), out = some S ∧ S.Nonempty ∧
          ∀ w ∈ S, w.Sublist "anaconda".toList ∧ w.Sublist "anagram".toList ∧
            w.length = m) ∧
      (∀ c, (some ∅ : Option (Finset (List Char))) = some c → m = 0 → out = some c) :=
  ⟨⟨by decide, by decide⟩, by decide, by decide,
    longestCommonSubsequence_spec "anaconda".toList "anagram".toList (some ∅)
      (by decide) (by decide)⟩

/-- C34: for all strings `s1`, `s2` (sizes together below `2^64 - 1`)
`approximativeStringMatching` with `MatchConfigGenericImpl` returns a number `d` such that
`s2` is reached from `s1` by `d` successive single-character substitutions, insertions and
deletions and by no fewer; `d` is the Levenshtein distance of Mathlib with default costs;
`d` is `0` exactly when `s1 = s2`; and the call with the strings exchanged returns `d`
too. -/
theorem approximativeStringMatching_spec (s1 s2 : List Char)
    (hlen : s1.length + s2.length < 2 ^ 64 - 1) :
    ∃ d, approximativeStringMatching s1 s2 MatchConfigGenericImpl = .ok d ∧
      EditChain s1 s2 d ∧ (∀ n, EditChain s1 s2 n → d ≤ n) ∧
      d = levenshtein Levenshtein.defaultCost s1 s2 ∧
      (d = 0 ↔ s1 = s2) ∧
      approximativeStringMatching s2 s1 MatchConfigGenericImpl = .ok d := by
  obtain ⟨d, hd, hdist⟩ := approximativeStringMatching_isEditDistance s1 s2 hlen
  obtain ⟨d', hd', hdist'⟩ := approximativeStringMatching_isEditDistance s2 s1
    (by rw [Nat.add_comm]; exact hlen)
  refine ⟨d, hd, hdist.chain.1, hdist.chain.2,
    hdist.unique_distance (isEditDistance_levenshtein s1 s2), hdist.eq_zero_iff, ?_⟩
  rw [hd', hdist'.unique_distance hdist.symm]

set_option maxRecDepth 100000 in
theorem approximativeStringMatching_spec_witness :
    "kola".toList.length + "koala".toList.length < 2 ^ 64 - 1 ∧
    approximativeStringMatching "kola".toList "koala".toList MatchConfigGenericImpl = .ok 1 ∧
    approximativeStringMatching "koala".toList "kola".toList MatchConfigGenericImpl = .ok 1 ∧
    approximativeStringMatching "kola".toList "kola".toList MatchConfigGenericImpl = .ok 0 ∧
    approximativeStringMatching "kola".toList "a".toList MatchConfigGenericImpl = .ok 3 ∧
    ∃ d, approximativeStringMatching "kola".toList "koala".toList MatchConfigGenericImpl
        = .ok d ∧
      EditChain "kola".toList "koala".toList d ∧
      (∀ n, EditChain "kola".toList "koala".toList n → d ≤ n) ∧
      d = levenshtein Levenshtein.defaultCost "kola".toList "koala".toList ∧
      (d = 0 ↔ "kola".toList = "koala".toList) ∧
      approximativeStringMatching "koala".toList "kola".toList MatchConfigGenericImpl
        = .ok d :=
  ⟨by decide, by decide, by decide, by decide, by decide,
    approximativeStringMatching_spec "kola".toList "koala".toList (by decide)⟩

end GADS
